import Mathlib

/-!
Verification of the Recursive Partitioning Algorithm packing engine.

This file contains a shallow embedding, in Lean 4, of the core of the
MPLP (manufacturer's pallet loading problem) packing engine:

* the bit-packed record codec (src/util.h);
* the input-validation guard of pack (src/main.cpp);
* the integer conic-combination set, the normalization table and the
  raster-point sets (src/sets.cpp, src/bd.cpp initialize);
* the L-piece data model, the symmetry normalizer normalizePiece and the
  subdivision operators standardPositionB1 .. B9 (src/util.cpp);
* the five-block solver BD with its memoization state (src/bd.cpp),
  threaded as an explicit state record, with an explicit fuel parameter
  standing for the (always sufficient) call-stack depth;
* the L-solver solve/divideL/divideB6/divideB7 (src/main.cpp) and the
  pieces of pack and of the reconstruction that the claims mention.

Conventions.  C int values that are always non-negative in the program
(dimensions, coordinates, counts) are modelled as Nat; values that the
source compares against the -1 sentinel or that may be produced by C
subtraction are modelled as Int.  Memoization matrices, which the source
keys through the index arrays indexX / indexY (injective on the stored
point set), are modelled as total functions keyed directly by the
normalized dimension pair.  Each lb-table write goes through writeLb,
which also records, in a ghost Boolean field, whether the write was
monotone (the value stored is at least the value replaced).
-/

namespace RPA

/-! Constants of the bit-packed record codec, from src/util.h. -/

def HOMOGENEOUS : Nat := 0
def B1 : Nat := 1
def B2 : Nat := 2
def B3 : Nat := 3
def B4 : Nat := 4
def B5 : Nat := 5
def B6 : Nat := 6
def B7 : Nat := 7
def B8 : Nat := 8
def B9 : Nat := 9

def HORIZONTAL_CUT : Nat := 0
def VERTICAL_CUT : Nat := 1

def nRet : Nat := 134217727

def solucao : Nat := 2013265920

def descSol : Nat := 27

def ptoDiv1 : Nat := 2047

def ptoDiv2 : Nat := 4192256

def ptoDiv3 : Nat := 4290772992

def descPtoDiv2 : Nat := 11

def descPtoDiv3 : Nat := 22

/-- Machine words are 32-bit; stores into the int-typed record words are
reduced modulo 2^32 (two's-complement wrap of the C int). -/
def wordMod : Nat := 4294967296

/-- Solution word as assembled in divideL (main.cpp): count ||| (tag << descSol),
stored in a 32-bit int. -/
def packSolutionWord (c t : Nat) : Nat := (c ||| (t <<< descSol)) % wordMod

/-- Division word as assembled in divideB6 (main.cpp drawB6 reads it back):
d1 ||| (d2 << descPtoDiv2) ||| (d3 << descPtoDiv3), stored in a 32-bit int. -/
def packDivisionWord (d1 d2 d3 : Nat) : Nat :=
  ((d1 ||| (d2 <<< descPtoDiv2)) ||| (d3 <<< descPtoDiv3)) % wordMod

/-- Count extraction: word & nRet. -/
def getCount (sw : Nat) : Nat := sw &&& nRet

/-- Subdivision-tag extraction as in drawR: (word & solucao) >> descSol. -/
def getTag (sw : Nat) : Nat := (sw &&& solucao) >>> descSol

/-- First division coordinate: word & ptoDiv1. -/
def getDiv1 (dw : Nat) : Nat := dw &&& ptoDiv1

/-- Second division coordinate: (word & ptoDiv2) >> descPtoDiv2. -/
def getDiv2 (dw : Nat) : Nat := (dw &&& ptoDiv2) >>> descPtoDiv2

/-- Third division coordinate: (word & ptoDiv3) >> descPtoDiv3. -/
def getDiv3 (dw : Nat) : Nat := (dw &&& ptoDiv3) >>> descPtoDiv3

/-! Input validation of pack (src/main.cpp lines 1307-1315).  The guard
returns NULL (the error signal) exactly when a dimension is non-positive;
no other input is rejected. -/

/-- Condition under which pack returns NULL, from the source:
if (L <= 0 || W <= 0 || l <= 0 || w <= 0). -/
def packInvalidDims (L W l w : Int) : Bool :=
  decide (L ≤ 0) || decide (W ≤ 0) || decide (l ≤ 0) || decide (w ≤ 0)

/-! Integer-set utilities (src/sets.cpp). -/

/-- Write position i of a list (the c array of constructConicCombinations). -/
def listSet : List Nat → Nat → Nat → List Nat
  | [], _, _ => []
  | _ :: xs, 0, v => v :: xs
  | x :: xs, n+1, v => x :: listSet xs n v

/-- Read position i of a list, defaulting to 0 (calloc zero-initialization). -/
def listGet (xs : List Nat) (i : Nat) : Nat := xs.getD i 0

/-- One DP pass of constructConicCombinations for box side d:
for i = d..L, c[i] = max c[i] (c[i-d] + d), sequentially left to right. -/
def conicPass (L d : Nat) (c : List Nat) : List Nat :=
  (List.range (L+1)).foldl
    (fun a i =>
      if d ≤ i then
        if listGet a i < listGet a (i - d) + d then
          listSet a i (listGet a (i - d) + d)
        else a
      else a) c

/-- The c array after both passes (first l, then w), over indices 0..L. -/
def conicArr (L l w : Nat) : List Nat :=
  conicPass L w (conicPass L l (List.replicate (L+1) 0))

/-- The set X of integer conic combinations as constructed by
constructConicCombinations: 0, then every 1 ≤ i ≤ L with c[i] = i in
ascending order, then L appended if it is not already the last element. -/
def conicSet (L l w : Nat) : List Nat :=
  let c := conicArr L l w
  let base := 0 :: ((List.range (L+1)).filter (fun i => 0 < i ∧ listGet c i = i))
  if base.getLast? = some L then base else base ++ [L]

/-- Normalization lookup over a sorted set X:
normalize[j] = the last element of X that is ≤ j (bd.cpp initialize builds
the table by one left-to-right scan; on the sorted set this is the last
element of the prefix of elements ≤ j). -/
def normAt (X : List Nat) (j : Nat) : Nat :=
  (X.takeWhile (fun s => s ≤ j)).getLastD 0

/-- The state of a conicPass DP fold after its first k iterations (proof
device for analysing the pass). -/
def passState (d : Nat) (c : List Nat) (k : Nat) : List Nat :=
  (List.range k).foldl
    (fun a i =>
      if d ≤ i then
        if listGet a i < listGet a (i - d) + d then
          listSet a i (listGet a (i - d) + d)
        else a
      else a) c

/-- Integer conic combinations of the two box sides. -/
def isConic (l w n : Nat) : Prop := ∃ a b : Nat, n = a * l + b * w

/-! L-piece data model and symmetry normalizer (src/util.cpp). -/

/-- L-piece q = (i, j, i1, j1): the region [0,i] x [0,j] minus the open
notch (i1, i] x (j1, j].  Coordinates are C ints; the source marks a piece
as unusable by storing -1 into q[0]. -/
structure Piece where
  i : Int
  j : Int
  i1 : Int
  j1 : Int
deriving DecidableEq, Repr

/-- Area of an L-piece as computed by L_UpperBound and normalizePiece:
i*j - (i - i1)*(j - j1). -/
def area (q : Piece) : Int := q.i * q.j - (q.i - q.i1) * (q.j - q.j1)

/-- Rule (4) rewriting of degenerated L-pieces, the first block of
normalizePiece (util.cpp 97-112). -/
def rule4 (q : Piece) : Piece :=
  if q.i1 = 0 then ⟨q.i, q.j1, q.i, q.j1⟩
  else if q.j1 = 0 then ⟨q.i1, q.j, q.i1, q.j⟩
  else if q.i1 = q.i ∨ q.j1 = q.j then ⟨q.i, q.j, q.i, q.j⟩
  else q

/-- normalizePiece (util.cpp 87-142): rule-4 rewrite, discard pieces whose
area is below the box area (q0 = -1 sentinel, other fields keep the input
values as in the source), then the i ≥ j symmetry swaps. -/
def normalizePiece (l w : Int) (q : Piece) : Piece :=
  let r := rule4 q
  if area r < l * w then ⟨-1, q.j, q.i1, q.j1⟩
  else
    let r2 := if r.i = r.i1 ∧ r.j = r.j1 ∧ r.i < r.j then Piece.mk r.j r.i r.j1 r.i1 else r
    if 0 < r2.i1 ∧ r2.i1 < r2.i ∧ 0 < r2.j1 ∧ r2.j1 < r2.j ∧ r2.i < r2.j then
      Piece.mk r2.j r2.i r2.j1 r2.i1
    else if 0 < r2.i1 ∧ r2.i1 < r2.i ∧ 0 < r2.j1 ∧ r2.j1 < r2.j ∧ r2.i = r2.j ∧ r2.i1 < r2.j1 then
      Piece.mk r2.i r2.j r2.j1 r2.i1
    else r2

/-! Subdivision operators B1 .. B9 (src/util.cpp standardPositionB1 .. B9).
Each takes the normalization function nrm (the normalize table), the free
cut coordinates and the piece, and yields the two sub-pieces in standard
position.  xp, yp, xpp, ypp stand for the source's x', y', x'', y''. -/

def standardPositionB1 (nrm : Int → Int) (xp yp : Int) (q : Piece) : Piece × Piece :=
  (⟨q.i1, nrm (q.j - yp), xp, nrm (q.j - q.j1)⟩,
   ⟨q.i, q.j1, nrm (q.i - xp), yp⟩)

def standardPositionB2 (nrm : Int → Int) (xp yp : Int) (q : Piece) : Piece × Piece :=
  (⟨q.i1, nrm (q.j - q.j1), nrm (q.i1 - xp), nrm (q.j - yp)⟩,
   ⟨q.i, yp, xp, q.j1⟩)

def standardPositionB3 (nrm : Int → Int) (xp yp : Int) (q : Piece) : Piece × Piece :=
  (⟨q.i, q.j, xp, yp⟩,
   ⟨nrm (q.i - xp), nrm (q.j - yp), nrm (q.i1 - xp), nrm (q.j1 - yp)⟩)

def standardPositionB4 (nrm : Int → Int) (xp yp : Int) (q : Piece) : Piece × Piece :=
  (⟨xp, q.j, q.i1, yp⟩,
   ⟨nrm (q.i - q.i1), q.j1, nrm (q.i - xp), nrm (q.j1 - yp)⟩)

def standardPositionB5 (nrm : Int → Int) (xp yp : Int) (q : Piece) : Piece × Piece :=
  (⟨q.i1, q.j, xp, nrm (q.j - yp)⟩,
   ⟨nrm (q.i - xp), q.j1, nrm (q.i - q.i1), yp⟩)

def standardPositionB6 (nrm : Int → Int) (xp yp xpp : Int) (q : Piece) : Piece × Piece :=
  (⟨xpp, q.j, xp, nrm (q.j - yp)⟩,
   ⟨nrm (q.i - xp), q.j, nrm (q.i - xpp), yp⟩)

def standardPositionB7 (nrm : Int → Int) (xp yp ypp : Int) (q : Piece) : Piece × Piece :=
  (⟨q.i, nrm (q.j - yp), xp, nrm (q.j - ypp)⟩,
   ⟨q.i, ypp, nrm (q.i - xp), yp⟩)

def standardPositionB8 (nrm : Int → Int) (xp yp : Int) (q : Piece) : Piece × Piece :=
  (⟨q.i1, q.j, xp, nrm (q.j - yp)⟩,
   ⟨nrm (q.i - xp), yp, nrm (q.i1 - xp), q.j1⟩)

def standardPositionB9 (nrm : Int → Int) (xp yp : Int) (q : Piece) : Piece × Piece :=
  (⟨xp, nrm (q.j - yp), q.i1, nrm (q.j1 - yp)⟩,
   ⟨q.i, q.j1, nrm (q.i - xp), yp⟩)

/-! Bounds accessors shared by solve and the reconstruction. -/

/-- L_UpperBound (main.cpp 159-164): area divided by the box area.  The C
division of two non-negative ints agrees with Int division here. -/
def L_UpperBound (l w : Int) (q : Piece) : Int := area q / (l * w)

/-- R_LowerBound (main.cpp 180-186 and draw.cpp 74-80): lowerBound table
lookup at normalized coordinates.  The table, keyed in the source through
indexX/indexY, is modelled as a function of the normalized dimensions. -/
def R_LowerBound (lb : Int → Int → Int) (nrm : Int → Int) (x y : Int) : Int :=
  lb (nrm x) (nrm y)

/-- L_LowerBound (main.cpp 211-232): the best of the two rectangle splits
of the L, together with the horizontalCut flag the solver records.
a is the horizontal-cut value, b the vertical-cut value; horizontalCut is
set exactly when a > b. -/
def L_LowerBoundPair (lb : Int → Int → Int) (nrm : Int → Int) (q : Piece) : Int × Bool :=
  let a := lb (nrm q.i1) (nrm (q.j - q.j1)) + lb (nrm q.i) (nrm q.j1)
  let b := lb (nrm q.i1) (nrm q.j) + lb (nrm (q.i - q.i1)) (nrm q.j1)
  if a > b then (a, true) else (b, false)

/-- LCut (draw.cpp 91-100): the split direction recomputed at
reconstruction time; a is the vertical-cut value, b the horizontal-cut
value, and VERTICAL_CUT is returned exactly when a > b. -/
def LCut (lb : Int → Int → Int) (nrm : Int → Int) (q : Piece) : Nat :=
  let a := R_LowerBound lb nrm q.i1 q.j + R_LowerBound lb nrm (q.i - q.i1) q.j1
  let b := R_LowerBound lb nrm q.i1 (q.j - q.j1) + R_LowerBound lb nrm q.i q.j1
  if a > b then VERTICAL_CUT else HORIZONTAL_CUT

/-- The split direction that realised L_LowerBound when solve seeded the
record of a non-degenerate L (main.cpp 762-774). -/
def seededCutDir (lb : Int → Int → Int) (nrm : Int → Int) (q : Piece) : Nat :=
  if (L_LowerBoundPair lb nrm q).2 then HORIZONTAL_CUT else VERTICAL_CUT

/-! Five-block partitions (src/bd.cpp BD, lines 464-478) and the
normalization applied to each partition by solve (bd.cpp 171-188). -/

/-- The five sub-rectangles determined by a first-order non-guillotine cut
(x1, x2, y1, y2) of the rectangle (L, W). -/
def fiveBlocks (L W x1 x2 y1 y2 : Int) : List (Int × Int) :=
  [(x1, W - y1), (L - x1, W - y2), (x2 - x1, y2 - y1), (x2, y1), (L - x2, y2)]

/-- Normalization and the Li ≥ Wi swap applied to a partition. -/
def normBlock (nrm : Int → Int) (p : Int × Int) : Int × Int :=
  let a := nrm p.1
  let b := nrm p.2
  if a < b then (b, a) else (a, b)

/-! Raster-point sets (src/sets.cpp constructRasterPoints). -/

/-- Drop the trailing elements that exceed B (the xSize trimming loop). -/
def trimEnd (B : Nat) (xs : List Nat) : List Nat :=
  (xs.reverse.dropWhile (fun v => decide (B < v))).reverse

/-- insert (sets.cpp 51-65): append the element when it exceeds the current
last element of the (ascending) set, otherwise leave the set unchanged. -/
def rasterInsert (s : List Nat) (x : Nat) : List Nat :=
  if s.length = 0 ∨ s.getLastD 0 < x then s ++ [x] else s

/-- One raster-point set: for the elements x of the conic set that are ≤ B,
taken in descending order, insert normalize[B - x]. -/
def constructRaster1 (B : Nat) (conic : List Nat) (nrm : Nat → Nat) : List Nat :=
  ((trimEnd B conic).reverse).foldl (fun a x => rasterInsert a (nrm (B - x))) []

/-! Merged raster set with sentinel: the loop shared by initialize
(bd.cpp 674-714, bounds L_n/W_n) and makeIndices (main.cpp 1053-1089,
bounds L/W). -/

/-- Main merge loop: while both lists have elements within bounds, emit the
smaller head (one copy when equal); return the accumulator and the
unconsumed remainder of the first list.  The fuel argument makes the
recursion structural; mergedSet supplies fuel covering both list lengths,
and each step consumes at least one element. -/
def mergeMain (bx bw : Nat) : Nat → List Nat → List Nat → List Nat → List Nat × List Nat
  | 0, xs, _, acc => (acc, xs)
  | fuel + 1, x :: xs, y :: ys, acc =>
    if x ≤ bx ∧ y ≤ bw then
      if x = y then mergeMain bx bw fuel xs ys (acc ++ [x])
      else if x < y then mergeMain bx bw fuel xs (y :: ys) (acc ++ [x])
      else mergeMain bx bw fuel (x :: xs) ys (acc ++ [y])
    else (acc, x :: xs)
  | _ + 1, xs, _, acc => (acc, xs)

/-- Merged set: main merge, drain of the x-remainder that is ≤ bx with the
greater-than-last dedup check, append bx when the last element is below it,
then the sentinel bx + 1. -/
def mergedSet (bx bw : Nat) (xs ys : List Nat) : List Nat :=
  let mr := mergeMain bx bw (xs.length + ys.length) xs ys []
  let acc2 := (mr.2.takeWhile (fun v => v ≤ bx)).foldl
    (fun a x => if a.getLastD 0 < x then a ++ [x] else a) mr.1
  let acc3 := if 0 < acc2.length ∧ acc2.getLastD 0 < bx then acc2 ++ [bx] else acc2
  acc3 ++ [bx + 1]

/-! Bounds oracle (src/bd.cpp). -/

/-- Homogeneous lower bound (the lowerBound macro of bd.cpp):
max((L/l)*(W/w), (L/w)*(W/l)). -/
def homLB (l w x y : Nat) : Int :=
  (max ((x / l) * (y / w)) ((x / w) * (y / l)) : Nat)

/-- barnesBound (bd.cpp 605-636), with C truncated division and modulus. -/
def barnesBound (l w x y : Nat) : Int :=
  let LW : Int := (x : Int) * (y : Int)
  let lw : Int := (l : Int) * (w : Int)
  let minWaste : Int := Int.tmod LW lw
  let A : Int := min ((Int.tmod x l) * (Int.tmod y l))
    (((l : Int) - Int.tmod x l) * ((l : Int) - Int.tmod y l))
  let B : Int := min ((Int.tmod x w) * (Int.tmod y w))
    (((w : Int) - Int.tmod x w) * ((w : Int) - Int.tmod y w))
  let maxAB : Int := max A B
  let D : Int :=
    if minWaste ≥ Int.tmod maxAB lw then (Int.tdiv maxAB lw) * lw + minWaste
    else (Int.tdiv maxAB lw + 1) * lw + minWaste
  Int.tdiv (LW - D) lw

/-! Memoization state of the BD solver (the lowerBound, upperBound,
solutionDepth, reachedLimit and cutPoints matrices of bd.cpp), keyed by
the normalized dimension pair.  The ghost field ok records whether every
write performed through writeLb stored a value at least as large as the
value it replaced. -/

structure CutPoint where
  x1 : Nat
  x2 : Nat
  y1 : Nat
  y2 : Nat
  homogeneous : Int
deriving DecidableEq, Repr

structure BDState where
  lb : Nat → Nat → Int
  ub : Nat → Nat → Int
  sDepth : Nat → Nat → Int
  reached : Nat → Nat → Int
  cut : Nat → Nat → CutPoint
  ok : Bool

/-- Write to the lowerBound table; the ghost flag records monotonicity of
this write. -/
def writeLb (x y : Nat) (v : Int) (s : BDState) : BDState :=
  { s with
    lb := fun a b => if a = x ∧ b = y then v else s.lb a b
    ok := s.ok && decide (s.lb x y ≤ v) }

def writeSDepth (x y : Nat) (v : Int) (s : BDState) : BDState :=
  { s with sDepth := fun a b => if a = x ∧ b = y then v else s.sDepth a b }

def writeReached (x y : Nat) (v : Int) (s : BDState) : BDState :=
  { s with reached := fun a b => if a = x ∧ b = y then v else s.reached a b }

/-- storeCutPoint (bd.cpp 117-122). -/
def storeCutPoint (x y x1 x2 y1 y2 : Nat) (s : BDState) : BDState :=
  { s with cut := fun a b => if a = x ∧ b = y then ⟨x1, x2, y1, y2, 0⟩ else s.cut a b }

/-- localUpperBound (bd.cpp 97-108). -/
def localUpperBound (s : BDState) (x y : Nat) : Int :=
  if s.sDepth x y = -1 then s.lb x y else s.ub x y

/-- Per-call context of the solver: box sides, recursion cap N, the
normalize table and the merged point set used for raster construction. -/
structure Ctx where
  l : Nat
  w : Nat
  NN : Int
  nrm : Nat → Nat
  conic : List Nat

/-- Result of the solve helper of bd.cpp: whether the problem was just
solved to optimality, the updated lower bound for (L, W) and the state. -/
structure PartRes where
  solved : Bool
  zlb : Int
  st : BDState

/-- Normalization and Li ≥ Wi swap of one partition, on Nat dimensions. -/
def normBlockN (nrm : Nat → Nat) (p : Nat × Nat) : Nat × Nat :=
  let a := nrm p.1
  let b := nrm p.2
  if a < b then (b, a) else (a, b)

/-- Inner loop of solve (bd.cpp 220-291): for each partition, either reuse
the cached bound or solve the child through bdf, write the child bound,
update the running sums, and prune / adopt / certify exactly as the
source does. -/
def solveGo (bdf : Nat → Nat → Nat → BDState → Int × BDState)
    (L W n : Nat) (zub : Int) (x1 x2 y1 y2 : Nat) :
    List ((Nat × Nat) × Int × Int) → Int → Int → Int → BDState → PartRes
  | [], zlb, _, _, s => ⟨false, zlb, s⟩
  | (p, zil, ziu) :: rest, zlb, SLb, SUb, s =>
    let zs :=
      if s.sDepth p.1 p.2 > (n : Int) then
        let r := bdf p.1 p.2 (n + 1) s
        let s1 := writeLb p.1 p.2 r.1 r.2
        let s2 :=
          if s1.reached p.1 p.2 = 0 then writeSDepth p.1 p.2 (-1) s1
          else writeSDepth p.1 p.2 (n : Int) s1
        (r.1, s2)
      else (s.lb p.1 p.2, s)
    let z := zs.1
    let s3 := if zs.2.reached p.1 p.2 = 1 then writeReached L W 1 zs.2 else zs.2
    let SLb2 := SLb - zil + z
    let SUb2 := SUb - ziu + z
    if zlb ≥ SUb2 then ⟨false, zlb, s3⟩
    else if SLb2 > zlb then
      let s4 := storeCutPoint L W x1 x2 y1 y2 s3
      if SLb2 = zub then
        ⟨true, SLb2, writeReached L W 0 (writeSDepth L W (-1) s4)⟩
      else solveGo bdf L W n zub x1 x2 y1 y2 rest SLb2 SLb2 SUb2 s4
    else solveGo bdf L W n zub x1 x2 y1 y2 rest zlb SLb2 SUb2 s3

/-- solve (bd.cpp 151-328): normalize the partitions, then either the
depth-bounded branch (n < N) with recursive solving, or the depth-cap
branch that sums the current lower bounds. -/
def solvePart (bdf : Nat → Nat → Nat → BDState → Int × BDState)
    (NN : Int) (nrm : Nat → Nat) (L W n : Nat)
    (blocksRaw : List (Nat × Nat)) (zlb zub : Int)
    (x1 x2 y1 y2 : Nat) (s : BDState) : PartRes :=
  let blocks := blocksRaw.map (normBlockN nrm)
  if (n : Int) < NN then
    let zilbs := blocks.map (fun p => s.lb p.1 p.2)
    let ziubs := blocks.map (fun p => localUpperBound s p.1 p.2)
    let SLb := zilbs.sum
    let SUb := ziubs.sum
    if zlb < SUb then
      solveGo bdf L W n zub x1 x2 y1 y2 (blocks.zip (zilbs.zip ziubs)) zlb SLb SUb s
    else ⟨false, zlb, s⟩
  else
    let s1 := writeReached L W 1 s
    let SLb := (blocks.map (fun p => s1.lb p.1 p.2)).sum
    if SLb > zlb then
      let s2 := storeCutPoint L W x1 x2 y1 y2 s1
      if SLb = zub then ⟨true, SLb, writeReached L W 0 (writeSDepth L W (-1) s2)⟩
      else ⟨false, SLb, s2⟩
    else ⟨false, zlb, s1⟩

/-- Pairs (head, rest) of the successive suffixes of a list: the source's
iteration of an inner index strictly after an outer index. -/
def tailsAfter : List Nat → List (Nat × List Nat)
  | [] => []
  | x :: xs => (x, xs) :: tailsAfter xs

/-- Innermost loop of the first-order non-guillotine enumeration (y2). -/
def loopY2 (cand : Nat → Nat → Nat → Nat → List (Nat × Nat) → Int → BDState → PartRes)
    (L W x1 x2 y1 : Nat) : List Nat → Int → BDState → PartRes
  | [], zlb, s => ⟨false, zlb, s⟩
  | y2 :: rest, zlb, s =>
    if y2 < W then
      if x1 + x2 = L ∧ y1 + y2 > W then ⟨false, zlb, s⟩
      else
        let blocks := [(x1, W - y1), (L - x1, W - y2), (x2 - x1, y2 - y1), (x2, y1), (L - x2, y2)]
        let r := cand x1 x2 y1 y2 blocks zlb s
        if r.solved then r else loopY2 cand L W x1 x2 y1 rest r.zlb r.st
    else ⟨false, zlb, s⟩

/-- y1 loop. -/
def loopY1 (cand : Nat → Nat → Nat → Nat → List (Nat × Nat) → Int → BDState → PartRes)
    (L W x1 x2 : Nat) : List (Nat × List Nat) → Int → BDState → PartRes
  | [], zlb, s => ⟨false, zlb, s⟩
  | (y1, rest) :: more, zlb, s =>
    if y1 < W then
      let r := loopY2 cand L W x1 x2 y1 rest zlb s
      if r.solved then r else loopY1 cand L W x1 x2 more r.zlb r.st
    else ⟨false, zlb, s⟩

/-- x2 loop. -/
def loopX2 (cand : Nat → Nat → Nat → Nat → List (Nat × Nat) → Int → BDState → PartRes)
    (L W x1 : Nat) (ry : List Nat) : List Nat → Int → BDState → PartRes
  | [], zlb, s => ⟨false, zlb, s⟩
  | x2 :: rest, zlb, s =>
    if x2 + x1 ≤ L then
      let r := loopY1 cand L W x1 x2 (tailsAfter (ry.drop 1)) zlb s
      if r.solved then r else loopX2 cand L W x1 ry rest r.zlb r.st
    else ⟨false, zlb, s⟩

/-- x1 loop of the non-guillotine enumeration. -/
def loopX1 (cand : Nat → Nat → Nat → Nat → List (Nat × Nat) → Int → BDState → PartRes)
    (L W : Nat) (ry : List Nat) : List (Nat × List Nat) → Int → BDState → PartRes
  | [], zlb, s => ⟨false, zlb, s⟩
  | (x1, rest) :: more, zlb, s =>
    if x1 ≤ L / 2 then
      let r := loopX2 cand L W x1 ry rest zlb s
      if r.solved then r else loopX1 cand L W ry more r.zlb r.st
    else ⟨false, zlb, s⟩

/-- Vertical guillotine loop (bd.cpp 513-537). -/
def loopVert (cand : Nat → Nat → Nat → Nat → List (Nat × Nat) → Int → BDState → PartRes)
    (L W : Nat) : List Nat → Int → BDState → PartRes
  | [], zlb, s => ⟨false, zlb, s⟩
  | x1 :: rest, zlb, s =>
    if x1 ≤ L / 2 then
      let blocks := [(x1, W - 0), (L - x1, W - 0)]
      let r := cand x1 x1 0 0 blocks zlb s
      if r.solved then r else loopVert cand L W rest r.zlb r.st
    else ⟨false, zlb, s⟩

/-- Horizontal guillotine loop (bd.cpp 556-580). -/
def loopHoriz (cand : Nat → Nat → Nat → Nat → List (Nat × Nat) → Int → BDState → PartRes)
    (L W : Nat) : List Nat → Int → BDState → PartRes
  | [], zlb, s => ⟨false, zlb, s⟩
  | y1 :: rest, zlb, s =>
    if y1 ≤ W / 2 then
      let blocks := [(L - 0, W - y1), (L - 0, y1)]
      let r := cand 0 0 y1 y1 blocks zlb s
      if r.solved then r else loopHoriz cand L W rest r.zlb r.st
    else ⟨false, zlb, s⟩

/-- The three enumeration passes of BD (first-order non-guillotine, then
vertical and horizontal guillotine cuts), threading the running bound and
the state, with early return on a certified optimum. -/
def bdTail (cand : Nat → Nat → Nat → Nat → List (Nat × Nat) → Int → BDState → PartRes)
    (L W : Nat) (rx ry : List Nat) (zlb : Int) (s0 : BDState) : Int × BDState :=
  let r1 := loopX1 cand L W ry (tailsAfter (rx.drop 1)) zlb s0
  if r1.solved then (r1.zlb, r1.st)
  else
    let r2 := loopVert cand L W (rx.drop 1) r1.zlb r1.st
    if r2.solved then (r2.zlb, r2.st)
    else
      let r3 := loopHoriz cand L W (ry.drop 1) r2.zlb r2.st
      (r3.zlb, r3.st)

/-- BD (bd.cpp 346-586).  The fuel argument stands for the call stack; the
fuel-out branch returns the current lower bound with the state unchanged
and is unreachable for adequate fuel because every recursive call is made
on a strictly smaller area. -/
def BD (c : Ctx) (fuel : Nat) (L0 W0 n : Nat) (s : BDState) : Int × BDState :=
  match fuel with
  | 0 => (s.lb (max L0 W0) (min L0 W0), s)
  | Nat.succ fuel' =>
    let L := max L0 W0
    let W := min L0 W0
    let zlb := s.lb L W
    let zub := localUpperBound s L W
    if zlb = 0 ∨ zlb = zub then
      (zlb, writeReached L W 0 (writeSDepth L W (-1) s))
    else
      let rx := constructRaster1 L c.conic c.nrm
      let ry := constructRaster1 W c.conic c.nrm
      let s0 := writeReached L W 0 s
      let cand := fun x1 x2 y1 y2 blocks zlb' s' =>
        solvePart (BD c fuel') c.NN c.nrm L W n blocks zlb' zub x1 x2 y1 y2 s'
      bdTail cand L W rx ry zlb s0

/-- initialize (bd.cpp 641-770): conic set, normalize table, raster points
of (L, W), the merged point set with sentinel, and the seeded matrices. -/
def initCtxState (L W l w : Nat) (NN : Int) : Ctx × BDState :=
  let X := conicSet L l w
  let nrm : Nat → Nat := fun x => normAt X x
  let L_n := nrm L
  let W_n := nrm W
  let rx := constructRaster1 L X nrm
  let ry := constructRaster1 W X nrm
  let merged := mergedSet L_n W_n rx ry
  (⟨l, w, NN, nrm, merged⟩,
   { lb := fun x y => homLB l w x y
     ub := fun x y => barnesBound l w x y
     sDepth := fun _ _ => NN
     reached := fun _ _ => 1
     cut := fun _ _ => ⟨0, 0, 0, 0, 1⟩
     ok := true })

/-- The value INFINITY_ of bd.cpp. -/
def INFTY : Int := 2000000000

/-- Result of solve_BD: the solution, the context, the final state and the
normalized pallet dimensions. -/
structure BDOut where
  sol : Int
  c : Ctx
  st : BDState
  L_n : Nat
  W_n : Nat

/-- solve_BD (bd.cpp 783-829): cap selection, L ≥ W swap, initialization,
the root call BD(L_n, W_n, l, w, N) — note that the source passes the cap
N itself as the starting depth — and the final write of the root bound. -/
def solve_BD (L0 W0 l w : Nat) (Nmax : Int) : BDOut :=
  let NN := if Nmax ≤ 0 then INFTY else Nmax
  let L := max L0 W0
  let W := min L0 W0
  let cs := initCtxState L W l w NN
  let c := cs.1
  let L_n := c.nrm L
  let W_n := c.nrm W
  let r := BD c (L * W + 2) L_n W_n NN.toNat cs.2
  ⟨r.1, c, writeLb L_n W_n r.1 r.2, L_n, W_n⟩

/-! Index arrays of makeIndices (src/main.cpp 1042-1138) and the L-piece
index function LIndex (src/util.cpp 577-602, memory type 4). -/

/-- The indexRaster scan: for i = 0..n the array holds the running count of
raster points encountered, incremented exactly at raster points; position
n+1 holds the last value plus one.  Returns the array (as a list indexed by
position) and the final count (numRaster). -/
def indexStep (st : List Nat × List Nat × Nat) (i : Nat) : List Nat × List Nat × Nat :=
  match st.2.1 with
  | r :: rs =>
    if r = i then (st.2.2 :: st.1, rs, st.2.2 + 1)
    else ((st.1.headD 0) :: st.1, r :: rs, st.2.2)
  | [] => ((st.1.headD 0) :: st.1, [], st.2.2)

def buildIndexScan (raster : List Nat) (n : Nat) : List Nat × Nat :=
  let res := (List.range (n+1)).foldl indexStep ([], raster, 0)
  ((res.1.reverse) ++ [res.1.headD 0 + 1], res.2.2)

/-- Context of the L-solver: the BD context plus the index maps and counts
produced by makeIndices. -/
structure LCtx where
  c : Ctx
  ix : Nat → Nat
  iy : Nat → Nat
  nX : Nat
  nY : Nat

/-- LIndex with memory type 4 (util.cpp 583-587): dense mixed-radix index
over the four components. -/
def LIndexP (lc : LCtx) (q : Piece) : Nat :=
  ((lc.ix q.i.toNat * lc.nY + lc.iy q.j.toNat) * lc.nX + lc.ix q.i1.toNat) * lc.nY
    + lc.iy q.j1.toNat

/-- State of the L-solver: the BD state (whose lowerBound table solve
updates for rectangles), the solution array (none models the -1 sentinel)
and the division-point array. -/
structure LState where
  bd : BDState
  sol : Nat → Option Nat
  divp : Nat → Nat

/-- storeSolution, memory type 4 (main.cpp 364-375). -/
def storeSol (k v : Nat) (st : LState) : LState :=
  { st with sol := fun a => if a = k then some v else st.sol a }

/-- storeDivisionPoint, memory type 4 (main.cpp 391-402). -/
def storeDiv (k v : Nat) (st : LState) : LState :=
  { st with divp := fun a => if a = k then v else st.divp a }

/-- Inner (y) loop of divideL (main.cpp 484-522).  Returns the current
solution word, the state, and whether the early upper-bound exit fired. -/
def divideLGoY (sub : Piece → LState → Nat × LState) (lc : LCtx)
    (Lidx : Nat) (q : Piece) (Bt : Nat)
    (sp : Int → Int → Piece → Piece × Piece) (ub : Nat) (cons3 : Nat) (xk : Nat) :
    List Nat → Nat → LState → Nat × LState × Bool
  | [], sol, st => (sol, st, false)
  | yk :: rest, sol, st =>
    if yk > cons3 then (sol, st, false)
    else
      let li : Int := (lc.c.l : Int)
      let wi : Int := (lc.c.w : Int)
      let qq := sp (xk : Int) (yk : Int) q
      let q1 := normalizePiece li wi qq.1
      let q2 := normalizePiece li wi qq.2
      if q1.i < 0 ∨ q2.i < 0 then
        divideLGoY sub lc Lidx q Bt sp ub cons3 xk rest sol st
      else if L_UpperBound li wi q1 + L_UpperBound li wi q2 > ((sol &&& nRet : Nat) : Int) then
        let r1 := sub q1 st
        let r2 := sub q2 r1.2
        if (r1.1 &&& nRet) + (r2.1 &&& nRet) > (sol &&& nRet) then
          let sol2 := ((r1.1 &&& nRet) + (r2.1 &&& nRet)) ||| (Bt <<< descSol)
          let st2 := storeDiv Lidx (xk ||| (yk <<< descPtoDiv2)) (storeSol Lidx sol2 r2.2)
          if (sol2 &&& nRet) = ub then (sol2, st2, true)
          else divideLGoY sub lc Lidx q Bt sp ub cons3 xk rest sol2 st2
        else divideLGoY sub lc Lidx q Bt sp ub cons3 xk rest sol r2.2
      else divideLGoY sub lc Lidx q Bt sp ub cons3 xk rest sol st

/-- Outer (x) loop of divideL (main.cpp 475-523). -/
def divideLGoX (sub : Piece → LState → Nat × LState) (lc : LCtx)
    (Lidx : Nat) (q : Piece) (Bt : Nat)
    (sp : Int → Int → Piece → Piece × Piece) (ub : Nat) (cons1 cons3 : Nat)
    (ys : List Nat) : List Nat → Nat → LState → Nat × LState
  | [], sol, st => (sol, st)
  | xk :: rest, sol, st =>
    if xk > cons1 then (sol, st)
    else
      let r := divideLGoY sub lc Lidx q Bt sp ub cons3 xk ys sol st
      if r.2.2 then (r.1, r.2.1)
      else divideLGoX sub lc Lidx q Bt sp ub cons1 cons3 ys rest r.1 r.2.1

/-- divideL (main.cpp 458-525): read the current record, then iterate the
constrained division points. -/
def divideL (sub : Piece → LState → Nat × LState) (lc : LCtx)
    (Lidx : Nat) (q : Piece) (Bt : Nat)
    (sp : Int → Int → Piece → Piece × Piece) (cons1 cons3 : Nat)
    (xs ys : List Nat) (st : LState) : Nat × LState :=
  let sol := (st.sol Lidx).getD 0
  let ub := (L_UpperBound (lc.c.l : Int) (lc.c.w : Int) q).toNat
  divideLGoX sub lc Lidx q Bt sp ub cons1 cons3 ys xs sol st

/-- Pairs (head, suffix starting at the head) of a list: the source's inner
index starting at the current outer index (divideB6 and divideB7). -/
def tailsNE : List Nat → List (Nat × List Nat)
  | [] => []
  | x :: xs => (x, x :: xs) :: tailsNE xs

/-- Innermost (y) loop of divideB6 (main.cpp 583-619). -/
def divB6GoY (sub : Piece → LState → Nat × LState) (lc : LCtx)
    (Lidx : Nat) (q : Piece) (ub : Nat) (xp xpp : Nat) :
    List Nat → Nat → LState → Nat × LState × Bool
  | [], sol, st => (sol, st, false)
  | yk :: rest, sol, st =>
    let li : Int := (lc.c.l : Int)
    let wi : Int := (lc.c.w : Int)
    let qq := standardPositionB6 (fun z => ((lc.c.nrm z.toNat : Nat) : Int))
      (xp : Int) (yk : Int) (xpp : Int) q
    let q1 := normalizePiece li wi qq.1
    let q2 := normalizePiece li wi qq.2
    if q1.i < 0 ∨ q2.i < 0 then divB6GoY sub lc Lidx q ub xp xpp rest sol st
    else if L_UpperBound li wi q1 + L_UpperBound li wi q2 > ((sol &&& nRet : Nat) : Int) then
      let r1 := sub q1 st
      let r2 := sub q2 r1.2
      if (r1.1 &&& nRet) + (r2.1 &&& nRet) > (sol &&& nRet) then
        let sol2 := ((r1.1 &&& nRet) + (r2.1 &&& nRet)) ||| (B6 <<< descSol)
        let st2 := storeDiv Lidx (xp ||| (yk <<< descPtoDiv2) ||| (xpp <<< descPtoDiv3))
          (storeSol Lidx sol2 r2.2)
        if (sol2 &&& nRet) = ub then (sol2, st2, true)
        else divB6GoY sub lc Lidx q ub xp xpp rest sol2 st2
      else divB6GoY sub lc Lidx q ub xp xpp rest sol r2.2
    else divB6GoY sub lc Lidx q ub xp xpp rest sol st

/-- Middle loop of divideB6 over the second cut coordinate. -/
def divB6GoXpp (sub : Piece → LState → Nat × LState) (lc : LCtx)
    (Lidx : Nat) (q : Piece) (ub : Nat) (ys : List Nat) (xp : Nat) :
    List Nat → Nat → LState → Nat × LState × Bool
  | [], sol, st => (sol, st, false)
  | xpp :: rest, sol, st =>
    if xp = 0 ∧ xpp = 0 then divB6GoXpp sub lc Lidx q ub ys xp rest sol st
    else
      let r := divB6GoY sub lc Lidx q ub xp xpp ys sol st
      if r.2.2 then r
      else divB6GoXpp sub lc Lidx q ub ys xp rest r.1 r.2.1

/-- divideB6 (main.cpp 552-623). -/
def divideB6 (sub : Piece → LState → Nat × LState) (lc : LCtx)
    (Lidx : Nat) (q : Piece) (xs ys : List Nat) (st : LState) : Nat × LState :=
  let sol := (st.sol Lidx).getD 0
  let ub := (R_LowerBound (fun a b => st.bd.ub a.toNat b.toNat)
    (fun z => ((lc.c.nrm z.toNat : Nat) : Int)) q.i q.j).toNat
  let go := fun (r : Nat × LState × Bool) (p : Nat × List Nat) =>
    if r.2.2 then r
    else divB6GoXpp sub lc Lidx q ub ys p.1 p.2 r.1 r.2.1
  let res := (tailsNE xs).foldl go (sol, st, false)
  (res.1, res.2.1)

/-- Innermost (x) loop of divideB7 (main.cpp 684-722). -/
def divB7GoX (sub : Piece → LState → Nat × LState) (lc : LCtx)
    (Lidx : Nat) (q : Piece) (ub : Nat) (yp ypp : Nat) :
    List Nat → Nat → LState → Nat × LState × Bool
  | [], sol, st => (sol, st, false)
  | xk :: rest, sol, st =>
    let li : Int := (lc.c.l : Int)
    let wi : Int := (lc.c.w : Int)
    let qq := standardPositionB7 (fun z => ((lc.c.nrm z.toNat : Nat) : Int))
      (xk : Int) (yp : Int) (ypp : Int) q
    let q1 := normalizePiece li wi qq.1
    let q2 := normalizePiece li wi qq.2
    if q1.i < 0 ∨ q2.i < 0 then divB7GoX sub lc Lidx q ub yp ypp rest sol st
    else if L_UpperBound li wi q1 + L_UpperBound li wi q2 > ((sol &&& nRet : Nat) : Int) then
      let r1 := sub q1 st
      let r2 := sub q2 r1.2
      if (r1.1 &&& nRet) + (r2.1 &&& nRet) > (sol &&& nRet) then
        let sol2 := ((r1.1 &&& nRet) + (r2.1 &&& nRet)) ||| (B7 <<< descSol)
        let st2 := storeDiv Lidx (xk ||| (yp <<< descPtoDiv2) ||| (ypp <<< descPtoDiv3))
          (storeSol Lidx sol2 r2.2)
        if (sol2 &&& nRet) = ub then (sol2, st2, true)
        else divB7GoX sub lc Lidx q ub yp ypp rest sol2 st2
      else divB7GoX sub lc Lidx q ub yp ypp rest sol r2.2
    else divB7GoX sub lc Lidx q ub yp ypp rest sol st

/-- Middle loop of divideB7 over the second cut coordinate. -/
def divB7GoYpp (sub : Piece → LState → Nat × LState) (lc : LCtx)
    (Lidx : Nat) (q : Piece) (ub : Nat) (xs : List Nat) (yp : Nat) :
    List Nat → Nat → LState → Nat × LState × Bool
  | [], sol, st => (sol, st, false)
  | ypp :: rest, sol, st =>
    if yp = 0 ∧ ypp = 0 then divB7GoYpp sub lc Lidx q ub xs yp rest sol st
    else
      let r := divB7GoX sub lc Lidx q ub yp ypp xs sol st
      if r.2.2 then r
      else divB7GoYpp sub lc Lidx q ub xs yp rest r.1 r.2.1

/-- divideB7 (main.cpp 654-725). -/
def divideB7 (sub : Piece → LState → Nat × LState) (lc : LCtx)
    (Lidx : Nat) (q : Piece) (xs ys : List Nat) (st : LState) : Nat × LState :=
  let sol := (st.sol Lidx).getD 0
  let ub := (R_LowerBound (fun a b => st.bd.ub a.toNat b.toNat)
    (fun z => ((lc.c.nrm z.toNat : Nat) : Int)) q.i q.j).toNat
  let go := fun (r : Nat × LState × Bool) (p : Nat × List Nat) =>
    if r.2.2 then r
    else divB7GoYpp sub lc Lidx q ub xs p.1 p.2 r.1 r.2.1
  let res := (tailsNE ys).foldl go (sol, st, false)
  (res.1, res.2.1)

/-- solve (main.cpp 739-1037), the L-solver, with memory type 4.  The fuel
argument stands for the call stack; each recursive call is made on a piece
of strictly smaller area, so the fuel-out branch is unreachable for
adequate fuel. -/
def solveL (lc : LCtx) : Nat → Piece → LState → Nat × LState
  | 0, q, st => ((st.sol (LIndexP lc q)).getD 0, st)
  | fuel + 1, q, st =>
    let Lidx := LIndexP lc q
    match st.sol Lidx with
    | some v => (v, st)
    | none =>
      let sub := fun q' st' => solveL lc fuel q' st'
      let li : Int := (lc.c.l : Int)
      let wi : Int := (lc.c.w : Int)
      let nrmI : Int → Int := fun z => ((lc.c.nrm z.toNat : Nat) : Int)
      let lbI : Int → Int → Int := fun a b => st.bd.lb a.toNat b.toNat
      if q.i ≠ q.i1 then
        let lbp := L_LowerBoundPair lbI nrmI q
        let ub := (L_UpperBound li wi q).toNat
        let sol0 := lbp.1.toNat ||| (B1 <<< descSol)
        let st1 :=
          if lbp.2 then storeDiv Lidx (0 ||| (q.j1.toNat <<< descPtoDiv2)) st
          else storeDiv Lidx (q.i1.toNat ||| (0 <<< descPtoDiv2)) st
        let st2 := storeSol Lidx sol0 st1
        if (sol0 &&& nRet) ≠ ub then
          let X := constructRaster1 q.i.toNat lc.c.conic lc.c.nrm
          let Y := constructRaster1 q.j.toNat lc.c.conic lc.c.nrm
          let Xs := X.dropWhile (fun v => v < q.i1.toNat)
          let Ys := Y.dropWhile (fun v => v < q.j1.toNat)
          let r1 := divideL sub lc Lidx q B1 (standardPositionB1 nrmI)
            q.i1.toNat q.j1.toNat X Y st2
          if (r1.1 &&& nRet) = ub then r1 else
          let r2 := divideL sub lc Lidx q B3 (standardPositionB3 nrmI)
            q.i1.toNat q.j1.toNat X Y r1.2
          if (r2.1 &&& nRet) = ub then r2 else
          let r3 := divideL sub lc Lidx q B5 (standardPositionB5 nrmI)
            q.i1.toNat q.j1.toNat X Y r2.2
          if (r3.1 &&& nRet) = ub then r3 else
          let r4 := divideL sub lc Lidx q B2 (standardPositionB2 nrmI)
            q.i1.toNat (Y.getLastD 0) X Ys r3.2
          if (r4.1 &&& nRet) = ub then r4 else
          let r5 := divideL sub lc Lidx q B8 (standardPositionB8 nrmI)
            q.i1.toNat (Y.getLastD 0) X Ys r4.2
          if (r5.1 &&& nRet) = ub then r5 else
          let r6 := divideL sub lc Lidx q B4 (standardPositionB4 nrmI)
            (X.getLastD 0) q.j1.toNat Xs Y r5.2
          if (r6.1 &&& nRet) = ub then r6 else
          divideL sub lc Lidx q B9 (standardPositionB9 nrmI)
            (X.getLastD 0) q.j1.toNat Xs Y r6.2
        else (sol0, st2)
      else
        let lbv := (R_LowerBound lbI nrmI q.i q.j).toNat
        let ub := (R_LowerBound (fun a b => st.bd.ub a.toNat b.toNat) nrmI q.i q.j).toNat
        let sol0 := lbv ||| (HOMOGENEOUS <<< descSol)
        let st1 := storeSol Lidx sol0 st
        if (sol0 &&& nRet) ≠ ub then
          let X := constructRaster1 q.i.toNat lc.c.conic lc.c.nrm
          let Y := constructRaster1 q.j.toNat lc.c.conic lc.c.nrm
          let r6 := divideB6 sub lc Lidx q X Y st1
          if (r6.1 &&& nRet) = ub then
            let st' := { r6.2 with bd := writeLb q.i.toNat q.j.toNat ((r6.1 &&& nRet : Nat) : Int) r6.2.bd }
            (r6.1, st')
          else
            let r7 := divideB7 sub lc Lidx q X Y r6.2
            let st' := { r7.2 with bd := writeLb q.i.toNat q.j.toNat ((r7.1 &&& nRet : Nat) : Int) r7.2.bd }
            (r7.1, st')
        else (sol0, st1)

/-- The L-solver run that section 2 of the specification describes: after
solve_BD, build the index maps of makeIndices, seed the whole pallet as the
degenerate L (L_n, W_n, L_n, W_n) and run solve on it (the sequence of the
solver's own driver; in this repository pack omits this phase).  Returns
the solution count. -/
def runLSolver (L0 W0 l w : Nat) : Nat :=
  let r := solve_BD L0 W0 l w 0
  let L := max L0 W0
  let W := min L0 W0
  let rx := constructRaster1 L r.c.conic r.c.nrm
  let ry := constructRaster1 W r.c.conic r.c.nrm
  let raster := mergedSet L W rx ry
  let ixs := buildIndexScan raster L
  let iys := buildIndexScan raster W
  let lc : LCtx := ⟨r.c, fun i => listGet ixs.1 i, fun i => listGet iys.1 i, ixs.2, iys.2⟩
  let q : Piece := ⟨(r.L_n : Int), (r.W_n : Int), (r.L_n : Int), (r.W_n : Int)⟩
  let st0 : LState := ⟨r.st, fun _ => none, fun _ => 0⟩
  (solveL lc (L * W + 2) q st0).1 &&& nRet

/-! Reconstruction of the BD solution (src/draw_bd.cpp), the only
reconstruction path that pack exercises (draw is called with
solvedWithL = false). -/

def HORIZONTAL : Nat := 0

def VERTICAL : Nat := 1

/-- A drawn box: ptoRet row (x low, y low, x high, y high). -/
structure Box where
  x0 : Nat
  y0 : Nat
  x1 : Nat
  y1 : Nat
deriving DecidableEq, Repr

/-- boxOrientation (draw_bd.cpp 52-58). -/
def boxOrientation (l w x y : Nat) : Nat :=
  if (x / l) * (y / w) > (x / w) * (y / l) then HORIZONTAL else VERTICAL

/-- drawHomogeneous (draw_bd.cpp 63-98): the grid of boxes, in loop order. -/
def drawHomogeneous (l w x y dx dy : Nat) : List Box :=
  if boxOrientation l w x y = HORIZONTAL then
    (List.range (x / l)).flatMap (fun a =>
      (List.range (y / w)).map (fun b => ⟨a*l + dx, b*w + dy, a*l + l + dx, b*w + w + dy⟩))
  else
    (List.range (x / w)).flatMap (fun a =>
      (List.range (y / l)).map (fun b => ⟨a*w + dx, b*l + dy, a*w + w + dx, b*l + l + dy⟩))

/-- getSubproblems (draw_bd.cpp 103-121): the five partitions recorded in
the cut point, renormalized. -/
def getSubproblemsD (nrm : Nat → Nat) (cp : CutPoint) (L W : Nat) : List (Nat × Nat) :=
  [(cp.x1, nrm (W - cp.y1)),
   (nrm (L - cp.x1), nrm (W - cp.y2)),
   (nrm (cp.x2 - cp.x1), nrm (cp.y2 - cp.y1)),
   (cp.x2, cp.y1),
   (nrm (L - cp.x2), cp.y2)]

/-- draw / drawNormal / drawRotation (draw_bd.cpp 126-236), with fuel for
the recursion (each recursive call is on a strictly smaller area, so the
fuel-out branch is unreachable for adequate fuel). -/
def drawRec (c : Ctx) (s : BDState) : Nat → Nat → Nat → Nat → Nat → List Box
  | 0, _, _, _, _ => []
  | fuel + 1, L, W, dx, dy =>
    if L ≥ W then
      let cp := s.cut L W
      if cp.homogeneous ≠ 0 then drawHomogeneous c.l c.w L W dx dy
      else
        let ps := getSubproblemsD c.nrm cp L W
        let p1 := ps.getD 0 (0, 0)
        let p2 := ps.getD 1 (0, 0)
        let p3 := ps.getD 2 (0, 0)
        let p4 := ps.getD 3 (0, 0)
        let p5 := ps.getD 4 (0, 0)
        let keep := fun (p : Nat × Nat) =>
          p.1 ≠ 0 ∧ p.2 ≠ 0 ∧ ¬((p.1 = L ∧ p.2 = W) ∨ (p.1 = W ∧ p.2 = L))
        (if keep p1 then drawRec c s fuel p1.1 p1.2 dx (dy + p4.2) else []) ++
        (if keep p2 then drawRec c s fuel p2.1 p2.2 (dx + p1.1) (dy + p5.2) else []) ++
        (if keep p3 then drawRec c s fuel p3.1 p3.2 (dx + p1.1) (dy + p4.2) else []) ++
        (if keep p4 then drawRec c s fuel p4.1 p4.2 dx dy else []) ++
        (if keep p5 then drawRec c s fuel p5.1 p5.2 (dx + p4.1) dy else [])
    else
      let cp := s.cut W L
      if cp.homogeneous ≠ 0 then drawHomogeneous c.l c.w L W dx dy
      else
        let ps := getSubproblemsD c.nrm cp W L
        let p1 := ps.getD 0 (0, 0)
        let p2 := ps.getD 1 (0, 0)
        let p3 := ps.getD 2 (0, 0)
        let p4 := ps.getD 3 (0, 0)
        let p5 := ps.getD 4 (0, 0)
        let keep := fun (p : Nat × Nat) =>
          p.2 ≠ 0 ∧ p.1 ≠ 0 ∧ ¬((p.2 = W ∧ p.1 = L) ∨ (p.2 = L ∧ p.1 = W))
        (if keep p1 then drawRec c s fuel p1.2 p1.1 (dx + p4.2) (dy + p2.1) else []) ++
        (if keep p2 then drawRec c s fuel p2.2 p2.1 (dx + p5.2) dy else []) ++
        (if keep p3 then drawRec c s fuel p3.2 p3.1 (dx + p4.2) (dy + p5.1) else []) ++
        (if keep p4 then drawRec c s fuel p4.2 p4.1 dx (dy + p5.1) else []) ++
        (if keep p5 then drawRec c s fuel p5.2 p5.1 dx dy else [])

/-- pack (src/main.cpp 1293-1345): validate the dimensions (returning none,
the NULL error signal, when one is non-positive), swap so that L ≥ W, run
solve_BD, then reconstruct through draw with solvedWithL = false, which
walks drawBD(L_n, W_n).  MakeJsonString emits exactly BD_solution records,
one per ptoRet row; the result is that row list (rows never filled by the
reconstruction are modelled by a zero box). -/
def pack (L0 W0 l0 w0 : Int) : Option (Nat × List Box) :=
  if packInvalidDims L0 W0 l0 w0 then none
  else
    let L := L0.toNat
    let W := W0.toNat
    let r := solve_BD (max L W) (min L W) l0.toNat w0.toNat 0
    let n := r.sol.toNat
    let boxes := drawRec r.c r.st (max L W * min L W + 2) r.L_n r.W_n 0 0
    some (n, (List.range n).map (fun k => boxes.getD k ⟨0, 0, 0, 0⟩))

/-! Statements of the claims under test, and auxiliary predicates. -/

/-- The BD count of an input, as pack computes it. -/
def nBD (L W l w : Int) : Nat :=
  (solve_BD (max L.toNat W.toNat) (min L.toNat W.toNat) l.toNat w.toNat 0).sol.toNat

/-- The L-solver count of an input (section 2 of the specification: the
L-solver run seeded with the whole pallet after BD). -/
def nL (L W l w : Int) : Nat :=
  runLSolver (max L.toNat W.toNat) (min L.toNat W.toNat) l.toNat w.toNat

/-- Claim C1 as stated: for every valid input the number of placements
returned by pack equals the BD solution count, or the L-solver count if
larger. -/
def claimC1 : Prop :=
  ∀ L W l w : Int, 0 < L → 0 < W → 0 < l → 0 < w →
    (pack L W l w).map (fun p => p.2.length) = some (max (nBD L W l w) (nL L W l w))

/-- Claim C3 as stated: inputs with a non-positive dimension, or with
l larger than both pallet sides, or w larger than both pallet sides, make
pack signal the error condition (the NULL return, modelled as none). -/
def claimC3 : Prop :=
  ∀ L W l w : Int,
    (L ≤ 0 ∨ W ≤ 0 ∨ l ≤ 0 ∨ w ≤ 0 ∨ (l > L ∧ l > W) ∨ (w > L ∧ w > W)) →
    pack L W l w = none

/-- Claim C7 as stated, over the lowerBound table and normalization in
effect when the record was seeded and later reconstructed: for every
non-degenerate L-piece, the direction LCut recomputes equals the direction
that realised L_LowerBound at seeding time. -/
def claimC7 : Prop :=
  ∀ (lb : Int → Int → Int) (nrm : Int → Int) (q : Piece),
    q.i ≠ q.i1 → LCut lb nrm q = seededCutDir lb nrm q

/-- The lowerBound table left by the BD phase on the pallet (2, 2) with
unit boxes, in the form the reconstruction reads it. -/
def lbTie : Int → Int → Int :=
  fun a b => (solve_BD 2 2 1 1 0).st.lb a.toNat b.toNat

/-- The normalization of the same instance. -/
def nrmTie : Int → Int :=
  fun z => (((solve_BD 2 2 1 1 0).c.nrm z.toNat : Nat) : Int)

/-- The lowerBound table left by the BD phase on the pallet (4, 3) with
boxes (2, 1), where the two rectangle splits of the L (4, 3, 3, 1) have
different values. -/
def lbStrict : Int → Int → Int :=
  fun a b => (solve_BD 4 3 2 1 0).st.lb a.toNat b.toNat

/-- The normalization of the same instance. -/
def nrmStrict : Int → Int :=
  fun z => (((solve_BD 4 3 2 1 0).c.nrm z.toNat : Nat) : Int)

/-- Claim C8 as stated: solution and division words pack and unpack
faithfully whenever the coordinates fit in 11 bits (≤ 2047). -/
def claimC8 : Prop :=
  ∀ c t d1 d2 d3 : Nat, c ≤ 134217727 → t ≤ 9 → d1 ≤ 2047 → d2 ≤ 2047 → d3 ≤ 2047 →
    getCount (packSolutionWord c t) = c ∧ getTag (packSolutionWord c t) = t ∧
    getDiv1 (packDivisionWord d1 d2 d3) = d1 ∧
    getDiv2 (packDivisionWord d1 d2 d3) = d2 ∧
    getDiv3 (packDivisionWord d1 d2 d3) = d3

/-- A candidate evaluator (the solve helper as invoked by the loops of BD)
preserves the lowerBound table and the ghost monotonicity flag and never
decreases the running bound. -/
def CandCap (cand : Nat → Nat → Nat → Nat → List (Nat × Nat) → Int → BDState → PartRes) : Prop :=
  ∀ (x1 x2 y1 y2 : Nat) (blocks : List (Nat × Nat)) (zlb : Int) (s : BDState),
    (cand x1 x2 y1 y2 blocks zlb s).st.lb = s.lb ∧
    (cand x1 x2 y1 y2 blocks zlb s).st.ok = s.ok ∧
    zlb ≤ (cand x1 x2 y1 y2 blocks zlb s).zlb

/-- Well-formedness of the cut-point table: every stored cut point is an
ordered pair of cuts inside its cell. -/
def WFCutP (s : BDState) : Prop :=
  ∀ a b : Nat, (s.cut a b).x1 ≤ (s.cut a b).x2 ∧ (s.cut a b).x2 ≤ a ∧
    (s.cut a b).y1 ≤ (s.cut a b).y2 ∧ (s.cut a b).y2 ≤ b

/-- A candidate evaluator keeps the cut-point table well formed whenever it
is fed an ordered in-bounds cut. -/
def CandWF (cand : Nat → Nat → Nat → Nat → List (Nat × Nat) → Int → BDState → PartRes)
    (L W : Nat) : Prop :=
  ∀ (x1 x2 y1 y2 : Nat) (blocks : List (Nat × Nat)) (zlb : Int) (s : BDState),
    x1 ≤ x2 → x2 ≤ L → y1 ≤ y2 → y2 ≤ W →
    WFCutP s → WFCutP (cand x1 x2 y1 y2 blocks zlb s).st

/-- Interiors of two drawn boxes are disjoint: they are separated by an
axis-aligned line. -/
def disjB (a b : Box) : Prop :=
  a.x1 ≤ b.x0 ∨ b.x1 ≤ a.x0 ∨ a.y1 ≤ b.y0 ∨ b.y1 ≤ a.y0

instance (a b : Box) : Decidable (disjB a b) := by
  unfold disjB
  infer_instance

/-- Box b lies inside the cell of size L × W at offset (dx, dy), with
ordered corners. -/
def boxIn (b : Box) (dx dy L W : Nat) : Prop :=
  dx ≤ b.x0 ∧ b.x0 ≤ b.x1 ∧ b.x1 ≤ dx + L ∧
  dy ≤ b.y0 ∧ b.y0 ≤ b.y1 ∧ b.y1 ≤ dy + W

/-! Generic facts about the bit operations of the codec. -/

theorem lor_shiftRight (a b k : ℕ) : (a ||| b) >>> k = (a >>> k) ||| (b >>> k) := by
  apply Nat.eq_of_testBit_eq
  intro i
  simp [Nat.testBit_lor, Nat.testBit_shiftRight]

theorem land_shiftLeft_shiftRight (v m k : ℕ) : (v &&& (m <<< k)) >>> k = (v >>> k) &&& m := by
  apply Nat.eq_of_testBit_eq
  intro i
  simp [Nat.testBit_land, Nat.testBit_shiftRight, Nat.testBit_shiftLeft]

theorem lor_mod_two_pow (a b k : ℕ) : (a ||| b) % 2 ^ k = (a % 2 ^ k) ||| (b % 2 ^ k) := by
  apply Nat.eq_of_testBit_eq
  intro i
  simp [Nat.testBit_mod_two_pow, Nat.testBit_lor]
  cases Decidable.em (i < k) with
  | inl h => simp [h]
  | inr h => simp [h]

theorem shiftLeft_mod_of_le {k j : ℕ} (b : ℕ) (h : k ≤ j) : (b <<< j) % 2 ^ k = 0 := by
  rw [Nat.shiftLeft_eq]
  have : 2 ^ k ∣ b * 2 ^ j := Dvd.dvd.mul_left (pow_dvd_pow 2 h) b
  omega

theorem shiftLeft_shiftRight_of_le {k j : ℕ} (b : ℕ) (h : k ≤ j) :
    (b <<< j) >>> k = b <<< (j - k) := by
  obtain ⟨m, rfl⟩ : ∃ m, j = m + k := ⟨j - k, by omega⟩
  rw [Nat.shiftLeft_add b m k, Nat.add_sub_cancel]
  exact Nat.shiftLeft_shiftRight _ _

theorem shiftRight_eq_zero {b k : ℕ} (h : b < 2 ^ k) : b >>> k = 0 := by
  rw [Nat.shiftRight_eq_div_pow]
  exact Nat.div_eq_of_lt h

/-- C8 counterexample core: the third division coordinate 1024, although it
fits in 11 bits, does not survive the division-word round trip: the store
shifts it by 22 so that its top bit falls outside the 32-bit word, and the
mask ptoDiv3 covers only 10 bits. -/
theorem C8_cex : ¬ claimC8 := by
  intro h
  exact absurd ((h 0 0 0 0 1024 (by decide) (by decide) (by decide) (by decide)
    (by decide)).2.2.2.2) (by decide)

/-- C8 amended: the codec round-trips the count (27 bits), the tag (4
bits) and the first two division coordinates (11 bits each), but the third
division coordinate only up to 1023, because ptoDiv3 masks the 10 bits
22..31 and the bit of 1024 shifted by 22 falls outside the 32-bit word. -/
theorem C8_thm (c t d1 d2 d3 : Nat) (hc : c ≤ 134217727) (ht : t ≤ 9)
    (h1 : d1 ≤ 2047) (h2 : d2 ≤ 2047) (h3 : d3 ≤ 1023) :
    getCount (packSolutionWord c t) = c ∧ getTag (packSolutionWord c t) = t ∧
    getDiv1 (packDivisionWord d1 d2 d3) = d1 ∧
    getDiv2 (packDivisionWord d1 d2 d3) = d2 ∧
    getDiv3 (packDivisionWord d1 d2 d3) = d3 := by
  have hc' : c < 2 ^ 27 := by omega
  have ht' : t < 2 ^ 4 := by omega
  have h1' : d1 < 2 ^ 11 := by omega
  have h2' : d2 < 2 ^ 11 := by omega
  have h3' : d3 < 2 ^ 10 := by omega
  have hsw : packSolutionWord c t = c ||| t <<< 27 := by
    have hlt : c ||| t <<< 27 < 2 ^ 32 := by
      have hca : c < 2 ^ 32 := by omega
      have hta : t <<< 27 < 2 ^ 32 := by
        rw [Nat.shiftLeft_eq]
        have : t * 2 ^ 27 ≤ 9 * 2 ^ 27 := Nat.mul_le_mul_right _ ht
        omega
      exact Nat.bitwise_lt hca hta
    unfold packSolutionWord wordMod descSol
    exact Nat.mod_eq_of_lt hlt
  have hdw : packDivisionWord d1 d2 d3 = (d1 ||| d2 <<< 11) ||| d3 <<< 22 := by
    have ha : d1 ||| d2 <<< 11 < 2 ^ 32 := by
      have hx : d1 < 2 ^ 32 := by omega
      have hy : d2 <<< 11 < 2 ^ 32 := by
        rw [Nat.shiftLeft_eq]
        have : d2 * 2 ^ 11 ≤ 2047 * 2 ^ 11 := Nat.mul_le_mul_right _ h2
        omega
      exact Nat.bitwise_lt hx hy
    have hb : d3 <<< 22 < 2 ^ 32 := by
      rw [Nat.shiftLeft_eq]
      have : d3 * 2 ^ 22 ≤ 1023 * 2 ^ 22 := Nat.mul_le_mul_right _ h3
      omega
    have hlt : (d1 ||| d2 <<< 11) ||| d3 <<< 22 < 2 ^ 32 := Nat.bitwise_lt ha hb
    unfold packDivisionWord wordMod descPtoDiv2 descPtoDiv3
    exact Nat.mod_eq_of_lt hlt
  refine ⟨?_, ?_, ?_, ?_, ?_⟩
  · show packSolutionWord c t &&& nRet = c
    rw [hsw]
    have : nRet = 2 ^ 27 - 1 := by decide
    rw [this, Nat.and_pow_two_sub_one_eq_mod, lor_mod_two_pow,
      shiftLeft_mod_of_le t (by omega), Nat.mod_eq_of_lt hc']
    simp
  · show (packSolutionWord c t &&& solucao) >>> descSol = t
    rw [hsw]
    have hs : solucao = 15 <<< 27 := by decide
    rw [hs]
    show ((c ||| t <<< 27) &&& 15 <<< 27) >>> 27 = t
    rw [land_shiftLeft_shiftRight, lor_shiftRight, shiftRight_eq_zero hc',
      Nat.shiftLeft_shiftRight]
    have h15 : (15 : Nat) = 2 ^ 4 - 1 := by decide
    rw [Nat.zero_or, h15, Nat.and_pow_two_sub_one_eq_mod]
    exact Nat.mod_eq_of_lt ht'
  · show packDivisionWord d1 d2 d3 &&& ptoDiv1 = d1
    rw [hdw]
    have : ptoDiv1 = 2 ^ 11 - 1 := by decide
    rw [this, Nat.and_pow_two_sub_one_eq_mod, lor_mod_two_pow, lor_mod_two_pow,
      shiftLeft_mod_of_le d2 (by omega), shiftLeft_mod_of_le d3 (by omega),
      Nat.mod_eq_of_lt h1']
    simp
  · show (packDivisionWord d1 d2 d3 &&& ptoDiv2) >>> descPtoDiv2 = d2
    rw [hdw]
    have hs : ptoDiv2 = 2047 <<< 11 := by decide
    rw [hs]
    show (((d1 ||| d2 <<< 11) ||| d3 <<< 22) &&& 2047 <<< 11) >>> 11 = d2
    rw [land_shiftLeft_shiftRight, lor_shiftRight, lor_shiftRight,
      shiftRight_eq_zero h1', Nat.shiftLeft_shiftRight,
      shiftLeft_shiftRight_of_le d3 (by omega)]
    have h2047 : (2047 : Nat) = 2 ^ 11 - 1 := by decide
    rw [Nat.zero_or, h2047, Nat.and_pow_two_sub_one_eq_mod, lor_mod_two_pow,
      shiftLeft_mod_of_le d3 (by omega), Nat.mod_eq_of_lt h2']
    simp
  · show (packDivisionWord d1 d2 d3 &&& ptoDiv3) >>> descPtoDiv3 = d3
    rw [hdw]
    have hs : ptoDiv3 = 1023 <<< 22 := by decide
    rw [hs]
    show (((d1 ||| d2 <<< 11) ||| d3 <<< 22) &&& 1023 <<< 22) >>> 22 = d3
    have hd2 : (d2 <<< 11) >>> 22 = 0 := by
      rw [Nat.shiftLeft_eq, Nat.shiftRight_eq_div_pow]
      apply Nat.div_eq_of_lt
      have : d2 * 2 ^ 11 ≤ 2047 * 2 ^ 11 := Nat.mul_le_mul_right _ h2
      omega
    rw [land_shiftLeft_shiftRight, lor_shiftRight, lor_shiftRight,
      shiftRight_eq_zero (show d1 < 2 ^ 22 by omega), hd2, Nat.shiftLeft_shiftRight]
    have h1023 : (1023 : Nat) = 2 ^ 10 - 1 := by decide
    simp only [Nat.zero_or]
    rw [h1023, Nat.and_pow_two_sub_one_eq_mod]
    exact Nat.mod_eq_of_lt h3'

/-- Witness for C8_thm at concrete values. -/
theorem C8_wit :
    getCount (packSolutionWord 5 9) = 5 ∧ getTag (packSolutionWord 5 9) = 9 ∧
    getDiv1 (packDivisionWord 7 2047 1023) = 7 ∧
    getDiv2 (packDivisionWord 7 2047 1023) = 2047 ∧
    getDiv3 (packDivisionWord 7 2047 1023) = 1023 :=
  C8_thm 5 9 7 2047 1023 (by decide) (by decide) (by decide) (by decide) (by decide)

/-! Helper facts about getLastD, normAt and homLB. -/

theorem getLastD_mem_or {α : Type} (l : List α) (d : α) :
    l.getLastD d = d ∨ l.getLastD d ∈ l := by
  induction l generalizing d with
  | nil => exact Or.inl rfl
  | cons a as ih =>
    have hstep : (a :: as).getLastD d = as.getLastD a := by
      cases as <;> simp [List.getLastD]
    rcases ih a with h | h
    · exact Or.inr (by rw [hstep, h]; exact List.mem_cons_self a as)
    · exact Or.inr (by rw [hstep]; exact List.mem_cons_of_mem a h)

theorem normAt_le (X : List Nat) (t : Nat) : normAt X t ≤ t := by
  unfold normAt
  rcases getLastD_mem_or (X.takeWhile (fun s => s ≤ t)) 0 with h | h
  · omega
  · have := List.mem_takeWhile_imp h
    simpa using this

theorem conicSet_zero_mem (L l w : Nat) : 0 ∈ conicSet L l w := by
  unfold conicSet
  by_cases h : (0 :: ((List.range (L+1)).filter
      (fun i => 0 < i ∧ listGet (conicArr L l w) i = i))).getLast? = some L
  · rw [if_pos h]
    exact List.mem_cons_self _ _
  · rw [if_neg h]
    exact List.mem_append_left _ (List.mem_cons_self _ _)

theorem base_sorted (L l w : Nat) :
    (0 :: ((List.range (L+1)).filter
      (fun i => 0 < i ∧ listGet (conicArr L l w) i = i))).Pairwise (· < ·) := by
  refine List.pairwise_cons.mpr ⟨?_, ?_⟩
  · intro b hb
    have := List.of_mem_filter hb
    simp only [decide_eq_true_eq] at this
    exact this.1
  · exact (List.pairwise_lt_range (L+1)).filter _

/-- In a strictly sorted list whose elements are all ≤ some member x, x is
the last element. -/
theorem sorted_getLast_eq {x : Nat} :
    ∀ {X : List Nat}, X.Pairwise (· < ·) → x ∈ X → (∀ y ∈ X, y ≤ x) →
      X.getLast? = some x := by
  intro X
  induction X with
  | nil => intro _ h; cases h
  | cons a xs ih =>
    intro hp hm hle
    have ha : ∀ b ∈ xs, a < b := (List.pairwise_cons.mp hp).1
    have hxs := (List.pairwise_cons.mp hp).2
    cases xs with
    | nil =>
      rcases List.mem_cons.mp hm with rfl | h
      · rfl
      · cases h
    | cons b bs =>
      have hrec : (b :: bs).getLast? = some x := by
        apply ih hxs
        · rcases List.mem_cons.mp hm with rfl | h
          · exfalso
            have hax := ha b (List.mem_cons_self _ _)
            have := hle b (List.mem_cons_of_mem _ (List.mem_cons_self _ _))
            omega
          · exact h
        · intro y hy
          exact hle y (List.mem_cons_of_mem _ hy)
      rw [List.getLast?_cons_cons]
      exact hrec

theorem conicSet_sorted (L l w : Nat) : (conicSet L l w).Pairwise (· < ·) := by
  unfold conicSet
  by_cases h : (0 :: ((List.range (L+1)).filter
      (fun i => 0 < i ∧ listGet (conicArr L l w) i = i))).getLast? = some L
  · rw [if_pos h]
    exact base_sorted L l w
  · rw [if_neg h]
    apply List.pairwise_append.mpr
    refine ⟨base_sorted L l w, List.pairwise_singleton _ _, ?_⟩
    intro a ha b hb
    simp only [List.mem_singleton] at hb
    have hle : a ≤ L := by
      rcases List.mem_cons.mp ha with rfl | ha'
      · omega
      · have := List.mem_range.mp (List.mem_of_mem_filter ha')
        omega
    have hane : a ≠ L := by
      intro hax
      apply h
      subst hax
      apply sorted_getLast_eq (base_sorted _ l w) ha
      intro y hy
      rcases List.mem_cons.mp hy with rfl | hy'
      · omega
      · have := List.mem_range.mp (List.mem_of_mem_filter hy')
        omega
    omega

/-- In a strictly sorted list, a member x appears in the takeWhile (· ≤ x)
prefix. -/
theorem mem_takeWhile_self {x : Nat} :
    ∀ {X : List Nat}, X.Pairwise (· < ·) → x ∈ X →
      x ∈ X.takeWhile (fun s => s ≤ x) := by
  intro X
  induction X with
  | nil => intro _ h; cases h
  | cons a xs ih =>
    intro hp hm
    have ha : ∀ b ∈ xs, a < b := (List.pairwise_cons.mp hp).1
    have hxs := (List.pairwise_cons.mp hp).2
    rcases List.mem_cons.mp hm with rfl | hmem
    · rw [List.takeWhile_cons_of_pos (by simp)]
      exact List.mem_cons_self _ _
    · have hax : a < x := ha x hmem
      rw [List.takeWhile_cons_of_pos (by simp; omega)]
      exact List.mem_cons_of_mem _ (ih hxs hmem)

/-- In a strictly sorted list, the last element of the prefix of elements
≤ x equals x when x is a member. -/
theorem normAt_of_mem {x : Nat} :
    ∀ {X : List Nat}, X.Pairwise (· < ·) → x ∈ X → normAt X x = x := by
  intro X
  induction X with
  | nil => intro _ h; cases h
  | cons a xs ih =>
    intro hp hm
    have ha : ∀ b ∈ xs, a < b := (List.pairwise_cons.mp hp).1
    have hxs := (List.pairwise_cons.mp hp).2
    unfold normAt
    rcases List.mem_cons.mp hm with rfl | hmem
    · rw [List.takeWhile_cons_of_pos (by simp)]
      have ht : xs.takeWhile (fun s => s ≤ x) = [] := by
        cases xs with
        | nil => rfl
        | cons b bs =>
          have := ha b (List.mem_cons_self _ _)
          rw [List.takeWhile_cons_of_neg (by simp; omega)]
      rw [ht]
      rfl
    · have hax : a < x := ha x hmem
      rw [List.takeWhile_cons_of_pos (by simp; omega)]
      have hne : xs.takeWhile (fun s => s ≤ x) ≠ [] := by
        intro hnil
        have := mem_takeWhile_self hxs hmem
        rw [hnil] at this
        cases this
      have h1 : (a :: xs.takeWhile (fun s => s ≤ x)).getLastD 0
          = (xs.takeWhile (fun s => s ≤ x)).getLastD a := by
        cases hx : xs.takeWhile (fun s => s ≤ x) with
        | nil => exact absurd hx hne
        | cons c cs => simp [List.getLastD]
      rw [h1]
      have h2 : (xs.takeWhile (fun s => s ≤ x)).getLastD a
          = (xs.takeWhile (fun s => s ≤ x)).getLastD 0 := by
        cases hx : xs.takeWhile (fun s => s ≤ x) with
        | nil => exact absurd hx hne
        | cons c cs => simp [List.getLastD]
      rw [h2]
      exact ih hxs hmem

theorem mem_of_mem_takeWhile {α : Type} (p : α → Bool) :
    ∀ (l : List α) (x : α), x ∈ l.takeWhile p → x ∈ l := by
  intro l
  induction l with
  | nil => intro x h; cases h
  | cons a as ih =>
    intro x h
    by_cases hp : p a = true
    · rw [List.takeWhile_cons_of_pos hp] at h
      rcases List.mem_cons.mp h with rfl | h
      · exact List.mem_cons_self _ _
      · exact List.mem_cons_of_mem _ (ih x h)
    · rw [List.takeWhile_cons_of_neg (by simpa using hp)] at h
      cases h

theorem normAt_mem_or_zero (X : List Nat) (t : Nat) :
    normAt X t = 0 ∨ normAt X t ∈ X := by
  unfold normAt
  rcases getLastD_mem_or (X.takeWhile (fun s => s ≤ t)) 0 with h | h
  · exact Or.inl h
  · exact Or.inr (mem_of_mem_takeWhile _ _ _ h)

/-- C6: for every x from 0 to L, the normalize table fixes the members of
the conic-combination set X(L, l, w) and strictly decreases the
non-members. -/
theorem C6_thm (L l w x : Nat) (hx : x ≤ L) :
    (x ∈ conicSet L l w → normAt (conicSet L l w) x = x) ∧
    (x ∉ conicSet L l w → normAt (conicSet L l w) x < x) := by
  constructor
  · intro hm
    exact normAt_of_mem (conicSet_sorted L l w) hm
  · intro hnm
    have hle := normAt_le (conicSet L l w) x
    have hx0 : x ≠ 0 := by
      intro h
      subst h
      exact hnm (conicSet_zero_mem L l w)
    rcases normAt_mem_or_zero (conicSet L l w) x with h | h
    · omega
    · rcases Nat.lt_or_ge (normAt (conicSet L l w) x) x with hlt | hge
      · exact hlt
      · exfalso
        have : normAt (conicSet L l w) x = x := by omega
        rw [this] at h
        exact hnm h

/-- Witness for C6_thm at L = 5, l = 3, w = 2, x = 5. -/
theorem C6_wit :
    5 ≤ 5 ∧ ((5 ∈ conicSet 5 3 2 → normAt (conicSet 5 3 2) 5 = 5) ∧
      (5 ∉ conicSet 5 3 2 → normAt (conicSet 5 3 2) 5 < 5)) :=
  ⟨by decide, C6_thm 5 3 2 5 (by decide)⟩

theorem homLB_eq_zero {l w x y : Nat} (h : (x < l ∧ y < l) ∨ (x < w ∧ y < w)) :
    homLB l w x y = 0 := by
  unfold homLB
  rcases h with ⟨hx, hy⟩ | ⟨hx, hy⟩
  · rw [Nat.div_eq_of_lt hx, Nat.div_eq_of_lt hy]
    simp
  · rw [Nat.div_eq_of_lt hx, Nat.div_eq_of_lt hy]
    simp

/-- BD returns 0 whenever the current lower bound of its cell is 0. -/
theorem BD_of_lb_zero (c : Ctx) (f : Nat) (L0 W0 n : Nat) (s : BDState)
    (h : s.lb (max L0 W0) (min L0 W0) = 0) : (BD c f L0 W0 n s).1 = 0 := by
  cases f with
  | zero => simpa [BD] using h
  | succ f' => simp [BD, h]

/-- C3 counterexample: the input (1, 1, 2, 2) — positive dimensions, box
larger than the pallet in both directions — does not make pack signal the
error condition; pack returns the empty placement list without error. -/
theorem C3_cex : ¬ claimC3 := by
  intro h
  exact absurd
    (h 1 1 2 2 (Or.inr (Or.inr (Or.inr (Or.inr (Or.inl ⟨by decide, by decide⟩))))))
    (by decide)

/-- solve_BD returns 0 when the box fits in neither orientation of the
pallet: the homogeneous seed of the normalized root cell is 0, and BD
returns the seeded lower bound at once. -/
theorem solve_BD_zero (L0 W0 l w : Nat) (Nmax : Int)
    (h : (L0 < l ∧ W0 < l) ∨ (L0 < w ∧ W0 < w)) :
    (solve_BD L0 W0 l w Nmax).sol = 0 := by
  unfold solve_BD
  apply BD_of_lb_zero
  simp only [initCtxState]
  apply homLB_eq_zero
  have e1 := normAt_le (conicSet (max L0 W0) l w) (max L0 W0)
  have e2 := normAt_le (conicSet (max L0 W0) l w) (min L0 W0)
  rcases h with ⟨h1, h2⟩ | ⟨h1, h2⟩
  · left
    exact ⟨by omega, by omega⟩
  · right
    exact ⟨by omega, by omega⟩

/-- Witness for solve_BD_zero at the concrete input (1, 1, 2, 2). -/
theorem solve_BD_zero_wit : (solve_BD 1 1 2 2 0).sol = 0 :=
  solve_BD_zero 1 1 2 2 0 (Or.inl ⟨by decide, by decide⟩)

/-- C3 amended: pack signals the error condition (NULL) exactly when a
dimension is non-positive; for a positive-dimension input whose box fits
in neither orientation, pack returns the empty placement list with no
error signalled. -/
theorem C3_thm : ∀ L W l w : Int,
    (pack L W l w = none ↔ (L ≤ 0 ∨ W ≤ 0 ∨ l ≤ 0 ∨ w ≤ 0)) ∧
    (0 < L → 0 < W → 0 < l → 0 < w →
      ((l > L ∧ l > W) ∨ (w > L ∧ w > W)) → pack L W l w = some (0, [])) := by
  intro L W l w
  constructor
  · unfold pack
    by_cases h : packInvalidDims L W l w = true
    · rw [if_pos h]
      simp only [packInvalidDims, Bool.or_eq_true, decide_eq_true_eq] at h
      exact iff_of_true rfl (by tauto)
    · rw [if_neg h]
      simp only [packInvalidDims, Bool.or_eq_true, decide_eq_true_eq] at h
      push_neg at h
      exact iff_of_false (by simp) (by omega)
  · intro hL hW hl hw hfit
    have hguard : ¬ (packInvalidDims L W l w = true) := by
      simp only [packInvalidDims, Bool.or_eq_true, decide_eq_true_eq]
      omega
    have hsol : (solve_BD (max L.toNat W.toNat) (min L.toNat W.toNat) l.toNat w.toNat 0).sol = 0 := by
      apply solve_BD_zero
      rcases hfit with ⟨h1, h2⟩ | ⟨h1, h2⟩
      · left
        exact ⟨by omega, by omega⟩
      · right
        exact ⟨by omega, by omega⟩
    unfold pack
    rw [if_neg hguard]
    simp only [hsol]
    simp

/-- Witness for C3_thm at the concrete input (1, 1, 2, 2). -/
theorem C3_wit : pack 1 1 2 2 = some (0, []) :=
  (C3_thm 1 1 2 2).2 (by decide) (by decide) (by decide) (by decide)
    (Or.inl ⟨by decide, by decide⟩)

set_option maxRecDepth 100000 in
/-- C1 counterexample: on the pallet (8, 7) with boxes (3, 2), pack returns
8 placements (the BD count), while the L-solver seeded with the whole
pallet returns 9; the placement count does not equal the larger of the two
counts. -/
theorem C1_cex : ¬ claimC1 := by
  intro h
  exact absurd (h 8 7 3 2 (by decide) (by decide) (by decide) (by decide)) (by decide)

/-- C1 amended: the number of placements pack returns always equals the BD
solution count; pack does not run the L-solver (draw is called with
solvedWithL = false). -/
theorem C1_thm : ∀ (L W l w : Int) (p : Nat × List Box),
    pack L W l w = some p → p.2.length = nBD L W l w := by
  intro L W l w p h
  unfold pack at h
  by_cases hg : packInvalidDims L W l w = true
  · rw [if_pos hg] at h
    exact absurd h (by simp)
  · rw [if_neg hg] at h
    simp only [Option.some.injEq] at h
    subst h
    simp [nBD]

/-- Witness for C1_thm at the concrete input (1, 1, 1, 1). -/
theorem C1_wit : ((1 : Nat), [Box.mk 0 0 1 1]).2.length = nBD 1 1 1 1 :=
  C1_thm 1 1 1 1 (1, [Box.mk 0 0 1 1]) (by decide)

set_option maxRecDepth 100000 in
/-- C7 counterexample: on the pallet (2, 2) with unit boxes, the
non-degenerate L-piece (2, 2, 1, 1) has equal rectangle-split values
(3 = 3); solve records the vertical direction (horizontalCut stays false
on ties) while LCut recomputes the horizontal direction (ties go to
HORIZONTAL_CUT), so the reconstructed direction differs from the seeded
one. -/
theorem C7_cex : ¬ claimC7 := by
  intro h
  exact absurd (h lbTie nrmTie ⟨2, 2, 1, 1⟩ (by decide)) (by decide)

/-- C7 amended: whenever the two rectangle-split values of the L differ,
the direction LCut recomputes at reconstruction time equals the direction
that realised L_LowerBound at seeding time; only ties are reconstructed
differently. -/
theorem C7_thm (lb : Int → Int → Int) (nrm : Int → Int) (q : Piece)
    (hne : lb (nrm q.i1) (nrm (q.j - q.j1)) + lb (nrm q.i) (nrm q.j1)
         ≠ lb (nrm q.i1) (nrm q.j) + lb (nrm (q.i - q.i1)) (nrm q.j1)) :
    LCut lb nrm q = seededCutDir lb nrm q := by
  simp only [LCut, seededCutDir, L_LowerBoundPair, R_LowerBound]
  rcases lt_trichotomy
      (lb (nrm q.i1) (nrm (q.j - q.j1)) + lb (nrm q.i) (nrm q.j1))
      (lb (nrm q.i1) (nrm q.j) + lb (nrm (q.i - q.i1)) (nrm q.j1)) with h | h | h
  · rw [if_pos (show lb (nrm q.i1) (nrm q.j) + lb (nrm (q.i - q.i1)) (nrm q.j1) >
          lb (nrm q.i1) (nrm (q.j - q.j1)) + lb (nrm q.i) (nrm q.j1) from by omega)]
    have h2 : ¬(lb (nrm q.i1) (nrm (q.j - q.j1)) + lb (nrm q.i) (nrm q.j1) >
        lb (nrm q.i1) (nrm q.j) + lb (nrm (q.i - q.i1)) (nrm q.j1)) := by omega
    simp only [if_neg h2]
    simp
  · exact absurd h hne
  · rw [if_neg (show ¬(lb (nrm q.i1) (nrm q.j) + lb (nrm (q.i - q.i1)) (nrm q.j1) >
          lb (nrm q.i1) (nrm (q.j - q.j1)) + lb (nrm q.i) (nrm q.j1)) from by omega)]
    have h2 : lb (nrm q.i1) (nrm (q.j - q.j1)) + lb (nrm q.i) (nrm q.j1) >
        lb (nrm q.i1) (nrm q.j) + lb (nrm (q.i - q.i1)) (nrm q.j1) := by omega
    simp only [if_pos h2]
    simp

set_option maxRecDepth 100000 in
/-- Witness for C7_thm: the pallet (4, 3) with boxes (2, 1) and the
L-piece (4, 3, 3, 1), whose two rectangle splits evaluate to 5 and 3. -/
theorem C7_wit :
    (lbStrict (nrmStrict (Piece.mk 4 3 3 1).i1) (nrmStrict ((Piece.mk 4 3 3 1).j - (Piece.mk 4 3 3 1).j1))
        + lbStrict (nrmStrict (Piece.mk 4 3 3 1).i) (nrmStrict (Piece.mk 4 3 3 1).j1)
      ≠ lbStrict (nrmStrict (Piece.mk 4 3 3 1).i1) (nrmStrict (Piece.mk 4 3 3 1).j)
        + lbStrict (nrmStrict ((Piece.mk 4 3 3 1).i - (Piece.mk 4 3 3 1).i1)) (nrmStrict (Piece.mk 4 3 3 1).j1)) ∧
    LCut lbStrict nrmStrict (Piece.mk 4 3 3 1) = seededCutDir lbStrict nrmStrict (Piece.mk 4 3 3 1) :=
  ⟨by decide, C7_thm lbStrict nrmStrict (Piece.mk 4 3 3 1) (by decide)⟩

/-! C9: within one call of solve_BD every write to the lowerBound table
stores a value at least as large as the value it replaces.  Because the
source passes the cap N itself as the starting depth of the root BD call,
the depth-bounded branch of solve never runs, so during BD the table is
never written; the single write is the final root write of solve_BD. -/

theorem solvePart_cap (bdf : Nat → Nat → Nat → BDState → Int × BDState)
    (NN : Int) (nrm : Nat → Nat) (L W n : Nat)
    (blocksRaw : List (Nat × Nat)) (zlb zub : Int)
    (x1 x2 y1 y2 : Nat) (s : BDState)
    (h : ¬ ((n : Int) < NN)) :
    (solvePart bdf NN nrm L W n blocksRaw zlb zub x1 x2 y1 y2 s).st.lb = s.lb ∧
    (solvePart bdf NN nrm L W n blocksRaw zlb zub x1 x2 y1 y2 s).st.ok = s.ok ∧
    zlb ≤ (solvePart bdf NN nrm L W n blocksRaw zlb zub x1 x2 y1 y2 s).zlb := by
  rcases Decidable.em ((n : Int) < NN) with hc | hc
  · exact absurd hc h
  · simp only [solvePart, if_neg hc]
    split_ifs with h1 h2
    · exact ⟨rfl, rfl, by dsimp only; omega⟩
    · exact ⟨rfl, rfl, by dsimp only; omega⟩
    · exact ⟨rfl, rfl, le_refl zlb⟩

theorem loopY2_cap (cand : Nat → Nat → Nat → Nat → List (Nat × Nat) → Int → BDState → PartRes)
    (hc : CandCap cand) (L W x1 x2 y1 : Nat) :
    ∀ (ys : List Nat) (zlb : Int) (s : BDState),
      (loopY2 cand L W x1 x2 y1 ys zlb s).st.lb = s.lb ∧
      (loopY2 cand L W x1 x2 y1 ys zlb s).st.ok = s.ok ∧
      zlb ≤ (loopY2 cand L W x1 x2 y1 ys zlb s).zlb := by
  intro ys
  induction ys with
  | nil => intro zlb s; exact ⟨rfl, rfl, le_refl zlb⟩
  | cons y2 rest ih =>
    intro zlb s
    simp only [loopY2]
    split_ifs with h1 h2 h3
    · exact ⟨rfl, rfl, le_refl zlb⟩
    · exact hc x1 x2 y1 y2 _ zlb s
    · obtain ⟨e1, e2, e3⟩ := hc x1 x2 y1 y2
        [(x1, W - y1), (L - x1, W - y2), (x2 - x1, y2 - y1), (x2, y1), (L - x2, y2)] zlb s
      obtain ⟨f1, f2, f3⟩ := ih
        (cand x1 x2 y1 y2 [(x1, W - y1), (L - x1, W - y2), (x2 - x1, y2 - y1), (x2, y1), (L - x2, y2)] zlb s).zlb
        (cand x1 x2 y1 y2 [(x1, W - y1), (L - x1, W - y2), (x2 - x1, y2 - y1), (x2, y1), (L - x2, y2)] zlb s).st
      exact ⟨f1.trans e1, f2.trans e2, le_trans e3 f3⟩
    · exact ⟨rfl, rfl, le_refl zlb⟩

theorem loopY1_cap (cand : Nat → Nat → Nat → Nat → List (Nat × Nat) → Int → BDState → PartRes)
    (hc : CandCap cand) (L W x1 x2 : Nat) :
    ∀ (ys : List (Nat × List Nat)) (zlb : Int) (s : BDState),
      (loopY1 cand L W x1 x2 ys zlb s).st.lb = s.lb ∧
      (loopY1 cand L W x1 x2 ys zlb s).st.ok = s.ok ∧
      zlb ≤ (loopY1 cand L W x1 x2 ys zlb s).zlb := by
  intro ys
  induction ys with
  | nil => intro zlb s; exact ⟨rfl, rfl, le_refl zlb⟩
  | cons p more ih =>
    intro zlb s
    simp only [loopY1]
    split_ifs with h1 h2
    · exact loopY2_cap cand hc L W x1 x2 p.1 p.2 zlb s
    · obtain ⟨e1, e2, e3⟩ := loopY2_cap cand hc L W x1 x2 p.1 p.2 zlb s
      obtain ⟨f1, f2, f3⟩ := ih (loopY2 cand L W x1 x2 p.1 p.2 zlb s).zlb
        (loopY2 cand L W x1 x2 p.1 p.2 zlb s).st
      exact ⟨f1.trans e1, f2.trans e2, le_trans e3 f3⟩
    · exact ⟨rfl, rfl, le_refl zlb⟩

theorem loopX2_cap (cand : Nat → Nat → Nat → Nat → List (Nat × Nat) → Int → BDState → PartRes)
    (hc : CandCap cand) (L W x1 : Nat) (ry : List Nat) :
    ∀ (xs : List Nat) (zlb : Int) (s : BDState),
      (loopX2 cand L W x1 ry xs zlb s).st.lb = s.lb ∧
      (loopX2 cand L W x1 ry xs zlb s).st.ok = s.ok ∧
      zlb ≤ (loopX2 cand L W x1 ry xs zlb s).zlb := by
  intro xs
  induction xs with
  | nil => intro zlb s; exact ⟨rfl, rfl, le_refl zlb⟩
  | cons x2 rest ih =>
    intro zlb s
    simp only [loopX2]
    split_ifs with h1 h2
    · exact loopY1_cap cand hc L W x1 x2 (tailsAfter (ry.drop 1)) zlb s
    · obtain ⟨e1, e2, e3⟩ := loopY1_cap cand hc L W x1 x2 (tailsAfter (ry.drop 1)) zlb s
      obtain ⟨f1, f2, f3⟩ := ih (loopY1 cand L W x1 x2 (tailsAfter (ry.drop 1)) zlb s).zlb
        (loopY1 cand L W x1 x2 (tailsAfter (ry.drop 1)) zlb s).st
      exact ⟨f1.trans e1, f2.trans e2, le_trans e3 f3⟩
    · exact ⟨rfl, rfl, le_refl zlb⟩

theorem loopX1_cap (cand : Nat → Nat → Nat → Nat → List (Nat × Nat) → Int → BDState → PartRes)
    (hc : CandCap cand) (L W : Nat) (ry : List Nat) :
    ∀ (xs : List (Nat × List Nat)) (zlb : Int) (s : BDState),
      (loopX1 cand L W ry xs zlb s).st.lb = s.lb ∧
      (loopX1 cand L W ry xs zlb s).st.ok = s.ok ∧
      zlb ≤ (loopX1 cand L W ry xs zlb s).zlb := by
  intro xs
  induction xs with
  | nil => intro zlb s; exact ⟨rfl, rfl, le_refl zlb⟩
  | cons p more ih =>
    intro zlb s
    simp only [loopX1]
    split_ifs with h1 h2
    · exact loopX2_cap cand hc L W p.1 ry p.2 zlb s
    · obtain ⟨e1, e2, e3⟩ := loopX2_cap cand hc L W p.1 ry p.2 zlb s
      obtain ⟨f1, f2, f3⟩ := ih (loopX2 cand L W p.1 ry p.2 zlb s).zlb
        (loopX2 cand L W p.1 ry p.2 zlb s).st
      exact ⟨f1.trans e1, f2.trans e2, le_trans e3 f3⟩
    · exact ⟨rfl, rfl, le_refl zlb⟩

theorem loopVert_cap (cand : Nat → Nat → Nat → Nat → List (Nat × Nat) → Int → BDState → PartRes)
    (hc : CandCap cand) (L W : Nat) :
    ∀ (xs : List Nat) (zlb : Int) (s : BDState),
      (loopVert cand L W xs zlb s).st.lb = s.lb ∧
      (loopVert cand L W xs zlb s).st.ok = s.ok ∧
      zlb ≤ (loopVert cand L W xs zlb s).zlb := by
  intro xs
  induction xs with
  | nil => intro zlb s; exact ⟨rfl, rfl, le_refl zlb⟩
  | cons x1 rest ih =>
    intro zlb s
    simp only [loopVert]
    split_ifs with h1 h2
    · exact hc x1 x1 0 0 _ zlb s
    · obtain ⟨e1, e2, e3⟩ := hc x1 x1 0 0 [(x1, W - 0), (L - x1, W - 0)] zlb s
      obtain ⟨f1, f2, f3⟩ := ih (cand x1 x1 0 0 [(x1, W - 0), (L - x1, W - 0)] zlb s).zlb
        (cand x1 x1 0 0 [(x1, W - 0), (L - x1, W - 0)] zlb s).st
      exact ⟨f1.trans e1, f2.trans e2, le_trans e3 f3⟩
    · exact ⟨rfl, rfl, le_refl zlb⟩

theorem loopHoriz_cap (cand : Nat → Nat → Nat → Nat → List (Nat × Nat) → Int → BDState → PartRes)
    (hc : CandCap cand) (L W : Nat) :
    ∀ (ys : List Nat) (zlb : Int) (s : BDState),
      (loopHoriz cand L W ys zlb s).st.lb = s.lb ∧
      (loopHoriz cand L W ys zlb s).st.ok = s.ok ∧
      zlb ≤ (loopHoriz cand L W ys zlb s).zlb := by
  intro ys
  induction ys with
  | nil => intro zlb s; exact ⟨rfl, rfl, le_refl zlb⟩
  | cons y1 rest ih =>
    intro zlb s
    simp only [loopHoriz]
    split_ifs with h1 h2
    · exact hc 0 0 y1 y1 _ zlb s
    · obtain ⟨e1, e2, e3⟩ := hc 0 0 y1 y1 [(L - 0, W - y1), (L - 0, y1)] zlb s
      obtain ⟨f1, f2, f3⟩ := ih (cand 0 0 y1 y1 [(L - 0, W - y1), (L - 0, y1)] zlb s).zlb
        (cand 0 0 y1 y1 [(L - 0, W - y1), (L - 0, y1)] zlb s).st
      exact ⟨f1.trans e1, f2.trans e2, le_trans e3 f3⟩
    · exact ⟨rfl, rfl, le_refl zlb⟩

theorem bdTail_cap (cand : Nat → Nat → Nat → Nat → List (Nat × Nat) → Int → BDState → PartRes)
    (hc : CandCap cand) (L W : Nat) (rx ry : List Nat) (zlb : Int) (s0 : BDState) :
    (bdTail cand L W rx ry zlb s0).2.lb = s0.lb ∧
    (bdTail cand L W rx ry zlb s0).2.ok = s0.ok ∧
    zlb ≤ (bdTail cand L W rx ry zlb s0).1 := by
  obtain ⟨a1, a2, a3⟩ := loopX1_cap cand hc L W ry (tailsAfter (rx.drop 1)) zlb s0
  obtain ⟨b1, b2, b3⟩ := loopVert_cap cand hc L W (rx.drop 1)
    (loopX1 cand L W ry (tailsAfter (rx.drop 1)) zlb s0).zlb
    (loopX1 cand L W ry (tailsAfter (rx.drop 1)) zlb s0).st
  obtain ⟨c1, c2, c3⟩ := loopHoriz_cap cand hc L W (ry.drop 1)
    (loopVert cand L W (rx.drop 1)
      (loopX1 cand L W ry (tailsAfter (rx.drop 1)) zlb s0).zlb
      (loopX1 cand L W ry (tailsAfter (rx.drop 1)) zlb s0).st).zlb
    (loopVert cand L W (rx.drop 1)
      (loopX1 cand L W ry (tailsAfter (rx.drop 1)) zlb s0).zlb
      (loopX1 cand L W ry (tailsAfter (rx.drop 1)) zlb s0).st).st
  simp only [bdTail]
  split_ifs with h1 h2
  · exact ⟨a1, a2, a3⟩
  · exact ⟨b1.trans a1, b2.trans a2, le_trans a3 b3⟩
  · exact ⟨(c1.trans b1).trans a1, (c2.trans b2).trans a2,
      le_trans a3 (le_trans b3 c3)⟩

/-- When the depth argument already meets the cap, BD preserves the
lowerBound table and the ghost flag and returns at least the current
bound of its cell. -/
theorem BD_cap (c : Ctx) (fuel : Nat) (L0 W0 n : Nat) (s : BDState)
    (h : ¬ ((n : Int) < c.NN)) :
    (BD c fuel L0 W0 n s).2.lb = s.lb ∧
    (BD c fuel L0 W0 n s).2.ok = s.ok ∧
    s.lb (max L0 W0) (min L0 W0) ≤ (BD c fuel L0 W0 n s).1 := by
  cases fuel with
  | zero => exact ⟨rfl, rfl, le_refl _⟩
  | succ fuel' =>
    have hcand : CandCap (fun x1 x2 y1 y2 blocks zlb' s' =>
        solvePart (BD c fuel') c.NN c.nrm (max L0 W0) (min L0 W0) n blocks zlb'
          (localUpperBound s (max L0 W0) (min L0 W0)) x1 x2 y1 y2 s') := by
      intro x1 x2 y1 y2 blocks zlb' s'
      exact solvePart_cap (BD c fuel') c.NN c.nrm (max L0 W0) (min L0 W0) n
        blocks zlb' (localUpperBound s (max L0 W0) (min L0 W0)) x1 x2 y1 y2 s' h
    simp only [BD]
    split_ifs with h1
    · exact ⟨rfl, rfl, le_refl _⟩
    · exact bdTail_cap _ hcand (max L0 W0) (min L0 W0)
        (constructRaster1 (max L0 W0) c.conic c.nrm)
        (constructRaster1 (min L0 W0) c.conic c.nrm)
        (s.lb (max L0 W0) (min L0 W0))
        (writeReached (max L0 W0) (min L0 W0) 0 s)

/-- The homogeneous bound is symmetric under the L ≥ W normalization. -/
theorem homLB_max_min (l w a b : Nat) :
    homLB l w (max a b) (min a b) = homLB l w a b := by
  unfold homLB
  rcases Nat.le_total a b with h | h
  · rw [Nat.max_eq_right h, Nat.min_eq_left h]
    congr 1
    rw [Nat.max_comm, Nat.mul_comm (b / w) (a / l), Nat.mul_comm (b / l) (a / w)]
  · rw [Nat.max_eq_left h, Nat.min_eq_right h]

/-- C9: every write to the lowerBound table during solve_BD stores a value
at least as large as the value it replaces (the ghost flag stays true),
and the final table dominates the homogeneous-packing seed everywhere. -/
theorem C9_thm (L0 W0 l w : Nat) (Nmax : Int) :
    (solve_BD L0 W0 l w Nmax).st.ok = true ∧
    ∀ a b : Nat, homLB l w a b ≤ (solve_BD L0 W0 l w Nmax).st.lb a b := by
  have hnn : ¬ ((((if Nmax ≤ 0 then INFTY else Nmax).toNat : Int)) <
      (initCtxState (max L0 W0) (min L0 W0) l w (if Nmax ≤ 0 then INFTY else Nmax)).1.NN) := by
    show ¬ (((if Nmax ≤ 0 then INFTY else Nmax).toNat : Int) < (if Nmax ≤ 0 then INFTY else Nmax))
    split_ifs with hm
    · simp [INFTY]
    · omega
  obtain ⟨e1, e2, e3⟩ := BD_cap
    (initCtxState (max L0 W0) (min L0 W0) l w (if Nmax ≤ 0 then INFTY else Nmax)).1
    (max L0 W0 * min L0 W0 + 2)
    ((initCtxState (max L0 W0) (min L0 W0) l w (if Nmax ≤ 0 then INFTY else Nmax)).1.nrm (max L0 W0))
    ((initCtxState (max L0 W0) (min L0 W0) l w (if Nmax ≤ 0 then INFTY else Nmax)).1.nrm (min L0 W0))
    ((if Nmax ≤ 0 then INFTY else Nmax).toNat)
    (initCtxState (max L0 W0) (min L0 W0) l w (if Nmax ≤ 0 then INFTY else Nmax)).2
    hnn
  simp only [solve_BD, writeLb]
  constructor
  · rw [e2, e1]
    have hseed : (initCtxState (max L0 W0) (min L0 W0) l w
        (if Nmax ≤ 0 then INFTY else Nmax)).2.lb
          ((initCtxState (max L0 W0) (min L0 W0) l w (if Nmax ≤ 0 then INFTY else Nmax)).1.nrm (max L0 W0))
          ((initCtxState (max L0 W0) (min L0 W0) l w (if Nmax ≤ 0 then INFTY else Nmax)).1.nrm (min L0 W0))
        ≤ (BD (initCtxState (max L0 W0) (min L0 W0) l w (if Nmax ≤ 0 then INFTY else Nmax)).1
            (max L0 W0 * min L0 W0 + 2)
            ((initCtxState (max L0 W0) (min L0 W0) l w (if Nmax ≤ 0 then INFTY else Nmax)).1.nrm (max L0 W0))
            ((initCtxState (max L0 W0) (min L0 W0) l w (if Nmax ≤ 0 then INFTY else Nmax)).1.nrm (min L0 W0))
            ((if Nmax ≤ 0 then INFTY else Nmax).toNat)
            (initCtxState (max L0 W0) (min L0 W0) l w (if Nmax ≤ 0 then INFTY else Nmax)).2).1 := by
      refine le_trans (le_of_eq ?_) e3
      show homLB l w _ _ = homLB l w _ _
      rw [homLB_max_min]
    rw [Bool.and_eq_true]
    refine ⟨rfl, ?_⟩
    rw [decide_eq_true_eq]
    exact hseed
  · intro a b
    by_cases hab : a = (initCtxState (max L0 W0) (min L0 W0) l w (if Nmax ≤ 0 then INFTY else Nmax)).1.nrm (max L0 W0)
        ∧ b = (initCtxState (max L0 W0) (min L0 W0) l w (if Nmax ≤ 0 then INFTY else Nmax)).1.nrm (min L0 W0)
    · rw [if_pos hab]
      obtain ⟨ha, hb⟩ := hab
      subst ha
      subst hb
      refine le_trans (le_of_eq ?_) e3
      show homLB l w _ _ = homLB l w _ _
      rw [homLB_max_min]
    · rw [if_neg hab, e1]
      exact le_refl _

/-! C10: injectivity of the LIndex memo index (memory type 4) on raster
point tuples, via the rank characterization of the indexRaster scan. -/

theorem dropWhile_lt_cons_pos (a k : Nat) (t : List Nat) (h : a < k) :
    List.dropWhile (fun r => decide (r < k)) (a :: t)
      = List.dropWhile (fun r => decide (r < k)) t := by
  apply List.dropWhile_cons_of_pos
  simp only [decide_eq_true_eq]
  exact h

theorem dropWhile_lt_cons_neg (a k : Nat) (t : List Nat) (h : ¬ (a < k)) :
    List.dropWhile (fun r => decide (r < k)) (a :: t) = a :: t := by
  apply List.dropWhile_cons_of_neg
  simp only [decide_eq_true_eq]
  exact h

theorem dropWhile_lt_succ (k : Nat) :
    ∀ (rs : List Nat), rs.Pairwise (· < ·) →
      rs.dropWhile (fun r => r < (k+1)) =
        (match rs.dropWhile (fun r => r < k) with
          | [] => ([] : List Nat)
          | r :: rest => if r = k then rest else r :: rest) := by
  intro rs
  induction rs with
  | nil => intro _; rfl
  | cons a t ih =>
    intro hp
    have ha : ∀ b ∈ t, a < b := (List.pairwise_cons.mp hp).1
    have ht := (List.pairwise_cons.mp hp).2
    by_cases hak : a < k
    · rw [dropWhile_lt_cons_pos a (k+1) t (by omega), dropWhile_lt_cons_pos a k t hak]
      exact ih ht
    · rw [dropWhile_lt_cons_neg a k t hak]
      by_cases hak' : a = k
      · rw [dropWhile_lt_cons_pos a (k+1) t (by omega)]
        simp only [if_pos hak']
        cases t with
        | nil => exact List.dropWhile_nil
        | cons b t' =>
          have hb := ha b (List.mem_cons_self _ _)
          rw [dropWhile_lt_cons_neg b (k+1) t' (by omega)]
      · rw [dropWhile_lt_cons_neg a (k+1) t (by omega)]
        simp only [if_neg hak']

theorem head_dropWhile_of_mem (k : Nat) :
    ∀ (rs : List Nat), rs.Pairwise (· < ·) → k ∈ rs →
      ∃ rest, rs.dropWhile (fun r => r < k) = k :: rest := by
  intro rs
  induction rs with
  | nil => intro _ h; cases h
  | cons a t ih =>
    intro hp hm
    have ha : ∀ b ∈ t, a < b := (List.pairwise_cons.mp hp).1
    have ht := (List.pairwise_cons.mp hp).2
    rcases List.mem_cons.mp hm with rfl | hmt
    · exact ⟨t, dropWhile_lt_cons_neg k k t (by omega)⟩
    · have hak : a < k := ha k hmt
      rw [dropWhile_lt_cons_pos a k t hak]
      exact ih ht hmt

theorem countP_lt_succ (k : Nat) :
    ∀ (rs : List Nat), rs.Nodup →
      rs.countP (fun r => r < (k+1)) =
        rs.countP (fun r => r < k) + (if k ∈ rs then 1 else 0) := by
  intro rs
  induction rs with
  | nil => intro _; rfl
  | cons a t ih =>
    intro hnd
    have hat : a ∉ t := (List.nodup_cons.mp hnd).1
    have ht := (List.nodup_cons.mp hnd).2
    rw [List.countP_cons, List.countP_cons, ih ht]
    by_cases hak : a = k
    · subst hak
      have hmem : a ∈ a :: t := List.mem_cons_self _ _
      rw [if_pos hmem, if_neg hat]
      have h1 : (decide (a < a + 1)) = true := by
        simp only [decide_eq_true_eq]
        omega
      have h2 : (decide (a < a)) = false := by
        simp only [decide_eq_false_iff_not]
        omega
      rw [h1, h2]
      simp
    · have hdec : (decide (a < k + 1)) = (decide (a < k)) := by
        rcases Nat.lt_or_ge a k with h | h
        · have e1 : (decide (a < k + 1)) = true := by
            simp only [decide_eq_true_eq]
            omega
          have e2 : (decide (a < k)) = true := by
            simp only [decide_eq_true_eq]
            omega
          rw [e1, e2]
        · have hk : ¬ (a < k + 1) := by omega
          have e1 : (decide (a < k + 1)) = false := by
            simp only [decide_eq_false_iff_not]
            omega
          have e2 : (decide (a < k)) = false := by
            simp only [decide_eq_false_iff_not]
            omega
          rw [e1, e2]
      rw [hdec]
      by_cases hkt : k ∈ t
      · rw [if_pos (List.mem_cons_of_mem a hkt), if_pos hkt]
        omega
      · have hknot : k ∉ a :: t := by
          intro h
          rcases List.mem_cons.mp h with h' | h'
          · exact hak h'.symm
          · exact hkt h'
        rw [if_neg hknot, if_neg hkt]
        omega

theorem getD_append_lt {α : Type} (l l' : List α) (d : α) (n : Nat) (h : n < l.length) :
    (l ++ l').getD n d = l.getD n d := by
  induction l generalizing n with
  | nil => cases h
  | cons a t ih =>
    cases n with
    | zero => rfl
    | succ m =>
      simp only [List.cons_append, List.getD_cons_succ]
      exact ih m (by simpa using h)

theorem getD_append_length {α : Type} (v d : α) :
    ∀ (l : List α), (l ++ [v]).getD l.length d = v := by
  intro l
  induction l with
  | nil => rfl
  | cons a t ih => simpa using ih

/-- Invariant of the indexRaster scan after processing 0..k-1. -/
theorem scan_invariant (rs : List Nat) (hs : rs.Pairwise (· < ·)) :
    ∀ k : Nat,
      ((List.range k).foldl indexStep ([], rs, 0)).1.length = k ∧
      ((List.range k).foldl indexStep ([], rs, 0)).2.1 = rs.dropWhile (fun r => r < k) ∧
      ((List.range k).foldl indexStep ([], rs, 0)).2.2 = rs.countP (fun r => r < k) ∧
      (∀ x : Nat, x < k → x ∈ rs →
        ((List.range k).foldl indexStep ([], rs, 0)).1.reverse.getD x 0
          = rs.countP (fun r => r < x)) := by
  have hnd : rs.Nodup := List.Pairwise.imp (fun h => Nat.ne_of_lt h) hs
  intro k
  induction k with
  | zero =>
    refine ⟨rfl, ?_, ?_, ?_⟩
    · show rs = rs.dropWhile (fun r => r < 0)
      symm
      cases rs with
      | nil => rfl
      | cons a t => exact dropWhile_lt_cons_neg a 0 t (by omega)
    · show 0 = rs.countP (fun r => r < 0)
      symm
      rw [List.countP_eq_zero]
      intro a _
      simp
    · intro x hx
      omega
  | succ k ih =>
    obtain ⟨i1, i2, i3, i4⟩ := ih
    rw [List.range_succ, List.foldl_append]
    set A := (List.range k).foldl indexStep ([], rs, 0) with hA
    simp only [List.foldl_cons, List.foldl_nil]
    rcases hrem : A.2.1 with _ | ⟨r, rest⟩
    · have hstep : indexStep A k = ((A.1.headD 0) :: A.1, [], A.2.2) := by
        unfold indexStep
        rw [hrem]
      have hknot : k ∉ rs := by
        intro hk
        obtain ⟨rest', hr⟩ := head_dropWhile_of_mem k rs hs hk
        rw [← i2, hrem] at hr
        cases hr
      have h2' : rs.dropWhile (fun r => r < (k+1)) = [] := by
        rw [dropWhile_lt_succ k rs hs, ← i2, hrem]
      refine ⟨?_, ?_, ?_, ?_⟩
      · rw [hstep]
        simpa using i1
      · rw [hstep, h2']
      · rw [hstep]
        show A.2.2 = _
        rw [i3, countP_lt_succ k rs hnd, if_neg hknot]
        omega
      · intro x hx hxm
        rw [hstep]
        show ((A.1.headD 0) :: A.1).reverse.getD x 0 = _
        rw [List.reverse_cons]
        have hxk : x < k := by
          rcases Nat.lt_or_ge x k with h | h
          · exact h
          · exfalso
            have : x = k := by omega
            subst this
            exact hknot hxm
        rw [getD_append_lt _ _ _ _ (by rw [List.length_reverse, i1]; omega)]
        exact i4 x hxk hxm
    · by_cases hrk : r = k
      · have hstep : indexStep A k = (A.2.2 :: A.1, rest, A.2.2 + 1) := by
          unfold indexStep
          rw [hrem]
          simp [hrk]
        have hkmem : k ∈ rs := by
          rw [← hrk]
          have : r ∈ rs.dropWhile (fun t => t < k) := by
            rw [← i2, hrem]
            exact List.mem_cons_self _ _
          exact (List.dropWhile_sublist _).subset this
        have h2' : rs.dropWhile (fun t => t < (k+1)) = rest := by
          rw [dropWhile_lt_succ k rs hs, ← i2, hrem]
          simp [hrk]
        refine ⟨?_, ?_, ?_, ?_⟩
        · rw [hstep]
          simpa using i1
        · rw [hstep, h2']
        · rw [hstep]
          show A.2.2 + 1 = _
          rw [i3, countP_lt_succ k rs hnd, if_pos hkmem]
        · intro x hx hxm
          rw [hstep]
          show (A.2.2 :: A.1).reverse.getD x 0 = _
          rw [List.reverse_cons]
          rcases Nat.lt_or_ge x k with hxk | hxk
          · rw [getD_append_lt _ _ _ _ (by rw [List.length_reverse, i1]; omega)]
            exact i4 x hxk hxm
          · have hxr : x = k := by omega
            subst hxr
            have hlen : A.1.reverse.length = x := by rw [List.length_reverse, i1]
            rw [← hlen, getD_append_length]
            rw [i3, hlen]
      · have hstep : indexStep A k = ((A.1.headD 0) :: A.1, r :: rest, A.2.2) := by
          unfold indexStep
          rw [hrem]
          simp [hrk]
        have hknot : k ∉ rs := by
          intro hk
          obtain ⟨rest', hr⟩ := head_dropWhile_of_mem k rs hs hk
          rw [← i2, hrem] at hr
          injection hr with h1 h2
          exact hrk h1
        have h2' : rs.dropWhile (fun t => t < (k+1)) = r :: rest := by
          rw [dropWhile_lt_succ k rs hs, ← i2, hrem]
          simp [hrk]
        refine ⟨?_, ?_, ?_, ?_⟩
        · rw [hstep]
          simpa using i1
        · rw [hstep, h2']
        · rw [hstep]
          show A.2.2 = _
          rw [i3, countP_lt_succ k rs hnd, if_neg hknot]
          omega
        · intro x hx hxm
          rw [hstep]
          show ((A.1.headD 0) :: A.1).reverse.getD x 0 = _
          rw [List.reverse_cons]
          have hxk : x < k := by
            rcases Nat.lt_or_ge x k with h | h
            · exact h
            · exfalso
              have : x = k := by omega
              subst this
              exact hknot hxm
          rw [getD_append_lt _ _ _ _ (by rw [List.length_reverse, i1]; omega)]
          exact i4 x hxk hxm

/-- The indexRaster array holds, at every raster point within range, the
rank of the point in the raster list. -/
theorem buildIndexScan_rank (rs : List Nat) (n : Nat) (hs : rs.Pairwise (· < ·))
    (x : Nat) (hx : x ∈ rs) (hxn : x ≤ n) :
    listGet (buildIndexScan rs n).1 x = rs.countP (fun r => r < x) := by
  obtain ⟨i1, _, _, i4⟩ := scan_invariant rs hs (n+1)
  unfold buildIndexScan listGet
  simp only []
  rw [getD_append_lt _ _ _ _ (by rw [List.length_reverse, i1]; omega)]
  exact i4 x (by omega) hx

/-- The raster-point count returned by the scan. -/
theorem buildIndexScan_cnt (rs : List Nat) (n : Nat) (hs : rs.Pairwise (· < ·)) :
    (buildIndexScan rs n).2 = rs.countP (fun r => r < (n+1)) := by
  obtain ⟨_, _, i3, _⟩ := scan_invariant rs hs (n+1)
  unfold buildIndexScan
  exact i3

/-- Ranks are strictly monotone across members. -/
theorem countP_lt_strict (rs : List Nat) (x y : Nat) (hx : x ∈ rs) (hxy : x < y) :
    rs.countP (fun r => r < x) < rs.countP (fun r => r < y) := by
  induction rs with
  | nil => cases hx
  | cons a t ih =>
    rw [List.countP_cons, List.countP_cons]
    have hmono : t.countP (fun r => r < x) ≤ t.countP (fun r => r < y) := by
      apply List.countP_mono_left
      intro r _ hr
      simp only [decide_eq_true_eq] at hr ⊢
      omega
    rcases List.mem_cons.mp hx with rfl | hxt
    · rw [if_neg (show ¬ (decide (x < x) = true) by simp),
        if_pos (show decide (x < y) = true by simp only [decide_eq_true_eq]; omega)]
      omega
    · have hlt := ih hxt
      by_cases hax : a < x
      · rw [if_pos (show decide (a < x) = true by simp only [decide_eq_true_eq]; omega),
          if_pos (show decide (a < y) = true by simp only [decide_eq_true_eq]; omega)]
        omega
      · rw [if_neg (show ¬ (decide (a < x) = true) by simp only [decide_eq_true_eq]; omega)]
        by_cases hay : a < y
        · rw [if_pos (show decide (a < y) = true by simp only [decide_eq_true_eq]; omega)]
          omega
        · rw [if_neg (show ¬ (decide (a < y) = true) by simp only [decide_eq_true_eq]; omega)]
          omega

/-- Mixed-radix digit extraction. -/
theorem mixedStep {a a' b b' n : Nat} (hb : b < n) (hb' : b' < n)
    (h : a * n + b = a' * n + b') : a = a' ∧ b = b' := by
  have hbb : b = b' := by
    have h1 : (a * n + b) % n = b := by
      rw [Nat.add_comm, Nat.add_mul_mod_self_right]
      exact Nat.mod_eq_of_lt hb
    have h2 : (a' * n + b') % n = b' := by
      rw [Nat.add_comm, Nat.add_mul_mod_self_right]
      exact Nat.mod_eq_of_lt hb'
    rw [h] at h1
    rw [h1] at h2
    exact h2
  subst hbb
  refine ⟨?_, rfl⟩
  have hn : 0 < n := by omega
  have hmul : a * n = a' * n := by omega
  exact Nat.eq_of_mul_eq_mul_right hn hmul

/-- C10: with memory type 4, LIndex is injective on L-piece tuples whose
components are raster points within range. -/
theorem C10_thm (rs : List Nat) (L W : Nat) (cc : Ctx) (hs : rs.Pairwise (· < ·))
    (a b c d a' b' c' d' : Nat)
    (ha : a ∈ rs) (hb : b ∈ rs) (hc : c ∈ rs) (hd : d ∈ rs)
    (ha' : a' ∈ rs) (hb' : b' ∈ rs) (hc' : c' ∈ rs) (hd' : d' ∈ rs)
    (haL : a ≤ L) (hcL : c ≤ L) (haL' : a' ≤ L) (hcL' : c' ≤ L)
    (hbW : b ≤ W) (hdW : d ≤ W) (hbW' : b' ≤ W) (hdW' : d' ≤ W)
    (hne : ¬ (a = a' ∧ b = b' ∧ c = c' ∧ d = d')) :
    LIndexP ⟨cc, fun i => listGet (buildIndexScan rs L).1 i,
        fun i => listGet (buildIndexScan rs W).1 i,
        (buildIndexScan rs L).2, (buildIndexScan rs W).2⟩
        (Piece.mk (a : Int) (b : Int) (c : Int) (d : Int))
      ≠ LIndexP ⟨cc, fun i => listGet (buildIndexScan rs L).1 i,
        fun i => listGet (buildIndexScan rs W).1 i,
        (buildIndexScan rs L).2, (buildIndexScan rs W).2⟩
        (Piece.mk (a' : Int) (b' : Int) (c' : Int) (d' : Int)) := by
  intro heq
  simp only [LIndexP, Int.toNat_natCast] at heq
  have hrank : ∀ z : Nat, z ∈ rs → ∀ m : Nat, z ≤ m →
      listGet (buildIndexScan rs m).1 z < (buildIndexScan rs m).2 := by
    intro z hz m hzm
    rw [buildIndexScan_rank rs m hs z hz hzm, buildIndexScan_cnt rs m hs]
    exact countP_lt_strict rs z (m+1) hz (by omega)
  have hinj : ∀ z z' : Nat, z ∈ rs → z' ∈ rs → ∀ m : Nat, z ≤ m → z' ≤ m →
      listGet (buildIndexScan rs m).1 z = listGet (buildIndexScan rs m).1 z' → z = z' := by
    intro z z' hz hz' m hzm hzm' he
    rw [buildIndexScan_rank rs m hs z hz hzm, buildIndexScan_rank rs m hs z' hz' hzm'] at he
    rcases lt_trichotomy z z' with h | h | h
    · exact absurd he (Nat.ne_of_lt (countP_lt_strict rs z z' hz h))
    · exact h
    · exact absurd he.symm (Nat.ne_of_lt (countP_lt_strict rs z' z hz' h))
  obtain ⟨e1, e2⟩ := mixedStep (hrank d hd W hdW) (hrank d' hd' W hdW') heq
  obtain ⟨e3, e4⟩ := mixedStep (hrank c hc L hcL) (hrank c' hc' L hcL') e1
  obtain ⟨e5, e6⟩ := mixedStep (hrank b hb W hbW) (hrank b' hb' W hbW') e3
  exact hne ⟨hinj a a' ha ha' L haL haL' e5, hinj b b' hb hb' W hbW hbW' e6,
    hinj c c' hc hc' L hcL hcL' e4, hinj d d' hd hd' W hdW hdW' e2⟩

/-- Witness for C10_thm on the raster list [0, 2, 3]. -/
theorem C10_wit :
    LIndexP ⟨⟨1, 1, 1, fun i => i, []⟩, fun i => listGet (buildIndexScan [0, 2, 3] 3).1 i,
        fun i => listGet (buildIndexScan [0, 2, 3] 3).1 i,
        (buildIndexScan [0, 2, 3] 3).2, (buildIndexScan [0, 2, 3] 3).2⟩
        (Piece.mk (0 : Int) (2 : Int) (2 : Int) (3 : Int))
      ≠ LIndexP ⟨⟨1, 1, 1, fun i => i, []⟩, fun i => listGet (buildIndexScan [0, 2, 3] 3).1 i,
        fun i => listGet (buildIndexScan [0, 2, 3] 3).1 i,
        (buildIndexScan [0, 2, 3] 3).2, (buildIndexScan [0, 2, 3] 3).2⟩
        (Piece.mk (2 : Int) (0 : Int) (3 : Int) (2 : Int)) :=
  C10_thm [0, 2, 3] 3 3 ⟨1, 1, 1, fun i => i, []⟩ (by decide)
    0 2 2 3 2 0 3 2
    (by decide) (by decide) (by decide) (by decide)
    (by decide) (by decide) (by decide) (by decide)
    (by decide) (by decide) (by decide) (by decide)
    (by decide) (by decide) (by decide) (by decide)
    (by decide)

/-! C5: strict area decrease of every recursive call of the BD and
L-solver recursions. -/

theorem area_mono (a b c d a' b' c' d' : Int)
    (h1 : a' ≤ a) (h2 : b' ≤ b) (h3 : c' ≤ c) (h4 : d' ≤ d)
    (h5 : 0 ≤ d') (h6 : 0 ≤ c') (h7 : c' ≤ a) (h8 : d ≤ b) :
    area ⟨a', b', c', d'⟩ ≤ area ⟨a, b, c, d⟩ := by
  have p1 : 0 ≤ (a - a') * d' := mul_nonneg (by linarith) h5
  have p2 : 0 ≤ (a - c') * (d - d') := mul_nonneg (by linarith) (by linarith)
  have p3 : 0 ≤ c' * (b - b') := mul_nonneg h6 (by linarith)
  have p4 : 0 ≤ (b - d) * (c - c') := mul_nonneg (by linarith) (by linarith)
  have key : area ⟨a, b, c, d⟩ - area ⟨a', b', c', d'⟩
      = (a - a') * d' + (a - c') * (d - d') + c' * (b - b') + (b - d) * (c - c') := by
    unfold area
    ring
  linarith

theorem area_rule4 (q : Piece) : area (rule4 q) = area q := by
  unfold rule4
  split_ifs with h1 h2 h3
  · unfold area
    rw [h1]
    ring
  · unfold area
    rw [h2]
    ring
  · rcases h3 with h | h
    · unfold area
      rw [h]
      ring
    · unfold area
      rw [h]
      ring
  · rfl

/-- When normalizePiece does not discard the piece, it preserves the area,
and the area is at least the box area. -/
theorem normalizePiece_spec (l w : Int) (c : Piece)
    (h : ¬ ((normalizePiece l w c).i < 0)) :
    area (normalizePiece l w c) = area c ∧ l * w ≤ area c := by
  by_cases hd : area (rule4 c) < l * w
  · exfalso
    apply h
    simp only [normalizePiece, if_pos hd]
    norm_num
  · have hge : l * w ≤ area c := by
      rw [← area_rule4 c]
      omega
    refine ⟨?_, hge⟩
    have base := area_rule4 c
    simp only [normalizePiece, if_neg hd]
    split_ifs with h0 h1 h2 h3 h4 h5
    · rw [← base]
      try unfold area
      try dsimp only
      try ring
    · obtain ⟨_, _, _, _, hij, _⟩ := h2
      dsimp only at hij
      rw [← base]
      try unfold area
      try dsimp only
      try rw [hij]
      try ring
    · rw [← base]
      try unfold area
      try dsimp only
      try ring
    · rw [← base]
      try unfold area
      try dsimp only
      try ring
    · obtain ⟨_, _, _, _, hij, _⟩ := h4
      try dsimp only at hij
      rw [← base]
      try unfold area
      try dsimp only
      try rw [hij]
      try ring
    · exact base

theorem decrease_step (l w : Int) (q c1 c2 e1 e2 : Piece)
    (hlw : 1 ≤ l * w)
    (hadd : area e1 + area e2 = area q)
    (h1 : area c1 ≤ area e1) (h2 : area c2 ≤ area e2)
    (hq1 : ¬ ((normalizePiece l w c1).i < 0))
    (hq2 : ¬ ((normalizePiece l w c2).i < 0)) :
    area (normalizePiece l w c1) < area q ∧ area (normalizePiece l w c2) < area q := by
  obtain ⟨e1a, e1b⟩ := normalizePiece_spec l w c1 hq1
  obtain ⟨e2a, e2b⟩ := normalizePiece_spec l w c2 hq2
  constructor
  · rw [e1a]
    linarith
  · rw [e2a]
    linarith

theorem normBlockN_mul (nrm : Nat → Nat) (p : Nat × Nat) :
    (normBlockN nrm p).1 * (normBlockN nrm p).2 = nrm p.1 * nrm p.2 := by
  unfold normBlockN
  dsimp only
  split_ifs with h
  · exact Nat.mul_comm _ _
  · rfl

theorem nrm_mul_le (nrm : Nat → Nat) (hn : ∀ x, nrm x ≤ x) (u v : Nat) :
    nrm u * nrm v ≤ u * v := Nat.mul_le_mul (hn u) (hn v)

/-- C5: every recursive call of the two solvers is made on a strictly
smaller problem.  Clauses B1-B9: for each subdivision, under the validity
of the piece, the loop constraints of solve/divideL/divideB6/divideB7 and
non-discarding of both children, both normalized children have strictly
smaller area than the parent L.  Last three clauses: every normalized
five-block, vertical-cut and horizontal-cut partition of the BD recursion
has strictly smaller rectangle area than its parent. -/
theorem C5_thm (l w : Int) (nrm : Int → Int) (nrmN : Nat → Nat)
    (hl : 1 ≤ l) (hw : 1 ≤ w)
    (hnrm : ∀ x : Int, nrm x ≤ x) (hnrm0 : ∀ x : Int, 0 ≤ x → 0 ≤ nrm x)
    (hnrmN : ∀ x : Nat, nrmN x ≤ x) :
    (∀ (q : Piece) (xp yp : Int),
      0 ≤ q.i1 → q.i1 ≤ q.i → 0 ≤ q.j1 → q.j1 ≤ q.j →
      0 ≤ xp → xp ≤ q.i1 → 0 ≤ yp → yp ≤ q.j1 →
      ¬ ((normalizePiece l w (standardPositionB1 nrm xp yp q).1).i < 0) →
      ¬ ((normalizePiece l w (standardPositionB1 nrm xp yp q).2).i < 0) →
      area (normalizePiece l w (standardPositionB1 nrm xp yp q).1) < area q ∧
      area (normalizePiece l w (standardPositionB1 nrm xp yp q).2) < area q) ∧
    (∀ (q : Piece) (xp yp : Int),
      0 ≤ q.i1 → q.i1 ≤ q.i → 0 ≤ q.j1 → q.j1 ≤ q.j →
      0 ≤ xp → xp ≤ q.i1 → q.j1 ≤ yp → yp ≤ q.j →
      ¬ ((normalizePiece l w (standardPositionB2 nrm xp yp q).1).i < 0) →
      ¬ ((normalizePiece l w (standardPositionB2 nrm xp yp q).2).i < 0) →
      area (normalizePiece l w (standardPositionB2 nrm xp yp q).1) < area q ∧
      area (normalizePiece l w (standardPositionB2 nrm xp yp q).2) < area q) ∧
    (∀ (q : Piece) (xp yp : Int),
      0 ≤ q.i1 → q.i1 ≤ q.i → 0 ≤ q.j1 → q.j1 ≤ q.j →
      0 ≤ xp → xp ≤ q.i1 → 0 ≤ yp → yp ≤ q.j1 →
      ¬ ((normalizePiece l w (standardPositionB3 nrm xp yp q).1).i < 0) →
      ¬ ((normalizePiece l w (standardPositionB3 nrm xp yp q).2).i < 0) →
      area (normalizePiece l w (standardPositionB3 nrm xp yp q).1) < area q ∧
      area (normalizePiece l w (standardPositionB3 nrm xp yp q).2) < area q) ∧
    (∀ (q : Piece) (xp yp : Int),
      0 ≤ q.i1 → q.i1 ≤ q.i → 0 ≤ q.j1 → q.j1 ≤ q.j →
      q.i1 ≤ xp → xp ≤ q.i → 0 ≤ yp → yp ≤ q.j1 →
      ¬ ((normalizePiece l w (standardPositionB4 nrm xp yp q).1).i < 0) →
      ¬ ((normalizePiece l w (standardPositionB4 nrm xp yp q).2).i < 0) →
      area (normalizePiece l w (standardPositionB4 nrm xp yp q).1) < area q ∧
      area (normalizePiece l w (standardPositionB4 nrm xp yp q).2) < area q) ∧
    (∀ (q : Piece) (xp yp : Int),
      0 ≤ q.i1 → q.i1 ≤ q.i → 0 ≤ q.j1 → q.j1 ≤ q.j →
      0 ≤ xp → xp ≤ q.i1 → 0 ≤ yp → yp ≤ q.j1 →
      ¬ ((normalizePiece l w (standardPositionB5 nrm xp yp q).1).i < 0) →
      ¬ ((normalizePiece l w (standardPositionB5 nrm xp yp q).2).i < 0) →
      area (normalizePiece l w (standardPositionB5 nrm xp yp q).1) < area q ∧
      area (normalizePiece l w (standardPositionB5 nrm xp yp q).2) < area q) ∧
    (∀ (q : Piece) (xp yp xpp : Int),
      q.i1 = q.i → q.j1 = q.j → 0 ≤ q.i → 0 ≤ q.j →
      0 ≤ xp → xp ≤ xpp → xpp ≤ q.i → 0 ≤ yp → yp ≤ q.j →
      ¬ ((normalizePiece l w (standardPositionB6 nrm xp yp xpp q).1).i < 0) →
      ¬ ((normalizePiece l w (standardPositionB6 nrm xp yp xpp q).2).i < 0) →
      area (normalizePiece l w (standardPositionB6 nrm xp yp xpp q).1) < area q ∧
      area (normalizePiece l w (standardPositionB6 nrm xp yp xpp q).2) < area q) ∧
    (∀ (q : Piece) (xp yp ypp : Int),
      q.i1 = q.i → q.j1 = q.j → 0 ≤ q.i → 0 ≤ q.j →
      0 ≤ xp → xp ≤ q.i → 0 ≤ yp → yp ≤ ypp → ypp ≤ q.j →
      ¬ ((normalizePiece l w (standardPositionB7 nrm xp yp ypp q).1).i < 0) →
      ¬ ((normalizePiece l w (standardPositionB7 nrm xp yp ypp q).2).i < 0) →
      area (normalizePiece l w (standardPositionB7 nrm xp yp ypp q).1) < area q ∧
      area (normalizePiece l w (standardPositionB7 nrm xp yp ypp q).2) < area q) ∧
    (∀ (q : Piece) (xp yp : Int),
      0 ≤ q.i1 → q.i1 ≤ q.i → 0 ≤ q.j1 → q.j1 ≤ q.j →
      0 ≤ xp → xp ≤ q.i1 → q.j1 ≤ yp → yp ≤ q.j →
      ¬ ((normalizePiece l w (standardPositionB8 nrm xp yp q).1).i < 0) →
      ¬ ((normalizePiece l w (standardPositionB8 nrm xp yp q).2).i < 0) →
      area (normalizePiece l w (standardPositionB8 nrm xp yp q).1) < area q ∧
      area (normalizePiece l w (standardPositionB8 nrm xp yp q).2) < area q) ∧
    (∀ (q : Piece) (xp yp : Int),
      0 ≤ q.i1 → q.i1 ≤ q.i → 0 ≤ q.j1 → q.j1 ≤ q.j →
      q.i1 ≤ xp → xp ≤ q.i → 0 ≤ yp → yp ≤ q.j1 →
      ¬ ((normalizePiece l w (standardPositionB9 nrm xp yp q).1).i < 0) →
      ¬ ((normalizePiece l w (standardPositionB9 nrm xp yp q).2).i < 0) →
      area (normalizePiece l w (standardPositionB9 nrm xp yp q).1) < area q ∧
      area (normalizePiece l w (standardPositionB9 nrm xp yp q).2) < area q) ∧
    (∀ (L W x1 x2 y1 y2 : Nat), 1 ≤ x1 → x1 ≤ L / 2 → x1 ≤ x2 → x2 + x1 ≤ L →
      1 ≤ y1 → y1 < W → y1 ≤ y2 → y2 < W →
      ∀ p ∈ [(x1, W - y1), (L - x1, W - y2), (x2 - x1, y2 - y1), (x2, y1), (L - x2, y2)],
        (normBlockN nrmN p).1 * (normBlockN nrmN p).2 < L * W) ∧
    (∀ (L W x1 : Nat), 1 ≤ x1 → x1 ≤ L / 2 → 0 < W →
      ∀ p ∈ [(x1, W - 0), (L - x1, W - 0)],
        (normBlockN nrmN p).1 * (normBlockN nrmN p).2 < L * W) ∧
    (∀ (L W y1 : Nat), 1 ≤ y1 → y1 ≤ W / 2 → 0 < L →
      ∀ p ∈ [(L - 0, W - y1), (L - 0, y1)],
        (normBlockN nrmN p).1 * (normBlockN nrmN p).2 < L * W) := by
  have hlw : 1 ≤ l * w := by nlinarith
  refine ⟨?_, ?_, ?_, ?_, ?_, ?_, ?_, ?_, ?_, ?_, ?_, ?_⟩
  · -- B1
    intro q xp yp v1 v2 v3 v4 b1 b2 b3 b4 hq1 hq2
    have n1 := hnrm (q.j - yp)
    have n1x := hnrm0 (q.j - yp) (by omega)
    have n2 := hnrm (q.j - q.j1)
    have n2x := hnrm0 (q.j - q.j1) (by omega)
    have n3 := hnrm (q.i - xp)
    have n3x := hnrm0 (q.i - xp) (by omega)
    refine decrease_step l w q _ _ ⟨q.i1, q.j - yp, xp, q.j - q.j1⟩
      ⟨q.i, q.j1, q.i - xp, yp⟩ hlw ?_ ?_ ?_ hq1 hq2
    · unfold area
      dsimp only
      ring
    · show area ⟨q.i1, nrm (q.j - yp), xp, nrm (q.j - q.j1)⟩
        ≤ area ⟨q.i1, q.j - yp, xp, q.j - q.j1⟩
      apply area_mono <;> omega
    · show area ⟨q.i, q.j1, nrm (q.i - xp), yp⟩ ≤ area ⟨q.i, q.j1, q.i - xp, yp⟩
      apply area_mono <;> omega
  · -- B2
    intro q xp yp v1 v2 v3 v4 b1 b2 b3 b4 hq1 hq2
    have n1 := hnrm (q.j - q.j1)
    have n1x := hnrm0 (q.j - q.j1) (by omega)
    have n2 := hnrm (q.i1 - xp)
    have n2x := hnrm0 (q.i1 - xp) (by omega)
    have n3 := hnrm (q.j - yp)
    have n3x := hnrm0 (q.j - yp) (by omega)
    refine decrease_step l w q _ _ ⟨q.i1, q.j - q.j1, q.i1 - xp, q.j - yp⟩
      ⟨q.i, yp, xp, q.j1⟩ hlw ?_ ?_ ?_ hq1 hq2
    · unfold area
      dsimp only
      ring
    · show area ⟨q.i1, nrm (q.j - q.j1), nrm (q.i1 - xp), nrm (q.j - yp)⟩
        ≤ area ⟨q.i1, q.j - q.j1, q.i1 - xp, q.j - yp⟩
      apply area_mono <;> omega
    · exact le_refl _
  · -- B3
    intro q xp yp v1 v2 v3 v4 b1 b2 b3 b4 hq1 hq2
    have n1 := hnrm (q.i - xp)
    have n1x := hnrm0 (q.i - xp) (by omega)
    have n2 := hnrm (q.j - yp)
    have n2x := hnrm0 (q.j - yp) (by omega)
    have n3 := hnrm (q.i1 - xp)
    have n3x := hnrm0 (q.i1 - xp) (by omega)
    have n4 := hnrm (q.j1 - yp)
    have n4x := hnrm0 (q.j1 - yp) (by omega)
    refine decrease_step l w q _ _ ⟨q.i, q.j, xp, yp⟩
      ⟨q.i - xp, q.j - yp, q.i1 - xp, q.j1 - yp⟩ hlw ?_ ?_ ?_ hq1 hq2
    · unfold area
      dsimp only
      ring
    · exact le_refl _
    · show area ⟨nrm (q.i - xp), nrm (q.j - yp), nrm (q.i1 - xp), nrm (q.j1 - yp)⟩
        ≤ area ⟨q.i - xp, q.j - yp, q.i1 - xp, q.j1 - yp⟩
      apply area_mono <;> omega
  · -- B4
    intro q xp yp v1 v2 v3 v4 b1 b2 b3 b4 hq1 hq2
    have n1 := hnrm (q.i - q.i1)
    have n1x := hnrm0 (q.i - q.i1) (by omega)
    have n2 := hnrm (q.i - xp)
    have n2x := hnrm0 (q.i - xp) (by omega)
    have n3 := hnrm (q.j1 - yp)
    have n3x := hnrm0 (q.j1 - yp) (by omega)
    refine decrease_step l w q _ _ ⟨xp, q.j, q.i1, yp⟩
      ⟨q.i - q.i1, q.j1, q.i - xp, q.j1 - yp⟩ hlw ?_ ?_ ?_ hq1 hq2
    · unfold area
      dsimp only
      ring
    · exact le_refl _
    · show area ⟨nrm (q.i - q.i1), q.j1, nrm (q.i - xp), nrm (q.j1 - yp)⟩
        ≤ area ⟨q.i - q.i1, q.j1, q.i - xp, q.j1 - yp⟩
      apply area_mono <;> omega
  · -- B5
    intro q xp yp v1 v2 v3 v4 b1 b2 b3 b4 hq1 hq2
    have n1 := hnrm (q.j - yp)
    have n1x := hnrm0 (q.j - yp) (by omega)
    have n2 := hnrm (q.i - xp)
    have n2x := hnrm0 (q.i - xp) (by omega)
    have n3 := hnrm (q.i - q.i1)
    have n3x := hnrm0 (q.i - q.i1) (by omega)
    refine decrease_step l w q _ _ ⟨q.i1, q.j, xp, q.j - yp⟩
      ⟨q.i - xp, q.j1, q.i - q.i1, yp⟩ hlw ?_ ?_ ?_ hq1 hq2
    · unfold area
      dsimp only
      ring
    · show area ⟨q.i1, q.j, xp, nrm (q.j - yp)⟩ ≤ area ⟨q.i1, q.j, xp, q.j - yp⟩
      apply area_mono <;> omega
    · show area ⟨nrm (q.i - xp), q.j1, nrm (q.i - q.i1), yp⟩
        ≤ area ⟨q.i - xp, q.j1, q.i - q.i1, yp⟩
      apply area_mono <;> omega
  · -- B6
    intro q xp yp xpp hr1 hr2 v1 v2 b1 b2 b3 b4 b5 hq1 hq2
    have n1 := hnrm (q.j - yp)
    have n1x := hnrm0 (q.j - yp) (by omega)
    have n2 := hnrm (q.i - xp)
    have n2x := hnrm0 (q.i - xp) (by omega)
    have n3 := hnrm (q.i - xpp)
    have n3x := hnrm0 (q.i - xpp) (by omega)
    refine decrease_step l w q _ _ ⟨xpp, q.j, xp, q.j - yp⟩
      ⟨q.i - xp, q.j, q.i - xpp, yp⟩ hlw ?_ ?_ ?_ hq1 hq2
    · unfold area
      dsimp only
      rw [hr1, hr2]
      ring
    · show area ⟨xpp, q.j, xp, nrm (q.j - yp)⟩ ≤ area ⟨xpp, q.j, xp, q.j - yp⟩
      apply area_mono <;> omega
    · show area ⟨nrm (q.i - xp), q.j, nrm (q.i - xpp), yp⟩
        ≤ area ⟨q.i - xp, q.j, q.i - xpp, yp⟩
      apply area_mono <;> omega
  · -- B7
    intro q xp yp ypp hr1 hr2 v1 v2 b1 b2 b3 b4 b5 hq1 hq2
    have n1 := hnrm (q.j - yp)
    have n1x := hnrm0 (q.j - yp) (by omega)
    have n2 := hnrm (q.j - ypp)
    have n2x := hnrm0 (q.j - ypp) (by omega)
    have n3 := hnrm (q.i - xp)
    have n3x := hnrm0 (q.i - xp) (by omega)
    refine decrease_step l w q _ _ ⟨q.i, q.j - yp, xp, q.j - ypp⟩
      ⟨q.i, ypp, q.i - xp, yp⟩ hlw ?_ ?_ ?_ hq1 hq2
    · unfold area
      dsimp only
      rw [hr1, hr2]
      ring
    · show area ⟨q.i, nrm (q.j - yp), xp, nrm (q.j - ypp)⟩
        ≤ area ⟨q.i, q.j - yp, xp, q.j - ypp⟩
      apply area_mono <;> omega
    · show area ⟨q.i, ypp, nrm (q.i - xp), yp⟩ ≤ area ⟨q.i, ypp, q.i - xp, yp⟩
      apply area_mono <;> omega
  · -- B8
    intro q xp yp v1 v2 v3 v4 b1 b2 b3 b4 hq1 hq2
    have n1 := hnrm (q.j - yp)
    have n1x := hnrm0 (q.j - yp) (by omega)
    have n2 := hnrm (q.i - xp)
    have n2x := hnrm0 (q.i - xp) (by omega)
    have n3 := hnrm (q.i1 - xp)
    have n3x := hnrm0 (q.i1 - xp) (by omega)
    refine decrease_step l w q _ _ ⟨q.i1, q.j, xp, q.j - yp⟩
      ⟨q.i - xp, yp, q.i1 - xp, q.j1⟩ hlw ?_ ?_ ?_ hq1 hq2
    · unfold area
      dsimp only
      ring
    · show area ⟨q.i1, q.j, xp, nrm (q.j - yp)⟩ ≤ area ⟨q.i1, q.j, xp, q.j - yp⟩
      apply area_mono <;> omega
    · show area ⟨nrm (q.i - xp), yp, nrm (q.i1 - xp), q.j1⟩
        ≤ area ⟨q.i - xp, yp, q.i1 - xp, q.j1⟩
      apply area_mono <;> omega
  · -- B9
    intro q xp yp v1 v2 v3 v4 b1 b2 b3 b4 hq1 hq2
    have n1 := hnrm (q.j - yp)
    have n1x := hnrm0 (q.j - yp) (by omega)
    have n2 := hnrm (q.j1 - yp)
    have n2x := hnrm0 (q.j1 - yp) (by omega)
    have n3 := hnrm (q.i - xp)
    have n3x := hnrm0 (q.i - xp) (by omega)
    refine decrease_step l w q _ _ ⟨xp, q.j - yp, q.i1, q.j1 - yp⟩
      ⟨q.i, q.j1, q.i - xp, yp⟩ hlw ?_ ?_ ?_ hq1 hq2
    · unfold area
      dsimp only
      ring
    · show area ⟨xp, nrm (q.j - yp), q.i1, nrm (q.j1 - yp)⟩
        ≤ area ⟨xp, q.j - yp, q.i1, q.j1 - yp⟩
      apply area_mono <;> omega
    · show area ⟨q.i, q.j1, nrm (q.i - xp), yp⟩ ≤ area ⟨q.i, q.j1, q.i - xp, yp⟩
      apply area_mono <;> omega
  · -- five blocks
    intro L W x1 x2 y1 y2 g1 g2 g3 g4 g5 g6 g7 g8 p hp
    rw [normBlockN_mul]
    simp only [List.mem_cons, List.not_mem_nil, or_false] at hp
    rcases hp with rfl | rfl | rfl | rfl | rfl <;>
      exact lt_of_le_of_lt (nrm_mul_le nrmN hnrmN _ _)
        (Nat.mul_lt_mul'' (by omega) (by omega))
  · -- vertical guillotine
    intro L W x1 g1 g2 g3 p hp
    rw [normBlockN_mul]
    simp only [List.mem_cons, List.not_mem_nil, or_false] at hp
    rcases hp with rfl | rfl <;>
      exact lt_of_le_of_lt (nrm_mul_le nrmN hnrmN _ _)
        (Nat.mul_lt_mul_of_lt_of_le (by omega) (by omega) (by omega))
  · -- horizontal guillotine
    intro L W y1 g1 g2 g3 p hp
    rw [normBlockN_mul]
    simp only [List.mem_cons, List.not_mem_nil, or_false] at hp
    rcases hp with rfl | rfl <;>
      exact lt_of_le_of_lt (nrm_mul_le nrmN hnrmN _ _)
        (Nat.mul_lt_mul_of_le_of_lt (by omega) (by omega) (by omega))

/-- Witness for C5_thm: the B1 clause at l = w = 1, identity normalization,
q = (2, 2, 1, 1) and the cut (1, 1). -/
theorem C5_wit :
    area (normalizePiece 1 1 (standardPositionB1 (fun z => z) 1 1 (Piece.mk 2 2 1 1)).1)
      < area (Piece.mk 2 2 1 1) ∧
    area (normalizePiece 1 1 (standardPositionB1 (fun z => z) 1 1 (Piece.mk 2 2 1 1)).2)
      < area (Piece.mk 2 2 1 1) :=
  (C5_thm 1 1 (fun z => z) (fun n => n) (by norm_num) (by norm_num)
      (fun x => le_refl x) (fun x h => h) (fun x => le_refl x)).1
    (Piece.mk 2 2 1 1) 1 1 (by decide) (by decide) (by decide) (by decide)
    (by decide) (by decide) (by decide) (by decide) (by decide) (by decide)

/-! C2: the reconstruction never overlaps.  First the cut-table invariant
through solve_BD. -/

theorem wf_writeReached (x y : Nat) (v : Int) (s : BDState) (hs : WFCutP s) :
    WFCutP (writeReached x y v s) := fun a b => hs a b

theorem wf_writeSDepth (x y : Nat) (v : Int) (s : BDState) (hs : WFCutP s) :
    WFCutP (writeSDepth x y v s) := fun a b => hs a b

theorem wf_writeLb (x y : Nat) (v : Int) (s : BDState) (hs : WFCutP s) :
    WFCutP (writeLb x y v s) := fun a b => hs a b

theorem storeCutPoint_wf (L W x1 x2 y1 y2 : Nat) (s : BDState)
    (hx12 : x1 ≤ x2) (hx2 : x2 ≤ L) (hy12 : y1 ≤ y2) (hy2 : y2 ≤ W)
    (hs : WFCutP s) : WFCutP (storeCutPoint L W x1 x2 y1 y2 s) := by
  intro a b
  have hcut : (storeCutPoint L W x1 x2 y1 y2 s).cut a b
      = if a = L ∧ b = W then (⟨x1, x2, y1, y2, 0⟩ : CutPoint) else s.cut a b := rfl
  rw [hcut]
  by_cases hab : a = L ∧ b = W
  · rw [if_pos hab]
    obtain ⟨ha, hb⟩ := hab
    subst ha
    subst hb
    exact ⟨hx12, hx2, hy12, hy2⟩
  · rw [if_neg hab]
    exact hs a b

theorem solvePart_wfcut (bdf : Nat → Nat → Nat → BDState → Int × BDState)
    (NN : Int) (nrm : Nat → Nat) (L W n : Nat)
    (blocksRaw : List (Nat × Nat)) (zlb zub : Int)
    (x1 x2 y1 y2 : Nat) (s : BDState)
    (h : ¬ ((n : Int) < NN))
    (hx12 : x1 ≤ x2) (hx2 : x2 ≤ L) (hy12 : y1 ≤ y2) (hy2 : y2 ≤ W)
    (hs : WFCutP s) :
    WFCutP (solvePart bdf NN nrm L W n blocksRaw zlb zub x1 x2 y1 y2 s).st := by
  rcases Decidable.em ((n : Int) < NN) with hc | hc
  · exact absurd hc h
  · simp only [solvePart, if_neg hc]
    split_ifs with h1 h2
    · exact wf_writeReached _ _ _ _ (wf_writeSDepth _ _ _ _
        (storeCutPoint_wf L W x1 x2 y1 y2 _ hx12 hx2 hy12 hy2
          (wf_writeReached _ _ _ _ hs)))
    · exact storeCutPoint_wf L W x1 x2 y1 y2 _ hx12 hx2 hy12 hy2
        (wf_writeReached _ _ _ _ hs)
    · exact wf_writeReached _ _ _ _ hs

theorem loopY2_wf (cand : Nat → Nat → Nat → Nat → List (Nat × Nat) → Int → BDState → PartRes)
    (L W x1 x2 y1 : Nat) (hc : CandWF cand L W) (hx12 : x1 ≤ x2) (hx2 : x2 ≤ L) :
    ∀ (ys : List Nat) (zlb : Int) (s : BDState), (∀ y ∈ ys, y1 ≤ y) →
      WFCutP s → WFCutP (loopY2 cand L W x1 x2 y1 ys zlb s).st := by
  intro ys
  induction ys with
  | nil => intro zlb s _ hs; exact hs
  | cons y2 rest ih =>
    intro zlb s hys hs
    simp only [loopY2]
    split_ifs with h1 h2 h3
    · exact hs
    · exact hc x1 x2 y1 y2 _ zlb s hx12 hx2 (hys y2 (List.mem_cons_self _ _)) (by omega) hs
    · apply ih _ _ (fun y hy => hys y (List.mem_cons_of_mem _ hy))
      exact hc x1 x2 y1 y2 _ zlb s hx12 hx2 (hys y2 (List.mem_cons_self _ _)) (by omega) hs
    · exact hs

theorem loopY1_wf (cand : Nat → Nat → Nat → Nat → List (Nat × Nat) → Int → BDState → PartRes)
    (L W x1 x2 : Nat) (hc : CandWF cand L W) (hx12 : x1 ≤ x2) (hx2 : x2 ≤ L) :
    ∀ (ps : List (Nat × List Nat)) (zlb : Int) (s : BDState),
      (∀ p ∈ ps, ∀ y ∈ p.2, p.1 ≤ y) →
      WFCutP s → WFCutP (loopY1 cand L W x1 x2 ps zlb s).st := by
  intro ps
  induction ps with
  | nil => intro zlb s _ hs; exact hs
  | cons p more ih =>
    intro zlb s hps hs
    simp only [loopY1]
    split_ifs with h1 h2
    · exact loopY2_wf cand L W x1 x2 p.1 hc hx12 hx2 p.2 zlb s
        (hps p (List.mem_cons_self _ _)) hs
    · apply ih _ _ (fun p' hp' => hps p' (List.mem_cons_of_mem _ hp'))
      exact loopY2_wf cand L W x1 x2 p.1 hc hx12 hx2 p.2 zlb s
        (hps p (List.mem_cons_self _ _)) hs
    · exact hs

theorem loopX2_wf (cand : Nat → Nat → Nat → Nat → List (Nat × Nat) → Int → BDState → PartRes)
    (L W x1 : Nat) (ry : List Nat) (hc : CandWF cand L W)
    (hry : ∀ p ∈ tailsAfter (ry.drop 1), ∀ y ∈ p.2, p.1 ≤ y) :
    ∀ (xs : List Nat) (zlb : Int) (s : BDState), (∀ x ∈ xs, x1 ≤ x) →
      WFCutP s → WFCutP (loopX2 cand L W x1 ry xs zlb s).st := by
  intro xs
  induction xs with
  | nil => intro zlb s _ hs; exact hs
  | cons x2 rest ih =>
    intro zlb s hxs hs
    simp only [loopX2]
    split_ifs with h1 h2
    · exact loopY1_wf cand L W x1 x2 hc (hxs x2 (List.mem_cons_self _ _)) (by omega)
        _ zlb s hry hs
    · apply ih _ _ (fun x hx => hxs x (List.mem_cons_of_mem _ hx))
      exact loopY1_wf cand L W x1 x2 hc (hxs x2 (List.mem_cons_self _ _)) (by omega)
        _ zlb s hry hs
    · exact hs

theorem loopX1_wf (cand : Nat → Nat → Nat → Nat → List (Nat × Nat) → Int → BDState → PartRes)
    (L W : Nat) (ry : List Nat) (hc : CandWF cand L W)
    (hry : ∀ p ∈ tailsAfter (ry.drop 1), ∀ y ∈ p.2, p.1 ≤ y) :
    ∀ (ps : List (Nat × List Nat)) (zlb : Int) (s : BDState),
      (∀ p ∈ ps, ∀ x ∈ p.2, p.1 ≤ x) →
      WFCutP s → WFCutP (loopX1 cand L W ry ps zlb s).st := by
  intro ps
  induction ps with
  | nil => intro zlb s _ hs; exact hs
  | cons p more ih =>
    intro zlb s hps hs
    simp only [loopX1]
    split_ifs with h1 h2
    · exact loopX2_wf cand L W p.1 ry hc hry p.2 zlb s (hps p (List.mem_cons_self _ _)) hs
    · apply ih _ _ (fun p' hp' => hps p' (List.mem_cons_of_mem _ hp'))
      exact loopX2_wf cand L W p.1 ry hc hry p.2 zlb s (hps p (List.mem_cons_self _ _)) hs
    · exact hs

theorem loopVert_wf (cand : Nat → Nat → Nat → Nat → List (Nat × Nat) → Int → BDState → PartRes)
    (L W : Nat) (hc : CandWF cand L W) :
    ∀ (xs : List Nat) (zlb : Int) (s : BDState),
      WFCutP s → WFCutP (loopVert cand L W xs zlb s).st := by
  intro xs
  induction xs with
  | nil => intro zlb s hs; exact hs
  | cons x1 rest ih =>
    intro zlb s hs
    simp only [loopVert]
    split_ifs with h1 h2
    · exact hc x1 x1 0 0 _ zlb s (le_refl _) (by omega) (le_refl _) (Nat.zero_le _) hs
    · apply ih
      exact hc x1 x1 0 0 _ zlb s (le_refl _) (by omega) (le_refl _) (Nat.zero_le _) hs
    · exact hs

theorem loopHoriz_wf (cand : Nat → Nat → Nat → Nat → List (Nat × Nat) → Int → BDState → PartRes)
    (L W : Nat) (hc : CandWF cand L W) :
    ∀ (ys : List Nat) (zlb : Int) (s : BDState),
      WFCutP s → WFCutP (loopHoriz cand L W ys zlb s).st := by
  intro ys
  induction ys with
  | nil => intro zlb s hs; exact hs
  | cons y1 rest ih =>
    intro zlb s hs
    simp only [loopHoriz]
    split_ifs with h1 h2
    · exact hc 0 0 y1 y1 _ zlb s (le_refl _) (Nat.zero_le _) (le_refl _) (by omega) hs
    · apply ih
      exact hc 0 0 y1 y1 _ zlb s (le_refl _) (Nat.zero_le _) (le_refl _) (by omega) hs
    · exact hs

theorem bdTail_wf (cand : Nat → Nat → Nat → Nat → List (Nat × Nat) → Int → BDState → PartRes)
    (L W : Nat) (rx ry : List Nat) (zlb : Int) (s0 : BDState)
    (hc : CandWF cand L W)
    (hrx : ∀ p ∈ tailsAfter (rx.drop 1), ∀ x ∈ p.2, p.1 ≤ x)
    (hry : ∀ p ∈ tailsAfter (ry.drop 1), ∀ y ∈ p.2, p.1 ≤ y)
    (hs0 : WFCutP s0) : WFCutP (bdTail cand L W rx ry zlb s0).2 := by
  have h1 := loopX1_wf cand L W ry hc hry (tailsAfter (rx.drop 1)) zlb s0 hrx hs0
  have h2 := loopVert_wf cand L W hc (rx.drop 1)
    (loopX1 cand L W ry (tailsAfter (rx.drop 1)) zlb s0).zlb
    (loopX1 cand L W ry (tailsAfter (rx.drop 1)) zlb s0).st h1
  have h3 := loopHoriz_wf cand L W hc (ry.drop 1)
    (loopVert cand L W (rx.drop 1)
      (loopX1 cand L W ry (tailsAfter (rx.drop 1)) zlb s0).zlb
      (loopX1 cand L W ry (tailsAfter (rx.drop 1)) zlb s0).st).zlb
    (loopVert cand L W (rx.drop 1)
      (loopX1 cand L W ry (tailsAfter (rx.drop 1)) zlb s0).zlb
      (loopX1 cand L W ry (tailsAfter (rx.drop 1)) zlb s0).st).st h2
  simp only [bdTail]
  split_ifs with ha hb
  · exact h1
  · exact h2
  · exact h3

theorem le_getLastD_sorted : ∀ (a : List Nat), a.Pairwise (· < ·) →
    ∀ y ∈ a, y ≤ a.getLastD 0 := by
  intro a
  induction a with
  | nil => intro _ y hy; cases hy
  | cons x t ih =>
    intro hp y hy
    have hx := (List.pairwise_cons.mp hp).1
    have ht := (List.pairwise_cons.mp hp).2
    have hstep : (x :: t).getLastD 0 = t.getLastD x := by
      cases t <;> simp [List.getLastD]
    rw [hstep]
    rcases List.mem_cons.mp hy with rfl | hyt
    · rcases getLastD_mem_or t y with h | h
      · omega
      · exact le_of_lt (hx _ h)
    · cases t with
      | nil => cases hyt
      | cons b bs =>
        have : (b :: bs).getLastD x = (b :: bs).getLastD 0 := by
          simp [List.getLastD]
        rw [this]
        exact ih ht y hyt

theorem rasterInsert_sorted (a : List Nat) (v : Nat) (h : a.Pairwise (· < ·)) :
    (rasterInsert a v).Pairwise (· < ·) := by
  unfold rasterInsert
  split_ifs with hc
  · rcases hc with hn | hl
    · have : a = [] := List.length_eq_zero.mp hn
      subst this
      simp
    · apply List.pairwise_append.mpr
      refine ⟨h, List.pairwise_singleton _ _, ?_⟩
      intro y hy b hb
      simp only [List.mem_singleton] at hb
      subst hb
      exact lt_of_le_of_lt (le_getLastD_sorted a h y hy) hl
  · exact h

theorem raster_foldl_sorted (f : Nat → Nat) :
    ∀ (l : List Nat) (acc : List Nat), acc.Pairwise (· < ·) →
      (l.foldl (fun a x => rasterInsert a (f x)) acc).Pairwise (· < ·) := by
  intro l
  induction l with
  | nil => intro acc h; exact h
  | cons x t ih => intro acc h; exact ih _ (rasterInsert_sorted _ _ h)

theorem constructRaster1_sorted (B : Nat) (conic : List Nat) (nrm : Nat → Nat) :
    (constructRaster1 B conic nrm).Pairwise (· < ·) :=
  raster_foldl_sorted (fun x => nrm (B - x)) ((trimEnd B conic).reverse) [] (by simp)

theorem tailsAfter_le : ∀ (xs : List Nat), xs.Pairwise (· < ·) →
    ∀ p ∈ tailsAfter xs, ∀ y ∈ p.2, p.1 ≤ y := by
  intro xs
  induction xs with
  | nil => intro _ p hp; cases hp
  | cons x t ih =>
    intro hp p hmem
    have hx := (List.pairwise_cons.mp hp).1
    have ht := (List.pairwise_cons.mp hp).2
    rcases List.mem_cons.mp hmem with rfl | hm
    · intro y hy
      exact le_of_lt (hx y hy)
    · exact ih ht p hm

theorem BD_wfcut (c : Ctx) (fuel : Nat) (L0 W0 n : Nat) (s : BDState)
    (h : ¬ ((n : Int) < c.NN)) (hs : WFCutP s) :
    WFCutP (BD c fuel L0 W0 n s).2 := by
  cases fuel with
  | zero => exact hs
  | succ fuel' =>
    have hcand : CandWF (fun x1 x2 y1 y2 blocks zlb' s' =>
        solvePart (BD c fuel') c.NN c.nrm (max L0 W0) (min L0 W0) n blocks zlb'
          (localUpperBound s (max L0 W0) (min L0 W0)) x1 x2 y1 y2 s')
        (max L0 W0) (min L0 W0) := by
      intro x1 x2 y1 y2 blocks zlb' s' hx12 hx2 hy12 hy2 hs'
      exact solvePart_wfcut (BD c fuel') c.NN c.nrm (max L0 W0) (min L0 W0) n
        blocks zlb' (localUpperBound s (max L0 W0) (min L0 W0)) x1 x2 y1 y2 s'
        h hx12 hx2 hy12 hy2 hs'
    have hrx : ∀ p ∈ tailsAfter ((constructRaster1 (max L0 W0) c.conic c.nrm).drop 1),
        ∀ x ∈ p.2, p.1 ≤ x :=
      tailsAfter_le _ ((constructRaster1_sorted (max L0 W0) c.conic c.nrm).sublist
        (List.drop_sublist 1 _))
    have hry : ∀ p ∈ tailsAfter ((constructRaster1 (min L0 W0) c.conic c.nrm).drop 1),
        ∀ y ∈ p.2, p.1 ≤ y :=
      tailsAfter_le _ ((constructRaster1_sorted (min L0 W0) c.conic c.nrm).sublist
        (List.drop_sublist 1 _))
    simp only [BD]
    split_ifs with h1
    · exact wf_writeReached _ _ _ _ (wf_writeSDepth _ _ _ _ hs)
    · exact bdTail_wf _ (max L0 W0) (min L0 W0)
        (constructRaster1 (max L0 W0) c.conic c.nrm)
        (constructRaster1 (min L0 W0) c.conic c.nrm)
        (s.lb (max L0 W0) (min L0 W0))
        (writeReached (max L0 W0) (min L0 W0) 0 s)
        hcand hrx hry (wf_writeReached _ _ _ _ hs)

/-- The cut-point table of the state solve_BD returns is well formed. -/
theorem solve_BD_wfcut (L0 W0 l w : Nat) (Nmax : Int) :
    WFCutP (solve_BD L0 W0 l w Nmax).st := by
  have hnn : ¬ ((((if Nmax ≤ 0 then INFTY else Nmax).toNat : Int)) <
      (initCtxState (max L0 W0) (min L0 W0) l w (if Nmax ≤ 0 then INFTY else Nmax)).1.NN) := by
    show ¬ (((if Nmax ≤ 0 then INFTY else Nmax).toNat : Int) < (if Nmax ≤ 0 then INFTY else Nmax))
    split_ifs with hm
    · simp [INFTY]
    · omega
  have hinit : WFCutP (initCtxState (max L0 W0) (min L0 W0) l w
      (if Nmax ≤ 0 then INFTY else Nmax)).2 := by
    intro a b
    exact ⟨le_refl 0, Nat.zero_le a, le_refl 0, Nat.zero_le b⟩
  have hbd := BD_wfcut
    (initCtxState (max L0 W0) (min L0 W0) l w (if Nmax ≤ 0 then INFTY else Nmax)).1
    (max L0 W0 * min L0 W0 + 2)
    ((initCtxState (max L0 W0) (min L0 W0) l w (if Nmax ≤ 0 then INFTY else Nmax)).1.nrm (max L0 W0))
    ((initCtxState (max L0 W0) (min L0 W0) l w (if Nmax ≤ 0 then INFTY else Nmax)).1.nrm (min L0 W0))
    ((if Nmax ≤ 0 then INFTY else Nmax).toNat)
    (initCtxState (max L0 W0) (min L0 W0) l w (if Nmax ≤ 0 then INFTY else Nmax)).2
    hnn hinit
  simp only [solve_BD]
  exact wf_writeLb _ _ _ _ hbd

/-- The normalize table of the context solve_BD returns never increases its
argument. -/
theorem solve_BD_nrm_le (L0 W0 l w : Nat) (Nmax : Int) :
    ∀ x : Nat, (solve_BD L0 W0 l w Nmax).c.nrm x ≤ x := by
  intro x
  show normAt (conicSet (max L0 W0) l w) x ≤ x
  exact normAt_le _ _

/-! DP characterization of the conic-combination array and superadditivity of the normalize table. -/

theorem listGet_listSet_ne : ∀ (a : List Nat) (m i v : Nat), i ≠ m →
    listGet (listSet a m v) i = listGet a i := by
  intro a
  induction a with
  | nil => intro m i v _; rfl
  | cons x xs ih =>
    intro m i v hne
    cases m with
    | zero =>
      cases i with
      | zero => exact absurd rfl hne
      | succ j => rfl
    | succ m' =>
      cases i with
      | zero => rfl
      | succ j =>
        show listGet (listSet xs m' v) j = listGet xs j
        exact ih m' j v (fun h => hne (by rw [h]))

theorem listGet_listSet_self : ∀ (a : List Nat) (m v : Nat), m < a.length →
    listGet (listSet a m v) m = v := by
  intro a
  induction a with
  | nil => intro m v h; cases h
  | cons x xs ih =>
    intro m v h
    cases m with
    | zero => rfl
    | succ m' =>
      show listGet (listSet xs m' v) m' = v
      exact ih m' v (by simpa using h)

theorem listSet_length : ∀ (a : List Nat) (m v : Nat),
    (listSet a m v).length = a.length := by
  intro a
  induction a with
  | nil => intro m v; rfl
  | cons x xs ih =>
    intro m v
    cases m with
    | zero => rfl
    | succ m' =>
      show (listSet xs m' v).length + 1 = xs.length + 1
      rw [ih]

theorem listSet_oob : ∀ (a : List Nat) (m v : Nat), a.length ≤ m →
    listSet a m v = a := by
  intro a
  induction a with
  | nil => intro m v _; rfl
  | cons x xs ih =>
    intro m v h
    cases m with
    | zero => simp at h
    | succ m' =>
      show x :: listSet xs m' v = x :: xs
      rw [ih m' v (by simpa using h)]

theorem passState_succ (d : Nat) (c : List Nat) (k : Nat) :
    passState d c (k+1) =
      (fun a i =>
        if d ≤ i then
          if listGet a i < listGet a (i - d) + d then
            listSet a i (listGet a (i - d) + d)
          else a
        else a) (passState d c k) k := by
  unfold passState
  rw [List.range_succ, List.foldl_append]
  rfl

theorem conicPass_eq_passState (L d : Nat) (c : List Nat) :
    conicPass L d c = passState d c (L+1) := rfl

theorem passState_length (d : Nat) (c : List Nat) :
    ∀ k, (passState d c k).length = c.length := by
  intro k
  induction k with
  | zero => rfl
  | succ k ih =>
    rw [passState_succ]
    dsimp only
    split_ifs with h1 h2
    · rw [listSet_length, ih]
    · exact ih
    · exact ih

/-- Stability: positions below k are final after k iterations. -/
theorem passState_stable (d : Nat) (c : List Nat) :
    ∀ (k k' i : Nat), k ≤ k' → i < k →
      listGet (passState d c k') i = listGet (passState d c k) i := by
  intro k k' i hk hi
  induction k' with
  | zero =>
    have : k = 0 := by omega
    subst this
    rfl
  | succ k' ih =>
    rcases Nat.lt_or_ge k (k'+1) with h | h
    · have hk' : k ≤ k' := by omega
      rw [passState_succ]
      dsimp only
      split_ifs with h1 h2
      · rw [listGet_listSet_ne _ _ _ _ (by omega)]
        exact ih hk'
      · exact ih hk'
      · exact ih hk'
    · have : k = k' + 1 := by omega
      subst this
      rfl

/-- Pointwise growth of the pass. -/
theorem passState_ge (d : Nat) (c : List Nat) :
    ∀ (k i : Nat), listGet c i ≤ listGet (passState d c k) i := by
  intro k
  induction k with
  | zero => intro i; exact le_refl _
  | succ k ih =>
    intro i
    rw [passState_succ]
    dsimp only
    split_ifs with h1 h2
    · by_cases hik : i = k
      · subst hik
        by_cases hlen : i < (passState d c i).length
        · rw [listGet_listSet_self _ _ _ hlen]
          have := ih i
          omega
        · rw [listSet_oob _ _ _ (by omega)]
          exact ih i
      · rw [listGet_listSet_ne _ _ _ _ hik]
        exact ih i
    · exact ih i
    · exact ih i

/-- The chain step: once the pass is done, each cell dominates the cell d
below it plus d, whenever the index is within range of the pass. -/
theorem passState_chain (L d : Nat) (c : List Nat) (j : Nat)
    (hd : 0 < d) (hj : j + d ≤ L) (hlen : c.length = L + 1) :
    listGet (passState d c (L+1)) j + d ≤ listGet (passState d c (L+1)) (j + d) := by
  have hstab1 : listGet (passState d c (L+1)) (j+d) = listGet (passState d c (j+d+1)) (j+d) :=
    passState_stable d c (j+d+1) (L+1) (j+d) (by omega) (by omega)
  have hstab2 : listGet (passState d c (L+1)) j = listGet (passState d c (j+d)) j :=
    passState_stable d c (j+d) (L+1) j (by omega) (by omega)
  rw [hstab1, hstab2]
  rw [passState_succ]
  dsimp only
  rw [if_pos (by omega)]
  have hsub : j + d - d = j := by omega
  rw [hsub]
  split_ifs with h2
  · rw [listGet_listSet_self]
    rw [passState_length, hlen]
    omega
  · omega

/-- Values stay bounded by their index through a pass. -/
theorem passState_le_index (d : Nat) (c : List Nat)
    (hc : ∀ i, listGet c i ≤ i) :
    ∀ k i, listGet (passState d c k) i ≤ i := by
  intro k
  induction k with
  | zero => exact hc
  | succ k ih =>
    intro i
    rw [passState_succ]
    dsimp only
    split_ifs with h1 h2
    · by_cases hik : i = k
      · subst hik
        by_cases hlen : i < (passState d c i).length
        · rw [listGet_listSet_self _ _ _ hlen]
          have := ih (i - d)
          omega
        · rw [listSet_oob _ _ _ (by omega)]
          exact ih i
      · rw [listGet_listSet_ne _ _ _ _ hik]
        exact ih i
    · exact ih i
    · exact ih i

/-- Conic provenance: if every cell of c holds a conic value and d is one of
the sides, every cell after the pass holds a conic value. -/
theorem passState_conic (l w d : Nat) (c : List Nat)
    (hd : isConic l w d)
    (hc : ∀ i, isConic l w (listGet c i)) :
    ∀ k i, isConic l w (listGet (passState d c k) i) := by
  intro k
  induction k with
  | zero => exact hc
  | succ k ih =>
    intro i
    rw [passState_succ]
    dsimp only
    split_ifs with h1 h2
    · by_cases hik : i = k
      · subst hik
        by_cases hlen : i < (passState d c i).length
        · rw [listGet_listSet_self _ _ _ hlen]
          obtain ⟨a1, b1, h1'⟩ := ih (i - d)
          obtain ⟨a2, b2, h2'⟩ := hd
          exact ⟨a1 + a2, b1 + b2, by rw [h1', h2']; ring⟩
        · rw [listSet_oob _ _ _ (by omega)]
          exact ih i
      · rw [listGet_listSet_ne _ _ _ _ hik]
        exact ih i
    · exact ih i
    · exact ih i

/- Facts about the finished conic array. -/

theorem conicArr_length (L l w : Nat) : (conicArr L l w).length = L + 1 := by
  unfold conicArr
  rw [conicPass_eq_passState, passState_length, conicPass_eq_passState,
    passState_length, List.length_replicate]

theorem conicArr_le_index (L l w : Nat) : ∀ i, listGet (conicArr L l w) i ≤ i := by
  intro i
  unfold conicArr
  rw [conicPass_eq_passState]
  apply passState_le_index
  intro j
  rw [conicPass_eq_passState]
  apply passState_le_index
  intro m
  show (List.replicate (L+1) 0).getD m 0 ≤ m
  rcases Nat.lt_or_ge m (L+1) with h | h
  · rw [List.getD_eq_getElem _ _ (by simpa using h)]
    simp
  · rw [List.getD_eq_default _ _ (by rw [List.length_replicate]; omega)]
    exact Nat.zero_le m

theorem conicArr_conic (L l w : Nat) :
    ∀ i, isConic l w (listGet (conicArr L l w) i) := by
  intro i
  unfold conicArr
  rw [conicPass_eq_passState]
  apply passState_conic l w w _ ⟨0, 1, by ring⟩
  intro j
  rw [conicPass_eq_passState]
  apply passState_conic l w l _ ⟨1, 0, by ring⟩
  intro m
  refine ⟨0, 0, ?_⟩
  show (List.replicate (L+1) 0).getD m 0 = 0 * l + 0 * w
  rcases Nat.lt_or_ge m (L+1) with h | h
  · rw [List.getD_eq_getElem _ _ (by simpa using h)]
    simp
  · rw [List.getD_eq_default _ _ (by rw [List.length_replicate]; omega)]
    simp

/-- Reachability: every conic value s ≤ L is attained, i.e. the array at s is
at least s. -/
theorem conicArr_ge_conic (L l w : Nat) (hl : 0 < l) (hw : 0 < w) :
    ∀ a b : Nat, a * l + b * w ≤ L →
      a * l + b * w ≤ listGet (conicArr L l w) (a * l + b * w) := by
  -- first pass: multiples of l are attained
  have hlen1 : (List.replicate (L+1) 0).length = L + 1 := by simp
  have pass1 : ∀ a : Nat, a * l ≤ L →
      a * l ≤ listGet (conicPass L l (List.replicate (L+1) 0)) (a * l) := by
    intro a
    induction a with
    | zero => intro _; simp
    | succ a ih =>
      intro ha
      have hstep : a * l + l ≤ L := by
        have : (a+1) * l = a * l + l := by ring
        omega
      have hchain := passState_chain L l (List.replicate (L+1) 0) (a * l) hl
        (by omega) hlen1
      rw [conicPass_eq_passState]
      have heq : (a+1) * l = a * l + l := by ring
      rw [heq]
      have iha := ih (by omega)
      rw [conicPass_eq_passState] at iha
      omega
  -- lengths for the second pass
  have hlen2 : (conicPass L l (List.replicate (L+1) 0)).length = L + 1 := by
    rw [conicPass_eq_passState, passState_length, hlen1]
  intro a b hab
  induction b with
  | zero =>
    have h0 : a * l + 0 * w = a * l := by ring
    rw [h0] at hab ⊢
    unfold conicArr
    calc a * l ≤ listGet (conicPass L l (List.replicate (L+1) 0)) (a * l) :=
          pass1 a hab
      _ ≤ _ := by
          rw [conicPass_eq_passState L w]
          exact passState_ge w _ (L+1) (a * l)
  | succ b ih =>
    have heq : a * l + (b+1) * w = (a * l + b * w) + w := by ring
    rw [heq] at hab ⊢
    have hchain := passState_chain L w (conicPass L l (List.replicate (L+1) 0))
      (a * l + b * w) hw (by omega) hlen2
    have ihb := ih (by omega)
    unfold conicArr at ihb ⊢
    rw [conicPass_eq_passState L w] at ihb ⊢
    omega



/- New layer: superadditivity of the normalize table. -/

/-- A member of a sorted set that is ≤ j appears in the ≤-j prefix. -/
theorem mem_takeWhile_le_of_le {x j : Nat} :
    ∀ {X : List Nat}, X.Pairwise (· < ·) → x ∈ X → x ≤ j →
      x ∈ X.takeWhile (fun s => s ≤ j) := by
  intro X
  induction X with
  | nil => intro _ h _; cases h
  | cons a xs ih =>
    intro hp hm hxj
    have ha : ∀ b ∈ xs, a < b := (List.pairwise_cons.mp hp).1
    have hxs := (List.pairwise_cons.mp hp).2
    rcases List.mem_cons.mp hm with rfl | hmem
    · rw [List.takeWhile_cons_of_pos (by simpa using hxj)]
      exact List.mem_cons_self _ _
    · have hax : a < x := ha x hmem
      rw [List.takeWhile_cons_of_pos (by simp; omega)]
      exact List.mem_cons_of_mem _ (ih hxs hmem hxj)

/-- normAt X j is the greatest member of X that is ≤ j. -/
theorem normAt_ge_of_mem {x j : Nat} {X : List Nat} (hp : X.Pairwise (· < ·))
    (hm : x ∈ X) (hxj : x ≤ j) : x ≤ normAt X j := by
  unfold normAt
  apply le_getLastD_sorted
  · exact List.Pairwise.sublist (List.takeWhile_sublist _) hp
  · exact mem_takeWhile_le_of_le hp hm hxj

/-- normAt is monotone over a sorted set. -/
theorem normAt_mono {X : List Nat} (hp : X.Pairwise (· < ·)) {u v : Nat}
    (huv : u ≤ v) : normAt X u ≤ normAt X v := by
  rcases normAt_mem_or_zero X u with h | h
  · rw [h]
    exact Nat.zero_le _
  · exact normAt_ge_of_mem hp h (le_trans (normAt_le X u) huv)

/-- Membership in the conic set: 0, L, or a positive fixed point of the DP
array. -/
theorem conicSet_mem_elim (L l w x : Nat) (hm : x ∈ conicSet L l w) :
    x = 0 ∨ x = L ∨ (0 < x ∧ x ≤ L ∧ listGet (conicArr L l w) x = x) := by
  have hbase : ∀ y, y ∈ (0 :: ((List.range (L+1)).filter
      (fun i => 0 < i ∧ listGet (conicArr L l w) i = i))) →
      y = 0 ∨ (0 < y ∧ y ≤ L ∧ listGet (conicArr L l w) y = y) := by
    intro y hy
    rcases List.mem_cons.mp hy with rfl | hy'
    · exact Or.inl rfl
    · right
      have h1 := List.mem_range.mp (List.mem_of_mem_filter hy')
      have h2 := List.of_mem_filter hy'
      simp only [decide_eq_true_eq] at h2
      exact ⟨h2.1, by omega, h2.2⟩
  simp only [conicSet] at hm
  by_cases h : (0 :: ((List.range (L+1)).filter
      (fun i => 0 < i ∧ listGet (conicArr L l w) i = i))).getLast? = some L
  · rw [if_pos h] at hm
    rcases hbase x hm with h1 | h1
    · exact Or.inl h1
    · exact Or.inr (Or.inr h1)
  · rw [if_neg h] at hm
    rcases List.mem_append.mp hm with h1 | h1
    · rcases hbase x h1 with h2 | h2
      · exact Or.inl h2
      · exact Or.inr (Or.inr h2)
    · simp only [List.mem_singleton] at h1
      exact Or.inr (Or.inl h1)

/-- A positive fixed point of the DP array within range is a member of the
conic set. -/
theorem conicSet_fixed_mem (L l w x : Nat) (h0 : 0 < x) (hL : x ≤ L)
    (hfix : listGet (conicArr L l w) x = x) : x ∈ conicSet L l w := by
  have hb : x ∈ (0 :: ((List.range (L+1)).filter
      (fun i => 0 < i ∧ listGet (conicArr L l w) i = i))) := by
    apply List.mem_cons_of_mem
    apply List.mem_filter.mpr
    refine ⟨List.mem_range.mpr (by omega), ?_⟩
    simp only [decide_eq_true_eq]
    exact ⟨h0, hfix⟩
  simp only [conicSet]
  split_ifs with h
  · exact hb
  · exact List.mem_append_left _ hb

/-- Every conic combination within range is a fixed point of the DP array. -/
theorem conic_fixed (L l w a b : Nat) (hl : 0 < l) (hw : 0 < w)
    (hab : a * l + b * w ≤ L) :
    listGet (conicArr L l w) (a * l + b * w) = a * l + b * w :=
  Nat.le_antisymm (conicArr_le_index L l w _) (conicArr_ge_conic L l w hl hw a b hab)

/-- The conic set is closed under addition of members whose sum is ≤ L. -/
theorem conicSet_add_mem (L l w : Nat) (hl : 0 < l) (hw : 0 < w) (x y : Nat)
    (hx : x ∈ conicSet L l w) (hy : y ∈ conicSet L l w) (hxy : x + y ≤ L) :
    x + y ∈ conicSet L l w := by
  rcases conicSet_mem_elim L l w x hx with rfl | hxL | ⟨hx0, hxL, hxfix⟩
  · simpa using hy
  · rcases conicSet_mem_elim L l w y hy with rfl | hyL | ⟨hy0, hyL, hyfix⟩
    · simpa using hx
    · have h0 : x + y = 0 := by omega
      rw [h0]
      exact conicSet_zero_mem L l w
    · omega
  · rcases conicSet_mem_elim L l w y hy with rfl | hyL | ⟨hy0, hyL, hyfix⟩
    · simpa using hx
    · omega
    · have hcx : isConic l w x := by
        have := conicArr_conic L l w x
        rwa [hxfix] at this
      have hcy : isConic l w y := by
        have := conicArr_conic L l w y
        rwa [hyfix] at this
      obtain ⟨a1, b1, h1⟩ := hcx
      obtain ⟨a2, b2, h2⟩ := hcy
      have hsum : x + y = (a1 + a2) * l + (b1 + b2) * w := by
        rw [h1, h2]; ring
      apply conicSet_fixed_mem L l w (x + y) (by omega) hxy
      rw [hsum]
      exact conic_fixed L l w _ _ hl hw (by rw [← hsum]; exact hxy)

/-- Superadditivity of the normalize table: for u + v within table range,
normalize[u] + normalize[v] ≤ normalize[u + v]. -/
theorem normAt_superadd (L l w : Nat) (hl : 0 < l) (hw : 0 < w) (u v : Nat)
    (huv : u + v ≤ L) :
    normAt (conicSet L l w) u + normAt (conicSet L l w) v ≤
      normAt (conicSet L l w) (u + v) := by
  have hp := conicSet_sorted L l w
  rcases normAt_mem_or_zero (conicSet L l w) u with h | h
  · rw [h, Nat.zero_add]
    exact normAt_mono hp (Nat.le_add_left v u)
  · rcases normAt_mem_or_zero (conicSet L l w) v with h' | h'
    · rw [h', Nat.add_zero]
      exact normAt_mono hp (Nat.le_add_right u v)
    · have hau : normAt (conicSet L l w) u ≤ u := normAt_le _ _
      have hbv : normAt (conicSet L l w) v ≤ v := normAt_le _ _
      have hmem := conicSet_add_mem L l w hl hw _ _ h h' (by omega)
      exact normAt_ge_of_mem hp hmem (by omega)

/- Geometry helpers. -/

theorem disj_of_regions (p q : Box) (ox1 oy1 L1 W1 ox2 oy2 L2 W2 : Nat)
    (hp : boxIn p ox1 oy1 L1 W1) (hq : boxIn q ox2 oy2 L2 W2)
    (h : ox1 + L1 ≤ ox2 ∨ ox2 + L2 ≤ ox1 ∨ oy1 + W1 ≤ oy2 ∨ oy2 + W2 ≤ oy1) :
    disjB p q := by
  unfold boxIn at hp hq
  unfold disjB
  omega

theorem boxIn_mono (b : Box) (ox oy Li Wi dx dy L W : Nat)
    (h : boxIn b ox oy Li Wi) (h1 : dx ≤ ox) (h2 : ox + Li ≤ dx + L)
    (h3 : dy ≤ oy) (h4 : oy + Wi ≤ dy + W) : boxIn b dx dy L W := by
  unfold boxIn at h ⊢
  omega

/-- Soundness of a region decomposition: five sublists, each contained in
its own region with pairwise-disjoint members, the regions inside the cell
and pairwise separated, give a pairwise-disjoint list contained in the
cell. -/
theorem five_spec (LA LB LC LD LE : List Box) (dx dy L W : Nat)
    (oxA oyA lA wA oxB oyB lB wB oxC oyC lC wC oxD oyD lD wD oxE oyE lE wE : Nat)
    (hA : (∀ b ∈ LA, boxIn b oxA oyA lA wA) ∧ LA.Pairwise disjB)
    (hB : (∀ b ∈ LB, boxIn b oxB oyB lB wB) ∧ LB.Pairwise disjB)
    (hC : (∀ b ∈ LC, boxIn b oxC oyC lC wC) ∧ LC.Pairwise disjB)
    (hD : (∀ b ∈ LD, boxIn b oxD oyD lD wD) ∧ LD.Pairwise disjB)
    (hE : (∀ b ∈ LE, boxIn b oxE oyE lE wE) ∧ LE.Pairwise disjB)
    (hInA : dx ≤ oxA ∧ oxA + lA ≤ dx + L ∧ dy ≤ oyA ∧ oyA + wA ≤ dy + W)
    (hInB : dx ≤ oxB ∧ oxB + lB ≤ dx + L ∧ dy ≤ oyB ∧ oyB + wB ≤ dy + W)
    (hInC : dx ≤ oxC ∧ oxC + lC ≤ dx + L ∧ dy ≤ oyC ∧ oyC + wC ≤ dy + W)
    (hInD : dx ≤ oxD ∧ oxD + lD ≤ dx + L ∧ dy ≤ oyD ∧ oyD + wD ≤ dy + W)
    (hInE : dx ≤ oxE ∧ oxE + lE ≤ dx + L ∧ dy ≤ oyE ∧ oyE + wE ≤ dy + W)
    (sAB : oxA + lA ≤ oxB ∨ oxB + lB ≤ oxA ∨ oyA + wA ≤ oyB ∨ oyB + wB ≤ oyA)
    (sAC : oxA + lA ≤ oxC ∨ oxC + lC ≤ oxA ∨ oyA + wA ≤ oyC ∨ oyC + wC ≤ oyA)
    (sAD : oxA + lA ≤ oxD ∨ oxD + lD ≤ oxA ∨ oyA + wA ≤ oyD ∨ oyD + wD ≤ oyA)
    (sAE : oxA + lA ≤ oxE ∨ oxE + lE ≤ oxA ∨ oyA + wA ≤ oyE ∨ oyE + wE ≤ oyA)
    (sBC : oxB + lB ≤ oxC ∨ oxC + lC ≤ oxB ∨ oyB + wB ≤ oyC ∨ oyC + wC ≤ oyB)
    (sBD : oxB + lB ≤ oxD ∨ oxD + lD ≤ oxB ∨ oyB + wB ≤ oyD ∨ oyD + wD ≤ oyB)
    (sBE : oxB + lB ≤ oxE ∨ oxE + lE ≤ oxB ∨ oyB + wB ≤ oyE ∨ oyE + wE ≤ oyB)
    (sCD : oxC + lC ≤ oxD ∨ oxD + lD ≤ oxC ∨ oyC + wC ≤ oyD ∨ oyD + wD ≤ oyC)
    (sCE : oxC + lC ≤ oxE ∨ oxE + lE ≤ oxC ∨ oyC + wC ≤ oyE ∨ oyE + wE ≤ oyC)
    (sDE : oxD + lD ≤ oxE ∨ oxE + lE ≤ oxD ∨ oyD + wD ≤ oyE ∨ oyE + wE ≤ oyD) :
    (∀ b ∈ LA ++ LB ++ LC ++ LD ++ LE, boxIn b dx dy L W) ∧
    (LA ++ LB ++ LC ++ LD ++ LE).Pairwise disjB := by
  constructor
  · intro b hb
    simp only [List.mem_append] at hb
    rcases hb with (((hb | hb) | hb) | hb) | hb
    · exact boxIn_mono _ _ _ _ _ _ _ _ _ (hA.1 b hb) hInA.1 hInA.2.1 hInA.2.2.1 hInA.2.2.2
    · exact boxIn_mono _ _ _ _ _ _ _ _ _ (hB.1 b hb) hInB.1 hInB.2.1 hInB.2.2.1 hInB.2.2.2
    · exact boxIn_mono _ _ _ _ _ _ _ _ _ (hC.1 b hb) hInC.1 hInC.2.1 hInC.2.2.1 hInC.2.2.2
    · exact boxIn_mono _ _ _ _ _ _ _ _ _ (hD.1 b hb) hInD.1 hInD.2.1 hInD.2.2.1 hInD.2.2.2
    · exact boxIn_mono _ _ _ _ _ _ _ _ _ (hE.1 b hb) hInE.1 hInE.2.1 hInE.2.2.1 hInE.2.2.2
  · refine List.pairwise_append.mpr ⟨?_, hE.2, ?_⟩
    · refine List.pairwise_append.mpr ⟨?_, hD.2, ?_⟩
      · refine List.pairwise_append.mpr ⟨?_, hC.2, ?_⟩
        · refine List.pairwise_append.mpr ⟨hA.2, hB.2, ?_⟩
          · intro p hp q hq
            exact disj_of_regions p q _ _ _ _ _ _ _ _ (hA.1 p hp) (hB.1 q hq) sAB
        · intro p hp q hq
          rcases List.mem_append.mp hp with hp' | hp'
          · exact disj_of_regions p q _ _ _ _ _ _ _ _ (hA.1 p hp') (hC.1 q hq) sAC
          · exact disj_of_regions p q _ _ _ _ _ _ _ _ (hB.1 p hp') (hC.1 q hq) sBC
      · intro p hp q hq
        rcases List.mem_append.mp hp with hp' | hp'
        · rcases List.mem_append.mp hp' with hp'' | hp''
          · exact disj_of_regions p q _ _ _ _ _ _ _ _ (hA.1 p hp'') (hD.1 q hq) sAD
          · exact disj_of_regions p q _ _ _ _ _ _ _ _ (hB.1 p hp'') (hD.1 q hq) sBD
        · exact disj_of_regions p q _ _ _ _ _ _ _ _ (hC.1 p hp') (hD.1 q hq) sCD
    · intro p hp q hq
      rcases List.mem_append.mp hp with hp' | hp'
      · rcases List.mem_append.mp hp' with hp'' | hp''
        · rcases List.mem_append.mp hp'' with hp3 | hp3
          · exact disj_of_regions p q _ _ _ _ _ _ _ _ (hA.1 p hp3) (hE.1 q hq) sAE
          · exact disj_of_regions p q _ _ _ _ _ _ _ _ (hB.1 p hp3) (hE.1 q hq) sBE
        · exact disj_of_regions p q _ _ _ _ _ _ _ _ (hC.1 p hp'') (hE.1 q hq) sCE
      · exact disj_of_regions p q _ _ _ _ _ _ _ _ (hD.1 p hp') (hE.1 q hq) sDE

/-- The homogeneous grid along box sides (u, v): containment and pairwise
disjointness. -/
theorem grid_spec (u v x y dx dy : Nat) :
    (∀ b ∈ (List.range (x / u)).flatMap (fun a =>
        (List.range (y / v)).map
          (fun b' => Box.mk (a*u + dx) (b'*v + dy) (a*u + u + dx) (b'*v + v + dy))),
      boxIn b dx dy x y) ∧
    ((List.range (x / u)).flatMap (fun a =>
        (List.range (y / v)).map
          (fun b' => Box.mk (a*u + dx) (b'*v + dy) (a*u + u + dx) (b'*v + v + dy)))).Pairwise
      disjB := by
  constructor
  · intro b hb
    rcases List.mem_flatMap.mp hb with ⟨a, ha, hb'⟩
    rcases List.mem_map.mp hb' with ⟨b', hb'', rfl⟩
    have ha' : a < x / u := List.mem_range.mp ha
    have hb3 : b' < y / v := List.mem_range.mp hb''
    have hx : (a + 1) * u ≤ x :=
      le_trans (Nat.mul_le_mul_right u ha') (Nat.div_mul_le_self x u)
    have hy : (b' + 1) * v ≤ y :=
      le_trans (Nat.mul_le_mul_right v hb3) (Nat.div_mul_le_self y v)
    unfold boxIn
    dsimp only
    constructor
    · omega
    constructor
    · omega
    constructor
    · have : a * u + u = (a + 1) * u := by ring
      omega
    constructor
    · omega
    constructor
    · omega
    · have : b' * v + v = (b' + 1) * v := by ring
      omega
  · show (((List.range (x / u)).map (fun a =>
        (List.range (y / v)).map
          (fun b' => Box.mk (a*u + dx) (b'*v + dy) (a*u + u + dx) (b'*v + v + dy)))).flatten).Pairwise disjB
    rw [List.pairwise_flatten]
    refine ⟨?_, ?_⟩
    · intro l hl
      rcases List.mem_map.mp hl with ⟨a, _, rfl⟩
      rw [List.pairwise_map]
      apply List.Pairwise.imp _ (List.pairwise_lt_range (y / v))
      intro b1 b2 hb
      unfold disjB
      dsimp only
      right; right; left
      have : b1 * v + v = (b1 + 1) * v := by ring
      have h2 : (b1 + 1) * v ≤ b2 * v := Nat.mul_le_mul_right v hb
      omega
    · rw [List.pairwise_map]
      apply List.Pairwise.imp _ (List.pairwise_lt_range (x / u))
      intro a1 a2 ha p hp q hq
      rcases List.mem_map.mp hp with ⟨b1, _, rfl⟩
      rcases List.mem_map.mp hq with ⟨b2, _, rfl⟩
      unfold disjB
      dsimp only
      left
      have : a1 * u + u = (a1 + 1) * u := by ring
      have h2 : (a1 + 1) * u ≤ a2 * u := Nat.mul_le_mul_right u ha
      omega

/-- drawHomogeneous draws boxes inside the cell, pairwise disjoint. -/
theorem drawHomogeneous_spec (l w x y dx dy : Nat) :
    (∀ b ∈ drawHomogeneous l w x y dx dy, boxIn b dx dy x y) ∧
    (drawHomogeneous l w x y dx dy).Pairwise disjB := by
  unfold drawHomogeneous
  split_ifs with h
  · exact grid_spec l w x y dx dy
  · exact grid_spec w l x y dx dy

/-- Lift a child spec through the keep-filter. -/
theorem cond_spec (cond : Prop) [Decidable cond] (lst : List Box) (ox oy Lc Wc : Nat)
    (h : (∀ b ∈ lst, boxIn b ox oy Lc Wc) ∧ lst.Pairwise disjB) :
    (∀ b ∈ (if cond then lst else []), boxIn b ox oy Lc Wc) ∧
    (if cond then lst else []).Pairwise disjB := by
  split_ifs
  · exact h
  · exact ⟨fun b hb => absurd hb (List.not_mem_nil b), List.Pairwise.nil⟩

/-- The BD reconstruction draws boxes inside its cell, pairwise disjoint,
provided the normalize function is dominated by the identity and
superadditive within the table range and the cut-point table is well
formed. -/
theorem drawRec_spec (c : Ctx) (s : BDState) (N : Nat)
    (h1 : ∀ z, c.nrm z ≤ z)
    (hsup : ∀ u v, u + v ≤ N → c.nrm u + c.nrm v ≤ c.nrm (u + v))
    (hcut : WFCutP s) :
    ∀ (fuel L W dx dy : Nat), L ≤ N → W ≤ N →
      (∀ b ∈ drawRec c s fuel L W dx dy, boxIn b dx dy L W) ∧
      (drawRec c s fuel L W dx dy).Pairwise disjB := by
  intro fuel
  induction fuel with
  | zero =>
    intro L W dx dy _ _
    exact ⟨fun b hb => absurd hb (List.not_mem_nil b), List.Pairwise.nil⟩
  | succ fuel ih =>
    intro L W dx dy hLN hWN
    by_cases hLW : L ≥ W
    · by_cases hhom : (s.cut L W).homogeneous ≠ 0
      · have heq : drawRec c s (fuel+1) L W dx dy = drawHomogeneous c.l c.w L W dx dy := by
          simp only [drawRec]
          rw [if_pos hLW, if_pos hhom]
        rw [heq]
        exact drawHomogeneous_spec c.l c.w L W dx dy
      · obtain ⟨hc1, hc2, hc3, hc4⟩ := hcut L W
        have hnA := h1 (W - (s.cut L W).y1)
        have hnB1 := h1 (L - (s.cut L W).x1)
        have hnB2 := h1 (W - (s.cut L W).y2)
        have hnC1 := h1 ((s.cut L W).x2 - (s.cut L W).x1)
        have hnC2 := h1 ((s.cut L W).y2 - (s.cut L W).y1)
        have hnE := h1 (L - (s.cut L W).x2)
        have e1 : (getSubproblemsD c.nrm (s.cut L W) L W).getD 0 (0, 0)
            = ((s.cut L W).x1, c.nrm (W - (s.cut L W).y1)) := rfl
        have e2 : (getSubproblemsD c.nrm (s.cut L W) L W).getD 1 (0, 0)
            = (c.nrm (L - (s.cut L W).x1), c.nrm (W - (s.cut L W).y2)) := rfl
        have e3 : (getSubproblemsD c.nrm (s.cut L W) L W).getD 2 (0, 0)
            = (c.nrm ((s.cut L W).x2 - (s.cut L W).x1),
               c.nrm ((s.cut L W).y2 - (s.cut L W).y1)) := rfl
        have e4 : (getSubproblemsD c.nrm (s.cut L W) L W).getD 3 (0, 0)
            = ((s.cut L W).x2, (s.cut L W).y1) := rfl
        have e5 : (getSubproblemsD c.nrm (s.cut L W) L W).getD 4 (0, 0)
            = (c.nrm (L - (s.cut L W).x2), (s.cut L W).y2) := rfl
        simp only [drawRec]
        rw [if_pos hLW, if_neg hhom]
        rw [e1, e2, e3, e4, e5]
        dsimp only
        refine five_spec _ _ _ _ _ dx dy L W
          dx (dy + (s.cut L W).y1) (s.cut L W).x1 (c.nrm (W - (s.cut L W).y1))
          (dx + (s.cut L W).x1) (dy + (s.cut L W).y2)
            (c.nrm (L - (s.cut L W).x1)) (c.nrm (W - (s.cut L W).y2))
          (dx + (s.cut L W).x1) (dy + (s.cut L W).y1)
            (c.nrm ((s.cut L W).x2 - (s.cut L W).x1))
            (c.nrm ((s.cut L W).y2 - (s.cut L W).y1))
          dx dy (s.cut L W).x2 (s.cut L W).y1
          (dx + (s.cut L W).x2) dy (c.nrm (L - (s.cut L W).x2)) (s.cut L W).y2
          ?_ ?_ ?_ ?_ ?_ ?_ ?_ ?_ ?_ ?_ ?_ ?_ ?_ ?_ ?_ ?_ ?_ ?_ ?_ ?_
        · exact cond_spec _ _ _ _ _ _ (ih _ _ _ _ (by omega) (by omega))
        · exact cond_spec _ _ _ _ _ _ (ih _ _ _ _ (by omega) (by omega))
        · exact cond_spec _ _ _ _ _ _ (ih _ _ _ _ (by omega) (by omega))
        · exact cond_spec _ _ _ _ _ _ (ih _ _ _ _ (by omega) (by omega))
        · exact cond_spec _ _ _ _ _ _ (ih _ _ _ _ (by omega) (by omega))
        · exact ⟨by omega, by omega, by omega, by omega⟩
        · exact ⟨by omega, by omega, by omega, by omega⟩
        · exact ⟨by omega, by omega, by omega, by omega⟩
        · exact ⟨by omega, by omega, by omega, by omega⟩
        · exact ⟨by omega, by omega, by omega, by omega⟩
        · omega
        · omega
        · omega
        · omega
        · omega
        · omega
        · omega
        · omega
        · omega
        · omega
    · by_cases hhom : (s.cut W L).homogeneous ≠ 0
      · have heq : drawRec c s (fuel+1) L W dx dy = drawHomogeneous c.l c.w L W dx dy := by
          simp only [drawRec]
          rw [if_neg hLW, if_pos hhom]
        rw [heq]
        exact drawHomogeneous_spec c.l c.w L W dx dy
      · obtain ⟨hc1, hc2, hc3, hc4⟩ := hcut W L
        have hnA := h1 (L - (s.cut W L).y1)
        have hnB1 := h1 (W - (s.cut W L).x1)
        have hnB2 := h1 (L - (s.cut W L).y2)
        have hnC1 := h1 ((s.cut W L).x2 - (s.cut W L).x1)
        have hnC2 := h1 ((s.cut W L).y2 - (s.cut W L).y1)
        have hnE := h1 (W - (s.cut W L).x2)
        have hkey : c.nrm (W - (s.cut W L).x2) + c.nrm ((s.cut W L).x2 - (s.cut W L).x1)
            ≤ c.nrm (W - (s.cut W L).x1) := by
          have hs := hsup (W - (s.cut W L).x2) ((s.cut W L).x2 - (s.cut W L).x1) (by omega)
          have heq2 : W - (s.cut W L).x2 + ((s.cut W L).x2 - (s.cut W L).x1)
              = W - (s.cut W L).x1 := by omega
          rw [heq2] at hs
          exact hs
        have e1 : (getSubproblemsD c.nrm (s.cut W L) W L).getD 0 (0, 0)
            = ((s.cut W L).x1, c.nrm (L - (s.cut W L).y1)) := rfl
        have e2 : (getSubproblemsD c.nrm (s.cut W L) W L).getD 1 (0, 0)
            = (c.nrm (W - (s.cut W L).x1), c.nrm (L - (s.cut W L).y2)) := rfl
        have e3 : (getSubproblemsD c.nrm (s.cut W L) W L).getD 2 (0, 0)
            = (c.nrm ((s.cut W L).x2 - (s.cut W L).x1),
               c.nrm ((s.cut W L).y2 - (s.cut W L).y1)) := rfl
        have e4 : (getSubproblemsD c.nrm (s.cut W L) W L).getD 3 (0, 0)
            = ((s.cut W L).x2, (s.cut W L).y1) := rfl
        have e5 : (getSubproblemsD c.nrm (s.cut W L) W L).getD 4 (0, 0)
            = (c.nrm (W - (s.cut W L).x2), (s.cut W L).y2) := rfl
        simp only [drawRec]
        rw [if_neg hLW, if_neg hhom]
        rw [e1, e2, e3, e4, e5]
        dsimp only
        refine five_spec _ _ _ _ _ dx dy L W
          (dx + (s.cut W L).y1) (dy + c.nrm (W - (s.cut W L).x1))
            (c.nrm (L - (s.cut W L).y1)) (s.cut W L).x1
          (dx + (s.cut W L).y2) dy
            (c.nrm (L - (s.cut W L).y2)) (c.nrm (W - (s.cut W L).x1))
          (dx + (s.cut W L).y1) (dy + c.nrm (W - (s.cut W L).x2))
            (c.nrm ((s.cut W L).y2 - (s.cut W L).y1))
            (c.nrm ((s.cut W L).x2 - (s.cut W L).x1))
          dx (dy + c.nrm (W - (s.cut W L).x2)) (s.cut W L).y1 (s.cut W L).x2
          dx dy (s.cut W L).y2 (c.nrm (W - (s.cut W L).x2))
          ?_ ?_ ?_ ?_ ?_ ?_ ?_ ?_ ?_ ?_ ?_ ?_ ?_ ?_ ?_ ?_ ?_ ?_ ?_ ?_
        · exact cond_spec _ _ _ _ _ _ (ih _ _ _ _ (by omega) (by omega))
        · exact cond_spec _ _ _ _ _ _ (ih _ _ _ _ (by omega) (by omega))
        · exact cond_spec _ _ _ _ _ _ (ih _ _ _ _ (by omega) (by omega))
        · exact cond_spec _ _ _ _ _ _ (ih _ _ _ _ (by omega) (by omega))
        · exact cond_spec _ _ _ _ _ _ (ih _ _ _ _ (by omega) (by omega))
        · exact ⟨by omega, by omega, by omega, by omega⟩
        · exact ⟨by omega, by omega, by omega, by omega⟩
        · exact ⟨by omega, by omega, by omega, by omega⟩
        · exact ⟨by omega, by omega, by omega, by omega⟩
        · exact ⟨by omega, by omega, by omega, by omega⟩
        · omega
        · omega
        · omega
        · omega
        · omega
        · omega
        · omega
        · omega
        · omega
        · omega


/-! Assembly of claim C2: the placement list returned by pack is pairwise
disjoint. -/

/-- The normalize table of solve_BD is superadditive within the pallet
range. -/
theorem solve_BD_nrm_superadd (L0 W0 l w : Nat) (Nmax : Int)
    (hl : 0 < l) (hw : 0 < w) :
    ∀ u v : Nat, u + v ≤ max L0 W0 →
      (solve_BD L0 W0 l w Nmax).c.nrm u + (solve_BD L0 W0 l w Nmax).c.nrm v ≤
        (solve_BD L0 W0 l w Nmax).c.nrm (u + v) := by
  intro u v huv
  show normAt (conicSet (max L0 W0) l w) u + normAt (conicSet (max L0 W0) l w) v ≤
    normAt (conicSet (max L0 W0) l w) (u + v)
  exact normAt_superadd (max L0 W0) l w hl hw u v huv

/-- The normalized pallet dimensions returned by solve_BD are at most the
larger input dimension. -/
theorem solve_BD_dims_le (L0 W0 l w : Nat) (Nmax : Int) :
    (solve_BD L0 W0 l w Nmax).L_n ≤ max L0 W0 ∧
    (solve_BD L0 W0 l w Nmax).W_n ≤ max L0 W0 := by
  constructor
  · show normAt (conicSet (max L0 W0) l w) (max L0 W0) ≤ max L0 W0
    exact normAt_le _ _
  · show normAt (conicSet (max L0 W0) l w) (min L0 W0) ≤ max L0 W0
    exact le_trans (normAt_le _ _) (by omega)

/-- Reading out the first n entries of a pairwise-disjoint list (with the
zero-box default beyond the end) preserves pairwise disjointness. -/
theorem pairwise_map_getD (l : List Box) (n : Nat) (h : l.Pairwise disjB) :
    ((List.range n).map (fun k => l.getD k ⟨0, 0, 0, 0⟩)).Pairwise disjB := by
  rw [List.pairwise_map]
  apply List.Pairwise.imp _ (List.pairwise_lt_range n)
  intro i j hij
  by_cases hj : j < l.length
  · have hi : i < l.length := Nat.lt_trans hij hj
    rw [List.getD_eq_getElem _ _ hj, List.getD_eq_getElem _ _ hi]
    exact List.pairwise_iff_getElem.mp h i j hi hj hij
  · have hd : l.getD j ⟨0, 0, 0, 0⟩ = ⟨0, 0, 0, 0⟩ :=
      List.getD_eq_default _ _ (by omega)
    rw [hd]
    right; left
    exact Nat.zero_le _

/-- C2: for every valid input, in the placement list returned by pack, the
interiors of any two distinct placements are disjoint (pairwise, each pair
is separated by an axis-aligned line). -/
theorem C2_thm (L0 W0 l0 w0 : Int) (n : Nat) (bs : List Box)
    (h : pack L0 W0 l0 w0 = some (n, bs)) : bs.Pairwise disjB := by
  unfold pack at h
  by_cases hv : packInvalidDims L0 W0 l0 w0 = true
  · rw [if_pos hv] at h
    cases h
  · rw [if_neg hv] at h
    simp only [Option.some.injEq, Prod.mk.injEq] at h
    obtain ⟨hn, hbs⟩ := h
    have hlw : 0 < l0.toNat ∧ 0 < w0.toNat := by
      simp only [packInvalidDims, Bool.or_eq_true, decide_eq_true_eq] at hv
      push_neg at hv
      omega
    subst hbs
    apply pairwise_map_getD
    exact (drawRec_spec
      (solve_BD (max L0.toNat W0.toNat) (min L0.toNat W0.toNat) l0.toNat w0.toNat 0).c
      (solve_BD (max L0.toNat W0.toNat) (min L0.toNat W0.toNat) l0.toNat w0.toNat 0).st
      (max (max L0.toNat W0.toNat) (min L0.toNat W0.toNat))
      (solve_BD_nrm_le _ _ _ _ _)
      (solve_BD_nrm_superadd _ _ _ _ _ hlw.1 hlw.2)
      (solve_BD_wfcut _ _ _ _ _)
      (max L0.toNat W0.toNat * min L0.toNat W0.toNat + 2)
      (solve_BD (max L0.toNat W0.toNat) (min L0.toNat W0.toNat) l0.toNat w0.toNat 0).L_n
      (solve_BD (max L0.toNat W0.toNat) (min L0.toNat W0.toNat) l0.toNat w0.toNat 0).W_n
      0 0
      (solve_BD_dims_le _ _ _ _ _).1
      (solve_BD_dims_le _ _ _ _ _).2).2

/-- Witness for C2 at the unit input: pack (1, 1, 1, 1) returns the single
unit box, and the claim theorem yields its (trivial) pairwise
disjointness. -/
theorem C2_wit : pack 1 1 1 1 = some (1, [⟨0, 0, 1, 1⟩]) ∧
    ([⟨0, 0, 1, 1⟩] : List Box).Pairwise disjB :=
  ⟨by decide, C2_thm 1 1 1 1 1 [⟨0, 0, 1, 1⟩] (by decide)⟩

end RPA
